import Mathlib

/-!
# Verification of the `envars2` configuration manager

A shallow embedding of the core of the `envars2` repository
(`src/envars/models.py`, `src/envars/main.py`, `src/envars/cli.py`) together
with proofs about its documented behaviour.

Conventions of the embedding:
* Python `str | None` fields become `Option String`; Python truthiness of such
  a value (`if s:`) is `truthy s`, which is `false` for both `None` and `""`.
* Python dictionaries become association lists in insertion order; a dict key
  set is modelled by the list of keys and dict membership by list membership.
* Functions that `raise` become `Except`-valued functions.
* The `Secret` subclass of `str` becomes the `Val` sum (`plain`/`secret`);
  `isinstance(v, str)` is true for both variants, as in the source.
-/

set_option maxRecDepth 4000

namespace Envars

instance {e a : Type} [DecidableEq e] [DecidableEq a] : DecidableEq (Except e a) :=
  fun x y =>
  match x, y with
  | .error u, .error v =>
    if h : u = v then .isTrue (by rw [h]) else .isFalse (by simp [h])
  | .ok u, .ok v =>
    if h : u = v then .isTrue (by rw [h]) else .isFalse (by simp [h])
  | .error _, .ok _ => .isFalse (by simp)
  | .ok _, .error _ => .isFalse (by simp)

/-- Python `str.upper()` (character-wise uppercasing; `String.toUpper` is
not kernel-reducible, this is). -/
def strUpper (s : String) : String := String.mk (s.data.map Char.toUpper)

/-- Code-point lexicographic comparison of char lists (Python string `<=`). -/
def charListLe : List Char → List Char → Bool
  | [], _ => true
  | _ :: _, [] => false
  | a :: as, b :: bs => if a = b then charListLe as bs else decide (a < b)

/-- Python string `<=` (kernel-reducible, unlike `String.decidableLE`). -/
def strLe (a b : String) : Bool := charListLe a.data b.data

/-- Python `s.startswith(p)` (kernel-reducible `String.startsWith`). -/
def strStartsWith (s p : String) : Bool := p.data.isPrefixOf s.data

/-- Python `sub in s` substring test. -/
def listContainsSub (needle : List Char) : List Char → Bool
  | [] => needle.isEmpty
  | c :: rest => needle.isPrefixOf (c :: rest) || listContainsSub needle rest

/-- Python `sub in s`. -/
def containsSub (s sub : String) : Bool := listContainsSub sub.data s.data

/-- Everything of `s` after its first `n` characters (Python `s[n:]`). -/
def strDrop (s : String) (n : Nat) : String := String.mk (s.data.drop n)

/-- Whether `s` contains the character `c` (Python `c in s`). -/
def strHasChar (s : String) (c : Char) : Bool := s.data.contains c

/-- Python truthiness of an optional string: `None` and `""` are falsy. -/
def truthy : Option String → Bool
  | none => false
  | some s => decide (s ≠ "")

/-- `VariableValue.SCOPES` from `models.py`. -/
inductive Scope
  | DEFAULT
  | ENVIRONMENT
  | LOCATION
  | SPECIFIC
deriving DecidableEq

/-- A variable value: either a plain string or a `Secret`-tagged ciphertext
string (the `Secret(str)` subclass in `main.py`). -/
inductive Val
  | plain (s : String)
  | secret (s : String)
deriving DecidableEq

/-- The underlying string of a value.  `Secret` is a `str` subclass, so code
doing `isinstance(value, str)` sees the raw string of either variant. -/
def Val.str : Val → String
  | .plain s => s
  | .secret s => s

/-- Whether the value carries the `Secret` tag. -/
def Val.isSecret : Val → Bool
  | .plain _ => false
  | .secret _ => true

/-- `models.Location`.  `location_id` is always set (the constructor fills in
a UUID when absent); we require the caller to supply it. -/
structure Location where
  name : String
  location_id : String
  kms_key : Option String := none
deriving DecidableEq

/-- `models.Variable`.  The shipped `models.py` does not declare the
`validation` attribute, but `main.load_from_yaml` and `cli.add_env_var`
construct and read it (and the test-suite exercises it), so the embedding
carries the field. -/
structure Variable where
  name : String
  description : Option String := none
  validation : Option String := none
deriving DecidableEq

/-- `models.VariableValue` (without the UUID `variable_value_id`, which never
takes part in any behaviour). -/
structure VariableValue where
  variable_name : String
  value : Val
  scope_type : Scope
  environment_name : Option String := none
  location_id : Option String := none
deriving DecidableEq

/-- The constructor checks of `VariableValue.__init__`: scope must agree with
which of the two axis fields are `None` (`""` passes the Python `is not None`
checks, hence is allowed here too). -/
def VariableValue.scopeWfB (vv : VariableValue) : Bool :=
  match vv.scope_type with
  | .DEFAULT => decide (vv.environment_name = none ∧ vv.location_id = none)
  | .ENVIRONMENT => decide (vv.environment_name ≠ none ∧ vv.location_id = none)
  | .LOCATION => decide (vv.environment_name = none ∧ vv.location_id ≠ none)
  | .SPECIFIC => decide (vv.environment_name ≠ none ∧ vv.location_id ≠ none)

/-- `models.VariableManager`.  Python dicts keyed by name/id are modelled as
insertion-ordered lists; `environments` keeps only the names (an
`Environment` carries nothing else that the program reads). -/
structure VariableManager where
  app : Option String := none
  kms_key : Option String := none
  description_mandatory : Bool := false
  variables_ : List Variable := []
  environments : List String := []
  locations : List Location := []
  variable_values : List VariableValue := []
deriving DecidableEq

namespace VariableManager

/-- `VariableManager.add_environment` (raises on duplicate name). -/
def add_environment (m : VariableManager) (name : String) :
    Except String VariableManager :=
  if m.environments.contains name then
    .error ("Environment with name '" ++ name ++ "' already exists.")
  else
    .ok { m with environments := m.environments ++ [name] }

/-- `VariableManager.add_location` (raises on duplicate location id). -/
def add_location (m : VariableManager) (lo : Location) :
    Except String VariableManager :=
  if m.locations.any (fun l => decide (l.location_id = lo.location_id)) then
    .error ("Location with ID " ++ lo.location_id ++ " already exists.")
  else
    .ok { m with locations := m.locations ++ [lo] }

/-- `VariableManager.add_variable` (raises on duplicate name). -/
def add_variable (m : VariableManager) (va : Variable) :
    Except String VariableManager :=
  if m.variables_.any (fun v => decide (v.name = va.name)) then
    .error ("Variable with name '" ++ va.name ++ "' already exists.")
  else
    .ok { m with variables_ := m.variables_ ++ [va] }

/-- The duplicate test of `VariableManager.add_variable_value`: an existing
binding blocks the new one when name and scope agree and the scope's
distinguishing fields agree. -/
def blocks (existing vv : VariableValue) : Bool :=
  decide (existing.variable_name = vv.variable_name) &&
  decide (existing.scope_type = vv.scope_type) &&
  (match vv.scope_type with
   | .DEFAULT => true
   | .ENVIRONMENT => decide (existing.environment_name = vv.environment_name)
   | .LOCATION => decide (existing.location_id = vv.location_id)
   | .SPECIFIC => decide (existing.environment_name = vv.environment_name ∧
       existing.location_id = vv.location_id))

/-- `VariableManager.add_variable_value`. -/
def add_variable_value (m : VariableManager) (vv : VariableValue) :
    Except String VariableManager :=
  if m.variable_values.any (fun ex => blocks ex vv) then
    .error ("Value for variable '" ++ vv.variable_name ++ "' already exists.")
  else
    .ok { m with variable_values := m.variable_values ++ [vv] }

/-- `VariableManager.get_variable`: most-specific binding for a variable in a
given (environment, location-name) context. -/
def get_variable (m : VariableManager) (variable_name : String)
    (environment_name : Option String := none)
    (location_name : Option String := none) : Option VariableValue :=
  if ¬ m.variables_.any (fun va => decide (va.name = variable_name)) then none
  else
    let loc_id : Option String :=
      if truthy location_name then
        match m.locations.find? (fun lo => decide (some lo.name = location_name)) with
        | some lo => some lo.location_id
        | none => none
      else none
    let candidate_values :=
      m.variable_values.filter (fun vv => decide (vv.variable_name = variable_name))
    let specific_val : Option VariableValue :=
      if truthy environment_name && truthy loc_id then
        candidate_values.find? (fun vv => decide (vv.scope_type = .SPECIFIC ∧
          vv.environment_name = environment_name ∧ vv.location_id = loc_id))
      else none
    match specific_val with
    | some v => some v
    | none =>
      let env_val : Option VariableValue :=
        if truthy environment_name then
          candidate_values.find? (fun vv => decide (vv.scope_type = .ENVIRONMENT ∧
            vv.environment_name = environment_name))
        else none
      match env_val with
      | some v => some v
      | none =>
        let loc_val : Option VariableValue :=
          if truthy loc_id then
            candidate_values.find? (fun vv => decide (vv.scope_type = .LOCATION ∧
              vv.location_id = loc_id))
          else none
        match loc_val with
        | some v => some v
        | none => candidate_values.find? (fun vv => decide (vv.scope_type = .DEFAULT))

end VariableManager

/-! ## Templates (`jinja2` as used by `main.py`)

The program hands variable values to `jinja2`.  We model the fragment the
documents use, `{{ NAME }}`: a template is a sequence of literal characters
and simple-name references.  Values containing other `jinja2` syntax (such as
`{{ env.get('X', d) }}`) fail this parse; the source catches every parse and
render failure, treating the value as having no dependencies and rendering it
to itself, so a parse failure below models exactly that. -/

/-- A template token: a literal piece of text or a `{{ NAME }}` reference. -/
inductive Tok
  | lit (s : String)
  | ref (n : String)
deriving DecidableEq

/-- Characters allowed in a simple `jinja2` identifier. -/
def nameChar (c : Char) : Bool := c.isAlphanum || decide (c = '_')

/-- Tokenizer for the modelled template fragment.  The fuel argument only
serves termination; `fuel = length of the input` always suffices. -/
def parseToks : Nat → List Char → Option (List Tok)
  | _, [] => some []
  | 0, _ :: _ => none
  | fuel + 1, '{' :: '{' :: rest =>
    let afterWs := rest.dropWhile (fun c => decide (c = ' '))
    let nameCs := afterWs.takeWhile nameChar
    let afterName := (afterWs.drop nameCs.length).dropWhile (fun c => decide (c = ' '))
    (match afterName with
     | '}' :: '}' :: rest2 =>
       if nameCs.isEmpty then none
       else
         match parseToks fuel rest2 with
         | some ts => some (Tok.ref (String.mk nameCs) :: ts)
         | none => none
     | _ => none)
  | fuel + 1, c :: rest =>
    match parseToks fuel rest with
    | some ts => some (Tok.lit (String.mk [c]) :: ts)
    | none => none

/-- Parse a value string as a template. -/
def parseTemplate (s : String) : Option (List Tok) :=
  parseToks s.length s.data

/-- `meta.find_undeclared_variables`: the set (here: deduplicated list) of
referenced names; `[]` when the template does not parse (the caller catches
the parse error and records no dependencies). -/
def findUndeclared (s : String) : List String :=
  match parseTemplate s with
  | some ts => (ts.filterMap (fun t => match t with | .ref n => some n | _ => none)).dedup
  | none => []

/-- `template.render(context)`: substitute each reference with its context
value; an absent name is `jinja2`'s default `Undefined`, which renders as the
empty string.  A template that fails to parse renders to the raw value (the
caller catches the exception and keeps the value). -/
def renderTemplate (s : String) (ctx : String → Option String) : String :=
  match parseTemplate s with
  | none => s
  | some ts =>
    String.join (ts.map (fun t => match t with
      | .lit u => u
      | .ref n => (ctx n).getD ""))

/-! ## Cycle detection (`main._check_for_circular_dependencies`)

Kahn's algorithm over the dependency graph of a `{name: value}` mapping. -/

/-- The keys of an association list. -/
def keysOf (vars : List (String × Val)) : List String := vars.map Prod.fst

/-- The value stored for a key (first occurrence; Python dict keys are
unique). -/
def valOf (vars : List (String × Val)) (v : String) : Val :=
  ((vars.find? (fun p => decide (p.1 = v))).map Prod.snd).getD (.plain "")

/-- The dependencies of one value that take part in the graph:
`find_undeclared_variables(ast) - {"env"}`, kept when `dep in variables`. -/
def depsIn (vars : List (String × Val)) (value : Val) : List String :=
  ((findUndeclared value.str).filter (fun d => decide (d ≠ "env"))).filter
    (fun d => (keysOf vars).contains d)

/-- `adj[u]`: the variables whose values reference `u` (in key order). -/
def adjOf (vars : List (String × Val)) (u : String) : List String :=
  (vars.filter (fun p => (depsIn vars p.2).contains u)).map Prod.fst

/-- `in_degree[v]`: how many in-graph names `v`'s value references. -/
def indegOf (vars : List (String × Val)) (v : String) : Nat :=
  (depsIn vars (valOf vars v)).length

/-- The queue loop of Kahn's algorithm.  Fuel only serves termination; each
node enters the queue at most once, so `fuel = number of nodes` reproduces
the source's unbounded `while queue`. -/
def kahnLoop (adj : String → List String) :
    Nat → List String → (String → Nat) → List String → List String
  | 0, _, _, acc => acc
  | _ + 1, [], _, acc => acc
  | fuel + 1, u :: qs, indeg, acc =>
    let st := (adj u).foldl
      (fun (p : (String → Nat) × List String) v =>
        let d := p.1 v - 1
        (fun w => if w = v then d else p.1 w,
         if d = 0 then p.2 ++ [v] else p.2))
      (indeg, [])
    kahnLoop adj fuel (qs ++ st.2) st.1 (acc ++ [u])

/-- `sorted_order` as computed by the source. -/
def topoOrder (vars : List (String × Val)) : List String :=
  kahnLoop (adjOf vars) vars.length
    ((vars.filter (fun p => decide (indegOf vars p.1 = 0))).map Prod.fst)
    (indegOf vars) []

/-- Lexicographic sort of a list of names (`sorted` in Python). -/
def sortStrings (l : List String) : List String :=
  l.insertionSort (fun a b => strLe a b = true)

/-- `main._check_for_circular_dependencies`: returns the topological order,
or the sorted list of names left out of it (the reported cycle set). -/
def _check_for_circular_dependencies (vars : List (String × Val)) :
    Except (List String) (List String) :=
  let sorted_order := topoOrder vars
  if sorted_order.length ≠ vars.length then
    .error (sortStrings (((keysOf vars).filter
      (fun v => ¬ sorted_order.contains v)).dedup))
  else .ok sorted_order

/-! ## Per-context checks (`cli.py`) -/

/-- The effective bindings of one (environment, location) context, as built
by `cli._check_all_contexts_for_circular_dependencies`. -/
def effectiveVars (m : VariableManager) (env_name loc_name : String) :
    List (String × Val) :=
  m.variables_.filterMap (fun va =>
    (m.get_variable va.name (some env_name) (some loc_name)).map
      (fun vv => (va.name, vv.value)))

/-- All (env, loc, cycle) failures, in the iteration order of the source's
nested loops. -/
def contextCycleFailures (m : VariableManager) :
    List (String × String × List String) :=
  m.environments.flatMap (fun e => m.locations.filterMap (fun lo =>
    match _check_for_circular_dependencies (effectiveVars m e lo.name) with
    | .error cyc => some (e, lo.name, cyc)
    | .ok _ => none))

/-- `cli._check_all_contexts_for_circular_dependencies`: raises at the first
failing context, naming it. -/
def _check_all_contexts_for_circular_dependencies (m : VariableManager) :
    Except (String × String × List String) Unit :=
  match contextCycleFailures m with
  | [] => .ok ()
  | failure :: _ => .error failure

/-- Modelled from the spec: "For each variable `v` in `D`, among bindings for
`v` select the first match in the order SPECIFIC(`e`,`l`) → ENVIRONMENT(`e`)
→ LOCATION(`l`) → DEFAULT."  The location axis denotes the configured
location carrying that name. -/
def specSelect (m : VariableManager) (v : String) (e l : Option String) :
    Option VariableValue :=
  let lid : Option String :=
    l.bind (fun s => (m.locations.find? (fun lo => decide (lo.name = s))).map
      (fun lo => lo.location_id))
  let cand := m.variable_values.filter (fun vv => decide (vv.variable_name = v))
  match cand.find? (fun vv => decide (vv.scope_type = .SPECIFIC ∧
      vv.environment_name = e ∧ vv.location_id = lid)) with
  | some b => some b
  | none =>
    match cand.find? (fun vv => decide (vv.scope_type = .ENVIRONMENT ∧
        vv.environment_name = e)) with
    | some b => some b
    | none =>
      match cand.find? (fun vv => decide (vv.scope_type = .LOCATION ∧
          vv.location_id = lid)) with
      | some b => some b
      | none => cand.find? (fun vv => decide (vv.scope_type = .DEFAULT))

/-- Modelled from the spec (claim C10): with an unconfigured location name the
selection degenerates to "the ENVIRONMENT(`e`) binding, else the DEFAULT
binding, else nothing". -/
def envThenDefaultView (m : VariableManager) (v : String) (e : Option String) :
    Option VariableValue :=
  if ¬ m.variables_.any (fun va => decide (va.name = v)) then none
  else
    let cand := m.variable_values.filter (fun vv => decide (vv.variable_name = v))
    match cand.find? (fun vv => decide (vv.scope_type = .ENVIRONMENT ∧
        vv.environment_name = e)) with
    | some b => some b
    | none => cand.find? (fun vv => decide (vv.scope_type = .DEFAULT))

/-! ## Cloud provider and KMS contexts -/

/-- The two KMS providers. -/
inductive Cloud
  | aws
  | gcp
deriving DecidableEq

/-- `cli._get_cloud_provider`: derived from the KMS key's prefix. -/
def _get_cloud_provider (m : VariableManager) : Option Cloud :=
  if truthy m.kms_key then
    let k := m.kms_key.getD ""
    if strStartsWith k "arn:aws:kms:" then some .aws
    else if strStartsWith k "projects/" then some .gcp
    else none
  else none

/-- The encryption context built by `cli.add_env_var` before encrypting a new
secret: keys `app`, `env`, `location`, taken from the manager's app label and
the command's `--env`/`--loc` arguments. -/
def addEncryptionContext (app env loc : Option String) :
    List (String × String) :=
  [("app", app.getD "")]
    ++ (if truthy env then [("env", env.getD "")] else [])
    ++ (if truthy loc then [("location", loc.getD "")] else [])

/-- The context built by `main._get_decrypted_value` before decrypting a
stored secret: keys `app`, `environment`, `location`, the location rendered
as the name of the configured location carrying the binding's location id. -/
def decryptContext (m : VariableManager) (vv : VariableValue) :
    List (String × String) :=
  [("app", m.app.getD "")]
    ++ (if truthy vv.environment_name then
          [("environment", vv.environment_name.getD "")] else [])
    ++ (match (if truthy vv.location_id then
          m.locations.find? (fun lo => decide (some lo.location_id = vv.location_id))
        else none) with
       | some lo => if truthy (some lo.name) then [("location", lo.name)] else []
       | none => [])

/-- Canonical form of an authenticated-encryption context: key-sorted pairs
(dict equality is order-insensitive; the GCP adapter serializes the context
as JSON with sorted keys). -/
def canonCtx (ctx : List (String × String)) : List (String × String) :=
  ctx.insertionSort (fun a b => strLe a.1 b.1 = true)

/-- Modelled from the spec (§4.2): the KMS provider itself is outside the
repository; its contract is that a ciphertext is bound to the encrypting key
and authenticated context. -/
structure Ciphertext where
  plaintext : String
  key_id : String
  context : List (String × String)
deriving DecidableEq

/-- Modelled from the spec (§4.2): `encrypt(plaintext, key_id, context)`. -/
def kmsEncrypt (p k : String) (ctx : List (String × String)) : Ciphertext :=
  ⟨p, k, canonCtx ctx⟩

/-- Modelled from the spec (§4.2): decryption succeeds exactly when key and
context equal those used at encryption; otherwise `DecryptError`. -/
def kmsDecrypt (c : Ciphertext) (k : String) (ctx : List (String × String)) :
    Except Unit String :=
  if c.key_id = k ∧ c.context = canonCtx ctx then .ok c.plaintext else .error ()

/-- The external adapters a resolution pass may call, as opaque parameters:
process environment, the two KMS decrypt agents, and the three indirection
stores. -/
structure ResolveEnv where
  procEnv : String → Option String := fun _ => none
  awsDecrypt : String → List (String × String) → Except String String :=
    fun s _ => .ok s
  gcpDecrypt : String → String → List (String × String) → Except String String :=
    fun s _ _ => .ok s
  ssm : String → Option String := fun _ => none
  gcpsm : String → Option String := fun _ => none
  cfExports : String → Option String := fun _ => none

/-- `main._get_decrypted_value`. -/
def _get_decrypted_value (R : ResolveEnv) (m : VariableManager)
    (vv : VariableValue) : Except String String :=
  if ¬ vv.value.isSecret then .ok vv.value.str
  else if ¬ truthy m.kms_key then
    .error "Cannot decrypt without a kms_key in configuration."
  else
    let k := m.kms_key.getD ""
    let ctx := decryptContext m vv
    if strStartsWith k "arn:aws:kms:" then
      (R.awsDecrypt vv.value.str ctx).mapError
        (fun e => "Error decrypting " ++ vv.variable_name ++ ": " ++ e)
    else if strStartsWith k "projects/" then
      (R.gcpDecrypt vv.value.str k ctx).mapError
        (fun e => "Error decrypting " ++ vv.variable_name ++ ": " ++ e)
    else .error ("Error decrypting " ++ vv.variable_name ++ ": Unknown KMS key format: " ++ k)

/-! ## Resolution (`main._get_resolved_variables`) -/

/-- Step A plus Step B: select each variable's binding for the context and
unwrap secrets, in the declaration order of the variables dict. -/
def pickAndDecrypt (R : ResolveEnv) (m : VariableManager) (env : String)
    (loc : Option String) (decrypt : Bool) :
    List Variable → Except String (List (String × Val))
  | [] => .ok []
  | va :: rest =>
    match m.get_variable va.name (some env) loc with
    | none => pickAndDecrypt R m env loc decrypt rest
    | some vv => do
      let value : Val ←
        if decrypt && vv.value.isSecret then
          (Val.plain ·) <$> _get_decrypted_value R m vv
        else pure vv.value
      if value.str = "[DECRYPTION FAILED]" then
        .error "Decryption failed"
      let tail ← pickAndDecrypt R m env loc decrypt rest
      pure ((va.name, value) :: tail)

/-- Step C: render the values in topological order; the render context maps
each already-rendered name to its rendered value (the reserved name `env`
exposes the process environment only through attribute access, which lies
outside the modelled template fragment). -/
def renderAll (resolved : List (String × Val)) (order : List String) :
    List (String × String) :=
  order.foldl (fun rendered v =>
    let value := valOf resolved v
    rendered ++ [(v, renderTemplate value.str
      (fun n => (rendered.find? (fun p => decide (p.1 = n))).map Prod.snd))]) []

/-- Step D: dereference indirection prefixes on the rendered values. -/
def substituteIndirections (R : ResolveEnv) (vars : List (String × String)) :
    Except String (List (String × String)) :=
  vars.mapM (fun kv =>
    if strStartsWith kv.2 "parameter_store:" then
      let param_name := strDrop kv.2 "parameter_store:".length
      match R.ssm param_name with
      | some v => .ok (kv.1, v)
      | none => .error ("Parameter '" ++ param_name ++ "' not found in Parameter Store.")
    else if strStartsWith kv.2 "gcp_secret_manager:" then
      let secret_name := strDrop kv.2 "gcp_secret_manager:".length
      match R.gcpsm secret_name with
      | some v => .ok (kv.1, v)
      | none => .error ("Secret '" ++ secret_name ++ "' not found in GCP Secret Manager.")
    else if strStartsWith kv.2 "cloudformation_export:" then
      let export_name := strDrop kv.2 "cloudformation_export:".length
      match R.cfExports export_name with
      | some v => .ok (kv.1, v)
      | none => .error ("Export '" ++ export_name ++ "' not found in CloudFormation exports.")
    else .ok kv)

/-- `main._get_resolved_variables`. -/
def _get_resolved_variables (R : ResolveEnv) (m : VariableManager)
    (loc env : Option String) (decrypt : Bool) :
    Except String (List (String × String)) := do
  let env ←
    match env with
    | some e => pure e
    | none =>
      match R.procEnv "STAGE" with
      | some e => pure e
      | none =>
        (Except.error
          "The --env option is required if the STAGE environment variable is not set."
          : Except String String)
  if ¬ m.environments.contains env then
    Except.error ("Environment '" ++ env ++ "' not found in configuration.")
  if ¬ m.locations.any (fun lo => decide (some lo.name = loc)) then
    Except.error ("Location '" ++ loc.getD "None" ++ "' not found in configuration.")
  let resolved_vars ← pickAndDecrypt R m env loc decrypt m.variables_
  let sorted_order ← (_check_for_circular_dependencies resolved_vars).mapError
    (fun cyc => "Circular dependency detected in variables: " ++
      String.intercalate ", " cyc)
  substituteIndirections R (renderAll resolved_vars sorted_order)

/-! ## CLI environment selection and dotenv output -/

/-- The environment part of `cli._resolve_and_print_context`: an explicit
`--env` wins, else the `ENVARS_ENV` process variable. -/
def cliFinalEnv (envArg : Option String) (procEnv : String → Option String) :
    Option String :=
  match envArg with
  | some e => some e
  | none => procEnv "ENVARS_ENV"

/-- The resolution entry point of the `output`/`exec`/`set-systemd-env`
commands: CLI environment selection composed with the resolver. -/
def resolveWithCliEnv (R : ResolveEnv) (m : VariableManager)
    (loc env : Option String) : Except String (List (String × String)) :=
  _get_resolved_variables R m loc (cliFinalEnv env R.procEnv) true

/-- `v.replace("\n", "\\n")`: single-character pattern, so a per-character
expansion is exact. -/
def escapeNewlines (s : String) : String :=
  String.mk (s.data.flatMap (fun c => if c = '\n' then ['\\', 'n'] else [c]))

/-- One line of `output --format dotenv`: values containing a newline are
escaped and double-quoted, others are emitted verbatim. -/
def dotenvLine (kv : String × String) : String :=
  if strHasChar kv.2 '\n' then
    kv.1 ++ "=\"" ++ escapeNewlines kv.2 ++ "\""
  else
    kv.1 ++ "=" ++ kv.2

/-- The dotenv serialization of a resolved mapping. -/
def dotenvLines (vars : List (String × String)) : List String :=
  vars.map dotenvLine

/-- Modelled from the spec (§6.5): "Newlines in values are escaped as `\n`
and the whole value is wrapped in double quotes." -/
def dotenvSpecLine (kv : String × String) : String :=
  kv.1 ++ "=\"" ++ escapeNewlines kv.2 ++ "\""

/-- Modelled from the spec (§6.5): the claimed dotenv serialization. -/
def dotenvSpecLines (vars : List (String × String)) : List String :=
  vars.map dotenvSpecLine

/-! ## The `validate` command (`cli.validate_command`) -/

/-- The violations `validate` can report (structured stand-ins for the
source's message strings). -/
inductive VErr
  | undefinedVariable (name : String)
  | notUppercase (name : String)
  | missingDescription (name : String)
  | defaultSecret (name : String)
  | mismatchedRemote (name : String)
  | circular (cyc : List String)
  | validationFailed (name value : String)
deriving DecidableEq

/-- `main._validate_variable_value` as a boolean: `True` when no rule is
violated.  `re_match` stands for `re.match` of the `re` library. -/
def _validate_variable_value (re_match : String → String → Bool)
    (m : VariableManager) (var_name value : String) : Bool :=
  match m.variables_.find? (fun v => decide (v.name = var_name)) with
  | some va => if truthy va.validation then re_match (va.validation.getD "") value else true
  | none => true

/-- Python dict assignment `d[k] = v` on an insertion-ordered association
list: update in place, else append. -/
def dinsert (k : String) (v : α) : List (String × α) → List (String × α)
  | [] => [(k, v)]
  | q :: rest => if q.1 = k then (k, v) :: rest else q :: dinsert k v rest

/-- The global `{variable: value}` dict that `validate`'s cycle check runs
on: Python's dict comprehension keeps the first-occurrence key order and the
last value per key. -/
def pyDict (ps : List (String × Val)) : List (String × Val) :=
  ps.foldl (fun d p => dinsert p.1 p.2 d) []

/-- The error list accumulated by `cli.validate_command` (checks 1–7 in
order; `validate` exits non-zero exactly when this list is non-empty). -/
def validateErrors (re_match : String → String → Bool) (m : VariableManager)
    (ignore_default_secrets : Bool) : List VErr :=
  let check1 := m.variable_values.filterMap (fun vv =>
    if ¬ m.variables_.any (fun va => decide (va.name = vv.variable_name)) then
      some (VErr.undefinedVariable vv.variable_name)
    else none)
  let check2 := m.variables_.filterMap (fun va =>
    if strUpper va.name ≠ va.name then some (VErr.notUppercase va.name) else none)
  let check3 :=
    if m.description_mandatory then
      m.variables_.filterMap (fun va =>
        if ¬ truthy va.description then some (VErr.missingDescription va.name) else none)
    else []
  let check4 :=
    if ¬ ignore_default_secrets then
      m.variable_values.filterMap (fun vv =>
        if vv.value.isSecret && decide (vv.scope_type = .DEFAULT) then
          some (VErr.defaultSecret vv.variable_name)
        else none)
    else []
  let check5 :=
    match _get_cloud_provider m with
    | some .aws => m.variable_values.filterMap (fun vv =>
        if strStartsWith vv.value.str "gcp_secret_manager:" then
          some (VErr.mismatchedRemote vv.variable_name)
        else none)
    | some .gcp => m.variable_values.filterMap (fun vv =>
        if strStartsWith vv.value.str "parameter_store:" ||
            strStartsWith vv.value.str "cloudformation_export:" then
          some (VErr.mismatchedRemote vv.variable_name)
        else none)
    | none => []
  let check6 :=
    match _check_for_circular_dependencies
        (pyDict (m.variable_values.map (fun vv => (vv.variable_name, vv.value)))) with
    | .error cyc => [VErr.circular cyc]
    | .ok _ => []
  let check7 := m.variable_values.filterMap (fun vv =>
    if ¬ _validate_variable_value re_match m vv.variable_name vv.value.str then
      some (VErr.validationFailed vv.variable_name vv.value.str)
    else none)
  check1 ++ check2 ++ check3 ++ check4 ++ check5 ++ check6 ++ check7

/-! ## The `add` command (`cli.add_env_var`) -/

/-- The failures of `cli.add_env_var` (after argument parsing). -/
inductive AddErr
  | notUppercase
  | validationFailed
  | ambiguousSensitive
  | mismatchedRemote
  | descriptionMandatory
  | secretNeedsScope
  | noKmsKey
  | unknownKmsFormat
  | noLocationsConfigured
  | locNotFound (l : String)
  | duplicateValue
  | circular (env loc : String) (cyc : List String)
deriving DecidableEq

/-- The fixed sensitivity keyword list of `cli.add_env_var`. -/
def sensitive_keywords : List String := ["PASSWORD", "TOKEN", "SECRET", "KEY"]

/-- Remove the first binding matching the new value's scope (the
update-in-place loop of `cli.add_env_var`; its match condition coincides
with `blocks`). -/
def removeFirstBlocking (nv : VariableValue) :
    List VariableValue → List VariableValue
  | [] => []
  | vv :: rest =>
    if VariableManager.blocks vv nv then rest
    else vv :: removeFirstBlocking nv rest

/-- The arguments of `cli.add_env_var` after the `VAR=value` /
`--value-from-file` parsing. -/
structure AddArgs where
  var_name : String
  var_value : String
  env : Option String := none
  loc : Option String := none
  secret : Bool := false
  no_secret : Bool := false
  description : Option String := none
  validation : Option String := none

/-- The scope derived by `cli.add_env_var` from which axes were given. -/
def addScope (env loc : Option String) : Scope :=
  if truthy env && truthy loc then .SPECIFIC
  else if truthy env then .ENVIRONMENT
  else if truthy loc then .LOCATION
  else .DEFAULT

/-- The ensure-variable step of `cli.add_env_var`: create the variable (with
mandatory-description check) or update its description/validation. -/
def ensureVariable (m : VariableManager) (a : AddArgs) :
    Except AddErr VariableManager :=
  if ¬ m.variables_.any (fun va => decide (va.name = a.var_name)) then
    if m.description_mandatory && !truthy a.description then
      .error .descriptionMandatory
    else
      -- `add_variable` cannot fail here: the name was just checked absent.
      .ok { m with variables_ :=
        m.variables_ ++ [⟨a.var_name, a.description, a.validation⟩] }
  else
    .ok { m with variables_ := m.variables_.map (fun va =>
      if va.name = a.var_name then
        { va with
          description := if truthy a.description then a.description else va.description,
          validation := if truthy a.validation then a.validation else va.validation }
      else va) }

/-- The secret branch of `cli.add_env_var`: scope and key checks, then
encryption under the scope-derived context.  `ef` stands for the chosen KMS
agent's `encrypt`. -/
def computeAddValue (ef : String → String → List (String × String) → String)
    (m : VariableManager) (a : AddArgs) : Except AddErr Val :=
  if a.secret then
    if !truthy a.env && !truthy a.loc then .error .secretNeedsScope
    else if ¬ truthy m.kms_key then .error .noKmsKey
    else
      let k := m.kms_key.getD ""
      if strStartsWith k "arn:aws:kms:" || strStartsWith k "projects/" then
        .ok (Val.secret (ef a.var_value k (addEncryptionContext m.app a.env a.loc)))
      else .error .unknownKmsFormat
  else .ok (Val.plain a.var_value)

/-- The location lookup of `cli.add_env_var`. -/
def computeLocationId (m : VariableManager) (a : AddArgs) :
    Except AddErr (Option String) :=
  if truthy a.loc then
    if m.locations.isEmpty then .error .noLocationsConfigured
    else
      match m.locations.find? (fun lo => decide (some lo.name = a.loc)) with
      | some lo => .ok (some lo.location_id)
      | none => .error (.locNotFound (a.loc.getD ""))
  else .ok none

/-- `cli.add_env_var` (after the `VAR=value` / `--value-from-file` parsing).
`rm` stands for `re.match`.  An `.ok` result is the manager subsequently
written to the document file; an `.error` leaves the file untouched (the
source writes only after every check passed). -/
def add_env_var (rm : String → String → Bool)
    (ef : String → String → List (String × String) → String)
    (m : VariableManager) (a : AddArgs) : Except AddErr VariableManager :=
  if strUpper a.var_name ≠ a.var_name then .error .notUppercase
  else if ¬ _validate_variable_value rm m a.var_name a.var_value then
    .error .validationFailed
  else if sensitive_keywords.any (fun kw => containsSub a.var_name kw) &&
      !a.secret && !a.no_secret then
    .error .ambiguousSensitive
  else if decide (_get_cloud_provider m = some .aws) &&
      strStartsWith a.var_value "gcp_secret_manager:" then
    .error .mismatchedRemote
  else if decide (_get_cloud_provider m = some .gcp) &&
      (strStartsWith a.var_value "parameter_store:" ||
       strStartsWith a.var_value "cloudformation_export:") then
    .error .mismatchedRemote
  else
    match ensureVariable m a with
    | .error e => .error e
    | .ok m1 =>
      match computeAddValue ef m1 a with
      | .error e => .error e
      | .ok var_value =>
        match computeLocationId m1 a with
        | .error e => .error e
        | .ok location_id =>
          let new_var_value : VariableValue :=
            { variable_name := a.var_name
              value := var_value
              scope_type := addScope a.env a.loc
              environment_name := if truthy a.env then a.env else none
              location_id := location_id }
          let m2 := { m1 with variable_values :=
            removeFirstBlocking new_var_value m1.variable_values }
          match m2.add_variable_value new_var_value with
          | .error _ => .error .duplicateValue
          | .ok m3 =>
            match _check_all_contexts_for_circular_dependencies m3 with
            | .error f => .error (.circular f.1 f.2.1 f.2.2)
            | .ok _ => .ok m3

/-- The identifying tuple of a binding: the spec's uniqueness key. -/
def VariableValue.key (vv : VariableValue) :
    String × Scope × Option String × Option String :=
  (vv.variable_name, vv.scope_type, vv.environment_name, vv.location_id)

/-! ## Document codec (`main.write_envars_yml` / `main.load_from_yaml`)

The YAML surface is modelled by the parsed tree the two functions exchange:
the writer produces the tree that `yaml.dump` serializes, the loader consumes
the tree that `yaml.load` parses; `yaml` round-trips that tree faithfully
(including the `!secret` tag, which is the `Val.secret` variant here). -/

/-- A parsed YAML value inside a variable block: a (possibly
`!secret`-tagged) scalar, or a mapping in document order. -/
inductive YVal
  | scalar (v : Val)
  | ymap (entries : List (String × YVal))

/-- One entry of the `configuration.locations` list: `{name: id}` or
`{name: {id: …, kms_key: …}}`. -/
inductive LocEntry
  | plainId (id : String)
  | detailed (id : String) (kms : Option String)
deriving DecidableEq

/-- The `configuration` section. -/
structure YCfg where
  app : Option String := none
  kms_key : Option String := none
  description_mandatory : Bool := false
  environments : List String := []
  locations : List (String × LocEntry) := []

/-- A parsed document: an absent `configuration` key models both a missing
section and the empty file (`yaml.load` → `None`), which the loader treats
identically. -/
structure YDoc where
  configuration : Option YCfg := none
  environment_variables : List (String × List (String × YVal)) := []

/-- Sort locations by name (`sorted(locations.values(), key=…name)`). -/
def sortByName (ls : List Location) : List Location :=
  ls.insertionSort (fun a b => strLe a.name b.name = true)

/-- Sort an association list by key (`sorted(d.items())`; keys are unique in
a dict, so the value component never takes part in the comparison). -/
def sortPairsByKey (ps : List (String × α)) : List (String × α) :=
  ps.insertionSort (fun a b => strLe a.1 b.1 = true)

/-- Sort variables by name (`sorted(manager.variables.items())`). -/
def sortVariables (vs : List Variable) : List Variable :=
  vs.insertionSort (fun a b => strLe a.name b.name = true)

/-- The writer's `configuration.locations` list. -/
def locationsData (m : VariableManager) : List (String × LocEntry) :=
  (sortByName m.locations).map (fun lo =>
    if truthy lo.kms_key then (lo.name, LocEntry.detailed lo.location_id lo.kms_key)
    else (lo.name, LocEntry.plainId lo.location_id))

/-- The writer's grouping pass over one variable's bindings: the last
`DEFAULT` value (`default_value = vv.value` in a loop). -/
def groupDefault (bs : List VariableValue) : Option Val :=
  bs.foldl (fun acc vv =>
    if vv.scope_type = .DEFAULT then some vv.value else acc) none

/-- `env_values[vv.environment_name] = vv.value` over the loop. -/
def groupEnv (bs : List VariableValue) : List (String × Val) :=
  bs.foldl (fun d vv =>
    if vv.scope_type = .ENVIRONMENT then
      dinsert (vv.environment_name.getD "") vv.value d
    else d) []

/-- `loc_values[loc_name] = vv.value` over the loop; the binding is dropped
when its location id resolves to no configured location or to a falsy
name. -/
def groupLoc (m : VariableManager) (bs : List VariableValue) :
    List (String × Val) :=
  bs.foldl (fun d vv =>
    if vv.scope_type = .LOCATION then
      match m.locations.find? (fun lo =>
          decide (some lo.location_id = vv.location_id)) with
      | some lo => if truthy (some lo.name) then dinsert lo.name vv.value d else d
      | none => d
    else d) []

/-- Nested dict assignment `specific_values[env][loc_name] = vv.value`. -/
def ndinsert (e ln : String) (v : Val) :
    List (String × List (String × Val)) → List (String × List (String × Val))
  | [] => [(e, [(ln, v)])]
  | q :: rest =>
    if q.1 = e then (e, dinsert ln v q.2) :: rest else q :: ndinsert e ln v rest

/-- `specific_values[env][loc_name] = vv.value` over the loop, with the same
drop rule for unresolvable locations. -/
def groupSpecific (m : VariableManager) (bs : List VariableValue) :
    List (String × List (String × Val)) :=
  bs.foldl (fun d vv =>
    if vv.scope_type = .SPECIFIC then
      match m.locations.find? (fun lo =>
          decide (some lo.location_id = vv.location_id)) with
      | some lo =>
        if truthy (some lo.name) then
          ndinsert (vv.environment_name.getD "") lo.name vv.value d
        else d
      | none => d
    else d) []

/-- The writer's emission of one `SPECIFIC` group under its environment key:
merge into an existing mapping at that key, else set the key to the sorted
group. -/
def setSpecificEntry (e : String) (inner : List (String × Val))
    (vd : List (String × YVal)) : List (String × YVal) :=
  let sortedInner : List (String × YVal) :=
    (sortPairsByKey inner).map (fun q => (q.1, YVal.scalar q.2))
  match vd.find? (fun p => decide (p.1 = e)) with
  | some p =>
    match p.2 with
    | .ymap existing =>
      dinsert e (.ymap (sortedInner.foldl (fun d q => dinsert q.1 q.2 d) existing)) vd
    | .scalar _ => dinsert e (.ymap sortedInner) vd
  | none => dinsert e (.ymap sortedInner) vd

/-- The `var_data` block the writer emits for one variable. -/
def varDataFor (m : VariableManager) (va : Variable) : List (String × YVal) :=
  let bs := m.variable_values.filter (fun vv => decide (vv.variable_name = va.name))
  let default_value := groupDefault bs
  let vd : List (String × YVal) :=
    (if truthy va.description then
      [("description", YVal.scalar (.plain (va.description.getD "")))] else [])
    ++ (if truthy va.validation then
      [("validation", YVal.scalar (.plain (va.validation.getD "")))] else [])
  let vd := match default_value with
    | some dv => dinsert "default" (YVal.scalar dv) vd
    | none => vd
  let vd := (sortPairsByKey (groupEnv bs)).foldl
    (fun d q => dinsert q.1 (YVal.scalar q.2) d) vd
  let vd := (sortPairsByKey (groupLoc m bs)).foldl
    (fun d q => dinsert q.1 (YVal.scalar q.2) d) vd
  (sortPairsByKey (groupSpecific m bs)).foldl
    (fun d q => setSpecificEntry q.1 q.2 d) vd

/-- `main.write_envars_yml` as the parsed tree it serializes.  The
`configuration` section is omitted when all its values are falsy
(`if any(data["configuration"].values())`). -/
def write_envars_yml (m : VariableManager) : YDoc :=
  let locations_data := locationsData m
  let cfg : YCfg :=
    { app := m.app
      kms_key := m.kms_key
      description_mandatory := m.description_mandatory
      environments := sortStrings m.environments
      locations := locations_data }
  let cfgTruthy := truthy m.app || truthy m.kms_key || m.description_mandatory
    || !m.environments.isEmpty || !locations_data.isEmpty
  { configuration := if cfgTruthy then some cfg else none
    environment_variables :=
      (sortVariables m.variables_).map (fun va => (va.name, varDataFor m va)) }

/-- The duplicate-key rejection of `SafeLoaderWithDuplicatesCheck`, to the
mapping depth the writer can produce (a mapping below depth two is rejected
by the loader as invalid nesting before its keys could matter). -/
def docNodupKeys (d : YDoc) : Bool :=
  decide ((d.environment_variables.map Prod.fst).Nodup) &&
  d.environment_variables.all (fun vb =>
    decide ((vb.2.map Prod.fst).Nodup) &&
    vb.2.all (fun e =>
      match e.2 with
      | .scalar _ => true
      | .ymap es => decide ((es.map Prod.fst).Nodup)))

/-- A variable's `description`/`validation` read from its block: the loader
stores whatever object sits there; only plain scalars occur in written
documents (and only they matter to any claim). -/
def yGetStr (vd : List (String × YVal)) (k : String) : Option String :=
  match vd.find? (fun p => decide (p.1 = k)) with
  | some p => match p.2 with
    | .scalar v => some v.str
    | .ymap _ => none
  | none => none

/-- One non-metadata entry of a variable block. -/
def loadVarEntry (m : VariableManager) (var_name key : String) (yv : YVal) :
    Except String VariableManager :=
  if key = "description" ∨ key = "default" ∨ key = "validation" then pure m
  else if m.environments.contains key then
    match yv with
    | .ymap entries =>
      entries.foldlM (fun m q =>
        if (m.locations.map Location.name).contains q.1 then
          match m.locations.find? (fun lo => decide (lo.name = q.1)) with
          | some lo =>
            match q.2 with
            | .ymap _ => throw ("Invalid nesting in '" ++ var_name ++ "' -> '"
                ++ key ++ "' -> '" ++ q.1 ++ "'")
            | .scalar v => m.add_variable_value
                ⟨var_name, v, .SPECIFIC, some key, some lo.location_id⟩
          | none => pure m
        else throw ("Location '" ++ q.1 ++ "' not found in configuration.")) m
    | .scalar v => m.add_variable_value ⟨var_name, v, .ENVIRONMENT, some key, none⟩
  else if (m.locations.map Location.name).contains key then
    match m.locations.find? (fun lo => decide (lo.name = key)) with
    | some lo =>
      match yv with
      | .ymap entries =>
        entries.foldlM (fun m q =>
          if m.environments.contains q.1 then
            match q.2 with
            | .ymap _ => throw ("Invalid nesting in '" ++ var_name ++ "' -> '"
                ++ key ++ "' -> '" ++ q.1 ++ "'")
            | .scalar v => m.add_variable_value
                ⟨var_name, v, .SPECIFIC, some q.1, some lo.location_id⟩
          else throw ("Environment '" ++ q.1 ++ "' not found in configuration.")) m
      | .scalar v => m.add_variable_value ⟨var_name, v, .LOCATION, none, some lo.location_id⟩
    | none => pure m
  else throw ("'" ++ key ++ "' is not a valid environment or location.")

/-- One variable block of the `environment_variables` section.  A mapping
under `default` is stored verbatim by Python; written documents only carry
scalars there, and the model rejects the non-scalar case. -/
def loadVarBlock (m : VariableManager) (var_name : String)
    (var_data : List (String × YVal)) : Except String VariableManager := do
  if strUpper var_name ≠ var_name then
    throw ("Variable name '" ++ var_name ++ "' must be uppercase.")
  let m ← m.add_variable ⟨var_name, yGetStr var_data "description", yGetStr var_data "validation"⟩
  let m ← (show Except String VariableManager from
    match var_data.find? (fun p => decide (p.1 = "default")) with
    | some p =>
      match p.2 with
      | .scalar v => m.add_variable_value ⟨var_name, v, .DEFAULT, none, none⟩
      | .ymap _ => throw "default value must be a scalar"
    | none => pure m)
  var_data.foldlM (fun m p => loadVarEntry m var_name p.1 p.2) m

/-- `main.load_from_yaml` on the parsed tree. -/
def load_from_yaml (d : YDoc) : Except String VariableManager := do
  if ¬ docNodupKeys d then throw "Duplicate key"
  let cfg := d.configuration.getD {}
  let m : VariableManager :=
    { app := cfg.app
      kms_key := cfg.kms_key
      description_mandatory := cfg.description_mandatory }
  let m ← cfg.environments.foldlM (fun m e => m.add_environment e) m
  let m ← cfg.locations.foldlM (fun m p =>
    match p.2 with
    | .detailed id kms => m.add_location ⟨p.1, id, kms⟩
    | .plainId id => m.add_location ⟨p.1, id, none⟩) m
  d.environment_variables.foldlM (fun m vb => loadVarBlock m vb.1 vb.2) m

/-- A nonempty set of in-graph nodes each of which has an in-graph
dependency edge from inside the set: the standard witness that the
dependency graph of `vars` has a cycle (`u` is referenced by `v`'s value). -/
def IsCycleSetB (vars : List (String × Val)) (S : List String) : Bool :=
  !S.isEmpty &&
  S.all (fun s => (keysOf vars).contains s &&
    S.any (fun p => (depsIn vars (valOf vars s)).contains p))

/-- The scope-wellformedness of every binding of a manager (guaranteed by the
`VariableValue` constructor in the source). -/
def bindingsWfB (m : VariableManager) : Bool :=
  m.variable_values.all VariableValue.scopeWfB

/-- The uniqueness invariant of the spec: no two bindings share the
identifying (variable, scope, environment, location) tuple. -/
def KeyUnique (bs : List VariableValue) : Prop :=
  bs.Pairwise (fun a b => a.key ≠ b.key)

instance (bs : List VariableValue) : Decidable (KeyUnique bs) := by
  unfold KeyUnique
  exact List.instDecidablePairwise bs

/-! ## Concrete documents used by the analysis -/

/-- The spec's precedence scenario: `API_KEY` bound at all four scopes. -/
def mgrPrecedence : VariableManager :=
  { variables_ := [{ name := "API_KEY" }]
    environments := ["dev", "prod"]
    locations := [{ name := "aws", location_id := "1" }, { name := "gcp", location_id := "2" }]
    variable_values :=
      [{ variable_name := "API_KEY", value := .plain "d", scope_type := .DEFAULT },
       { variable_name := "API_KEY", value := .plain "de", scope_type := .ENVIRONMENT,
         environment_name := some "dev" },
       { variable_name := "API_KEY", value := .plain "al", scope_type := .LOCATION,
         location_id := some "1" },
       { variable_name := "API_KEY", value := .plain "sp", scope_type := .SPECIFIC,
         environment_name := some "dev", location_id := some "1" }] }

/-- A document with an `ENVIRONMENT("")` binding next to a `DEFAULT` binding
(loadable from YAML: `configuration.environments: ['']` and a variable block
entry `'': e0`). -/
def mgrEmptyEnvName : VariableManager :=
  { variables_ := [{ name := "V" }]
    environments := [""]
    variable_values :=
      [{ variable_name := "V", value := .plain "d0", scope_type := .DEFAULT },
       { variable_name := "V", value := .plain "e0", scope_type := .ENVIRONMENT,
         environment_name := some "" }] }

/-- The same shape with a configured location, for probing an unknown
location name. -/
def mgrEmptyEnvName2 : VariableManager :=
  { variables_ := [{ name := "W" }]
    environments := [""]
    locations := [{ name := "aws", location_id := "1" }]
    variable_values :=
      [{ variable_name := "W", value := .plain "d1", scope_type := .DEFAULT },
       { variable_name := "W", value := .plain "e1", scope_type := .ENVIRONMENT,
         environment_name := some "" }] }

/-- A tuple-duplicate of `mgrPrecedence`'s DEFAULT binding (different
value, same identifying tuple). -/
def vvDupDefault : VariableValue :=
  { variable_name := "API_KEY", value := .plain "d2", scope_type := .DEFAULT }

/-- A binding at a fresh tuple for `mgrPrecedence`. -/
def vvNewEnvProd : VariableValue :=
  { variable_name := "API_KEY", value := .plain "q", scope_type := .ENVIRONMENT,
    environment_name := some "prod" }

/-- `add URL=u` on the precedence document. -/
def addArgsURL : AddArgs := { var_name := "URL", var_value := "u" }

/-- The document `add URL=u` writes back. -/
def mgrPrecedenceAdded : VariableManager :=
  { mgrPrecedence with
    variables_ := mgrPrecedence.variables_ ++ [{ name := "URL" }]
    variable_values := mgrPrecedence.variable_values ++
      [{ variable_name := "URL", value := .plain "u", scope_type := .DEFAULT }] }

/-- An env+loc-scoped secret binding, as `add MY_SECRET=... --env dev --loc
my_loc --secret` creates it. -/
def vvSecretDevMyLoc : VariableValue :=
  { variable_name := "MY_SECRET", value := .secret "ciphertext",
    scope_type := .SPECIFIC, environment_name := some "dev",
    location_id := some "loc123" }

/-- The document holding that secret. -/
def mgrSecret : VariableManager :=
  { app := some "MyApp"
    kms_key := some "arn:aws:kms:us-east-1:123456789012:key/mrk-12345"
    environments := ["dev"]
    locations := [{ name := "my_loc", location_id := "loc123" }]
    variables_ := [{ name := "MY_SECRET" }]
    variable_values := [vvSecretDevMyLoc] }

/-- A document whose resolution context is (`dev`, `l1`) with no variables. -/
def mgrDevL1 : VariableManager :=
  { environments := ["dev"], locations := [{ name := "l1", location_id := "1" }] }

/-- A process environment with only `STAGE` set. -/
def procEnvStageOnly : String → Option String :=
  fun n => if n = "STAGE" then some "dev" else none

/-- A process environment with both `ENVARS_ENV` and `STAGE` set. -/
def procEnvBoth : String → Option String :=
  fun n => if n = "ENVARS_ENV" then some "dev"
    else if n = "STAGE" then some "prod" else none

/-- A document whose only value references an undefined template name. -/
def mgrUndefinedRef : VariableManager :=
  { environments := ["dev"]
    locations := [{ name := "local", location_id := "local" }]
    variables_ := [{ name := "MESSAGE" }]
    variable_values :=
      [{ variable_name := "MESSAGE"
         value := .plain "Hello, {{ UNDEFINED_VAR }}"
         scope_type := .DEFAULT }] }

/-- A document whose (dev, loc1) context has a template cycle between
`VAR_A` (ENVIRONMENT dev) and `VAR_B` (SPECIFIC dev/loc1), while the global
last-binding-per-variable view is acyclic (`VAR_A` ends at `x`, `VAR_B` at
`y`). -/
def mgrContextCycle : VariableManager :=
  { environments := ["dev", "prod"]
    locations := [{ name := "loc1", location_id := "1" },
                  { name := "loc2", location_id := "2" }]
    variables_ := [{ name := "VAR_A" }, { name := "VAR_B" }]
    variable_values :=
      [{ variable_name := "VAR_A", value := .plain "ok", scope_type := .DEFAULT },
       { variable_name := "VAR_A", value := .plain "{{ VAR_B }}",
         scope_type := .ENVIRONMENT, environment_name := some "dev" },
       { variable_name := "VAR_A", value := .plain "x",
         scope_type := .ENVIRONMENT, environment_name := some "prod" },
       { variable_name := "VAR_B", value := .plain "ok", scope_type := .DEFAULT },
       { variable_name := "VAR_B", value := .plain "{{ VAR_A }}",
         scope_type := .SPECIFIC, environment_name := some "dev",
         location_id := some "1" },
       { variable_name := "VAR_B", value := .plain "y",
         scope_type := .ENVIRONMENT, environment_name := some "prod" }] }

/-! ## Round-trip analysis (codec ∘ codec⁻¹)

Projections of the writer's grouping pass, the per-scope entry lists its
`var_data` block decomposes into, and the well-formedness bundle under which
the round trip preserves the resolver's view. -/

/-- The (name, id) projection of a location list; the resolver and the codec
read only these two fields of a `Location`. -/
def locPairs (ls : List Location) : List (String × String) :=
  ls.map (fun lo => (lo.name, lo.location_id))

/-- The id a location name resolves to (`manager.locations` lookup by name,
as the loader performs it). -/
def lookupIdByName (ls : List Location) (l : String) : Option String :=
  (ls.find? (fun lo => decide (lo.name = l))).map Location.location_id

/-- The bindings of one variable, in document order. -/
def bsOf (m : VariableManager) (n : String) : List VariableValue :=
  m.variable_values.filter (fun vv => decide (vv.variable_name = n))

/-- The `(env name, value)` entry an `ENVIRONMENT` binding contributes to the
writer's `env_values` dict. -/
def envProj (vv : VariableValue) : Option (String × Val) :=
  if vv.scope_type = .ENVIRONMENT then
    some (vv.environment_name.getD "", vv.value)
  else none

/-- The `(location name, value)` entry a `LOCATION` binding contributes to
the writer's `loc_values` dict. -/
def locProj (m : VariableManager) (vv : VariableValue) : Option (String × Val) :=
  if vv.scope_type = .LOCATION then
    match m.locations.find? (fun lo => decide (some lo.location_id = vv.location_id)) with
    | some lo => if truthy (some lo.name) then some (lo.name, vv.value) else none
    | none => none
  else none

/-- The `(env, location name, value)` triple a `SPECIFIC` binding contributes
to the writer's `specific_values` dict. -/
def specProj (m : VariableManager) (vv : VariableValue) :
    Option (String × String × Val) :=
  if vv.scope_type = .SPECIFIC then
    match m.locations.find? (fun lo => decide (some lo.location_id = vv.location_id)) with
    | some lo =>
      if truthy (some lo.name) then
        some (vv.environment_name.getD "", lo.name, vv.value)
      else none
    | none => none
  else none

/-- Flattening of the nested `specific_values` dict into env/loc/value
triples, in document order. -/
def flat2 : List (String × List (String × Val)) → List (String × String × Val)
  | [] => []
  | q :: rest => q.2.map (fun r => (q.1, r.1, r.2)) ++ flat2 rest

/-- The metadata entries the writer opens a variable block with. -/
def metaEntries (va : Variable) : List (String × YVal) :=
  (if truthy va.description then
    [("description", YVal.scalar (.plain (va.description.getD "")))] else [])
  ++ (if truthy va.validation then
    [("validation", YVal.scalar (.plain (va.validation.getD "")))] else [])

/-- The `default` entry of a variable block. -/
def defaultEntries (bs : List VariableValue) : List (String × YVal) :=
  match groupDefault bs with
  | some dv => [("default", YVal.scalar dv)]
  | none => []

/-- The per-environment scalar entries of a variable block, in sorted order. -/
def envEntries (bs : List VariableValue) : List (String × YVal) :=
  (sortPairsByKey (groupEnv bs)).map (fun q => (q.1, YVal.scalar q.2))

/-- The per-location scalar entries of a variable block, in sorted order. -/
def locEntries (m : VariableManager) (bs : List VariableValue) :
    List (String × YVal) :=
  (sortPairsByKey (groupLoc m bs)).map (fun q => (q.1, YVal.scalar q.2))

/-- The per-environment `SPECIFIC` mappings of a variable block, outer and
inner keys sorted. -/
def specEntries (m : VariableManager) (bs : List VariableValue) :
    List (String × YVal) :=
  (sortPairsByKey (groupSpecific m bs)).map (fun q =>
    (q.1, YVal.ymap ((sortPairsByKey q.2).map (fun r => (r.1, YVal.scalar r.2)))))

/-- The `Location` a loaded `configuration.locations` entry reconstructs. -/
def locOfEntry (p : String × LocEntry) : Location :=
  match p.2 with
  | .detailed id kms => { name := p.1, location_id := id, kms_key := kms }
  | .plainId id => { name := p.1, location_id := id, kms_key := none }

/-- The decidable well-formedness bundle under which the round-trip law
holds: unique uppercase variable names; unique environments; unique location
ids and unique non-empty location names; environment and location names
distinct from each other and from the block metadata keys; every binding
scope-wellformed, attached to a declared variable and to configured axes,
with a unique identifying tuple; and no variable carrying both an
`ENVIRONMENT(e)` and a `SPECIFIC(e, ·)` binding (the clash of
`mgrEnvSpecClash`). -/
def roundTripWfB (m : VariableManager) : Bool :=
  decide ((m.variables_.map Variable.name).Nodup) &&
  m.variables_.all (fun va => decide (strUpper va.name = va.name)) &&
  decide (m.environments.Nodup) &&
  decide ((m.locations.map Location.location_id).Nodup) &&
  decide ((m.locations.map Location.name).Nodup) &&
  m.locations.all (fun lo => decide (lo.name ≠ "") &&
    !(["description", "default", "validation"].contains lo.name)) &&
  m.environments.all (fun e =>
    !((m.locations.map Location.name).contains e) &&
    !(["description", "default", "validation"].contains e)) &&
  decide (KeyUnique m.variable_values) &&
  m.variable_values.all (fun vv =>
    vv.scopeWfB &&
    m.variables_.any (fun va => decide (va.name = vv.variable_name)) &&
    (match vv.environment_name with
     | some e => m.environments.contains e
     | none => true) &&
    (match vv.location_id with
     | some i => (m.locations.map Location.location_id).contains i
     | none => true)) &&
  m.variable_values.all (fun v1 => m.variable_values.all (fun v2 =>
    !(decide (v1.variable_name = v2.variable_name) &&
      decide (v1.scope_type = Scope.ENVIRONMENT) &&
      decide (v2.scope_type = Scope.SPECIFIC) &&
      decide (v1.environment_name = v2.environment_name))))

/-- A wellformed document exercising every scope, both location-entry forms
and a secret value, used to instantiate the round-trip law. -/
def mgrRoundTrip : VariableManager :=
  { app := some "MyApp"
    variables_ := [{ name := "API_KEY", description := some "the key" }]
    environments := ["dev", "prod"]
    locations := [{ name := "aws", location_id := "1", kms_key := some "arn:k" },
                  { name := "gcp", location_id := "2" }]
    variable_values :=
      [{ variable_name := "API_KEY", value := .plain "d", scope_type := .DEFAULT },
       { variable_name := "API_KEY", value := .plain "e", scope_type := .ENVIRONMENT,
         environment_name := some "dev" },
       { variable_name := "API_KEY", value := .plain "l", scope_type := .LOCATION,
         location_id := some "1" },
       { variable_name := "API_KEY", value := .secret "s", scope_type := .SPECIFIC,
         environment_name := some "prod", location_id := some "2" }] }

/-- A document where one variable has both an ENVIRONMENT(dev) binding and
a SPECIFIC(dev, aws) binding: the writer emits the SPECIFIC mapping over the
ENVIRONMENT scalar at the shared key `dev`, losing the latter. -/
def mgrEnvSpecClash : VariableManager :=
  { environments := ["dev"]
    locations := [{ name := "aws", location_id := "1" },
                  { name := "gcp", location_id := "2" }]
    variables_ := [{ name := "V" }]
    variable_values :=
      [{ variable_name := "V", value := .plain "e", scope_type := .ENVIRONMENT,
         environment_name := some "dev" },
       { variable_name := "V", value := .plain "s", scope_type := .SPECIFIC,
         environment_name := some "dev", location_id := some "1" }] }

/-! # Theorems -/

/-! ## Generic list helpers -/

theorem find?_ext {p q : α → Bool} (h : ∀ a, p a = q a) (l : List α) :
    l.find? p = l.find? q := by
  rw [funext h]

theorem find?_eq_of_mem_iff {p : α → Bool} {l₁ l₂ : List α}
    (hmem : ∀ a, a ∈ l₁ ↔ a ∈ l₂)
    (huniq : ∀ a b, a ∈ l₁ → b ∈ l₁ → p a = true → p b = true → a = b) :
    l₁.find? p = l₂.find? p := by
  cases h₁ : l₁.find? p with
  | none =>
    cases h₂ : l₂.find? p with
    | none => rfl
    | some b =>
      have hb := List.find?_some h₂
      have hbm := (hmem b).mpr (List.mem_of_find?_eq_some h₂)
      exact absurd hb (by simpa using List.find?_eq_none.mp h₁ b hbm)
  | some a =>
    have ha := List.find?_some h₁
    have ham := List.mem_of_find?_eq_some h₁
    cases h₂ : l₂.find? p with
    | none =>
      exact absurd ha (by simpa using List.find?_eq_none.mp h₂ a ((hmem a).mp ham))
    | some b =>
      have hb := List.find?_some h₂
      have hbm := (hmem b).mpr (List.mem_of_find?_eq_some h₂)
      exact congrArg some (huniq a b ham hbm ha hb)

theorem two_le_length_of_mem {l : List α} {a b : α} (ha : a ∈ l) (hb : b ∈ l)
    (hne : a ≠ b) : 2 ≤ l.length := by
  cases l with
  | nil => cases ha
  | cons x xs =>
    cases xs with
    | nil =>
      simp only [List.mem_singleton] at ha hb
      exact absurd (ha.trans hb.symm) hne
    | cons y ys => simp [Nat.succ_le_succ, Nat.le_add_left]

/-! ## C1 / C10: the precedence chain of `get_variable` -/

theorem c1_helper_wf_cases {m : VariableManager}
    (hwf : ∀ vv ∈ m.variable_values, vv.scopeWfB = true) {v : String}
    {vv : VariableValue}
    (hmem : vv ∈ m.variable_values.filter (fun vv => decide (vv.variable_name = v))) :
    vv.scopeWfB = true :=
  hwf vv (List.mem_of_mem_filter hmem)

/-- C1 (amended): for a context whose axes are either absent or non-empty
names, and configured location ids non-empty, `get_variable` returns exactly
the spec's precedence-chain selection. -/
theorem c1_get_variable_follows_precedence_chain
    (m : VariableManager) (v : String) (e l : Option String)
    (hv : m.variables_.any (fun va => decide (va.name = v)) = true)
    (he : e ≠ some "") (hl : l ≠ some "")
    (hwf : ∀ vv ∈ m.variable_values, vv.scopeWfB = true)
    (hid : ∀ lo ∈ m.locations, lo.location_id ≠ "") :
    m.get_variable v e l = specSelect m v e l := by
  unfold VariableManager.get_variable specSelect
  simp only [hv, not_true, if_false, ite_false, Bool.not_true, reduceIte]
  have hlid :
      (if truthy l = true then
        match m.locations.find? (fun lo => decide (some lo.name = l)) with
        | some lo => some lo.location_id
        | none => none
      else none) =
      l.bind (fun s => (m.locations.find? (fun lo => decide (lo.name = s))).map
        (fun lo => lo.location_id)) := by
    cases l with
    | none => simp [truthy]
    | some s =>
      have hs : s ≠ "" := fun h => hl (by rw [h])
      have hts : truthy (some s) = true := by simp [truthy, hs]
      simp only [hts, if_true]
      rw [show (fun (lo : Location) => decide (some lo.name = some s)) =
        (fun (lo : Location) => decide (lo.name = s)) from funext (fun lo => by simp)]
      cases hq : m.locations.find? (fun lo => decide (lo.name = s)) <;> simp [hq]
  rw [hlid]
  have hidne : ∀ id, (l.bind (fun s =>
      (m.locations.find? (fun lo => decide (lo.name = s))).map
        (fun lo => lo.location_id))) = some id → id ≠ "" := by
    intro id h
    cases l with
    | none => simp at h
    | some s =>
      simp only [Option.some_bind, Option.bind_eq_bind] at h
      rw [Option.map_eq_some'] at h
      obtain ⟨lo, hlo, hceq⟩ := h
      rw [← hceq]
      exact hid lo (List.mem_of_find?_eq_some hlo)
  have hwfC : ∀ {vv : VariableValue}, vv ∈ m.variable_values.filter
      (fun vv => decide (vv.variable_name = v)) → vv.scopeWfB = true :=
    fun hmem => c1_helper_wf_cases (v := v) hwf hmem
  cases hq : l.bind (fun s => (m.locations.find? (fun lo => decide (lo.name = s))).map
      (fun lo => lo.location_id)) with
  | none =>
    have hloc : (m.variable_values.filter (fun vv => decide (vv.variable_name = v))).find?
        (fun vv => decide (vv.scope_type = Scope.LOCATION ∧ vv.location_id = none)) = none := by
      apply List.find?_eq_none.mpr
      intro x hx
      have hwfx := hwfC hx
      simp only [decide_eq_true_eq]
      rintro ⟨h1, h2⟩
      unfold VariableValue.scopeWfB at hwfx
      rw [h1] at hwfx
      simp only [decide_eq_true_eq] at hwfx
      exact hwfx.2 h2
    cases e with
    | none =>
      have hspec : (m.variable_values.filter (fun vv => decide (vv.variable_name = v))).find?
          (fun vv => decide (vv.scope_type = Scope.SPECIFIC ∧
            vv.environment_name = none ∧ vv.location_id = none)) = none := by
        apply List.find?_eq_none.mpr
        intro x hx
        have hwfx := hwfC hx
        simp only [decide_eq_true_eq]
        rintro ⟨h1, h2, h3⟩
        unfold VariableValue.scopeWfB at hwfx
        rw [h1] at hwfx
        simp only [decide_eq_true_eq] at hwfx
        exact hwfx.1 h2
      have henv : (m.variable_values.filter (fun vv => decide (vv.variable_name = v))).find?
          (fun vv => decide (vv.scope_type = Scope.ENVIRONMENT ∧
            vv.environment_name = none)) = none := by
        apply List.find?_eq_none.mpr
        intro x hx
        have hwfx := hwfC hx
        simp only [decide_eq_true_eq]
        rintro ⟨h1, h2⟩
        unfold VariableValue.scopeWfB at hwfx
        rw [h1] at hwfx
        simp only [decide_eq_true_eq] at hwfx
        exact hwfx.1 h2
      have htn : truthy (none : Option String) = false := rfl
      simp only [htn, Bool.false_and, Bool.and_false, Bool.false_eq_true, if_false,
        reduceIte, hspec, henv, hloc]
    | some s =>
      have hs : s ≠ "" := fun h => he (by rw [h])
      have hts : truthy (some s) = true := by simp [truthy, hs]
      have hspec : (m.variable_values.filter (fun vv => decide (vv.variable_name = v))).find?
          (fun vv => decide (vv.scope_type = Scope.SPECIFIC ∧
            vv.environment_name = some s ∧ vv.location_id = none)) = none := by
        apply List.find?_eq_none.mpr
        intro x hx
        have hwfx := hwfC hx
        simp only [decide_eq_true_eq]
        rintro ⟨h1, h2, h3⟩
        unfold VariableValue.scopeWfB at hwfx
        rw [h1] at hwfx
        simp only [decide_eq_true_eq] at hwfx
        exact hwfx.2 h3
      have htn : truthy (none : Option String) = false := rfl
      simp only [htn, hts, Bool.and_false, Bool.false_eq_true, if_false, reduceIte,
        hspec, hloc]
  | some id =>
    have htid : truthy (some id) = true := by simp [truthy, hidne id hq]
    cases e with
    | none =>
      have hspec : (m.variable_values.filter (fun vv => decide (vv.variable_name = v))).find?
          (fun vv => decide (vv.scope_type = Scope.SPECIFIC ∧
            vv.environment_name = none ∧ vv.location_id = some id)) = none := by
        apply List.find?_eq_none.mpr
        intro x hx
        have hwfx := hwfC hx
        simp only [decide_eq_true_eq]
        rintro ⟨h1, h2, h3⟩
        unfold VariableValue.scopeWfB at hwfx
        rw [h1] at hwfx
        simp only [decide_eq_true_eq] at hwfx
        exact hwfx.1 h2
      have henv : (m.variable_values.filter (fun vv => decide (vv.variable_name = v))).find?
          (fun vv => decide (vv.scope_type = Scope.ENVIRONMENT ∧
            vv.environment_name = none)) = none := by
        apply List.find?_eq_none.mpr
        intro x hx
        have hwfx := hwfC hx
        simp only [decide_eq_true_eq]
        rintro ⟨h1, h2⟩
        unfold VariableValue.scopeWfB at hwfx
        rw [h1] at hwfx
        simp only [decide_eq_true_eq] at hwfx
        exact hwfx.1 h2
      have htn : truthy (none : Option String) = false := rfl
      simp only [htn, htid, Bool.false_and, Bool.false_eq_true, if_false, reduceIte,
        hspec, henv]
    | some s =>
      have hs : s ≠ "" := fun h => he (by rw [h])
      have hts : truthy (some s) = true := by simp [truthy, hs]
      simp only [hts, htid, Bool.and_self, if_true, reduceIte]

/-- C1 counterexample: Python truthiness treats the empty environment name as
absent, so the `ENVIRONMENT("")` binding is skipped and the `DEFAULT` binding
returned, although the precedence chain selects `ENVIRONMENT("")`. -/
theorem c1_counterexample_empty_env_name :
    mgrEmptyEnvName.get_variable "V" (some "") none ≠
      specSelect mgrEmptyEnvName "V" (some "") none := by decide

/-- C1 witness: the amended theorem applied to the spec's precedence
scenario at context (`dev`, `aws`). -/
theorem c1_witness :
    (mgrPrecedence.variables_.any (fun va => decide (va.name = "API_KEY")) = true) ∧
    mgrPrecedence.get_variable "API_KEY" (some "dev") (some "aws") =
      specSelect mgrPrecedence "API_KEY" (some "dev") (some "aws") :=
  ⟨by decide, c1_get_variable_follows_precedence_chain mgrPrecedence "API_KEY"
    (some "dev") (some "aws") (by decide) (by decide) (by decide)
    (by decide) (by decide)⟩

/-- C10 (amended): an unconfigured (and non-empty-axis) location name is
silently ignored; the result degenerates to ENVIRONMENT(`e`), else DEFAULT,
else nothing. -/
theorem c10_unknown_location_ignored
    (m : VariableManager) (v : String) (e : Option String) (l : String)
    (hl : ∀ lo ∈ m.locations, lo.name ≠ l)
    (he : e ≠ some "")
    (hwf : ∀ vv ∈ m.variable_values, vv.scopeWfB = true) :
    m.get_variable v e (some l) = envThenDefaultView m v e := by
  unfold VariableManager.get_variable envThenDefaultView
  by_cases hv : m.variables_.any (fun va => decide (va.name = v)) = true
  · simp only [hv, not_true, reduceIte]
    have hlidn :
        (if truthy (some l) = true then
          match m.locations.find? (fun lo => decide (some lo.name = some l)) with
          | some lo => some lo.location_id
          | none => none
        else none) = none := by
      by_cases hle : l = ""
      · subst hle; rfl
      · have htl : truthy (some l) = true := by simp [truthy, hle]
        have hfind : m.locations.find? (fun lo => decide (lo.name = l)) = none := by
          apply List.find?_eq_none.mpr
          intro lo hlo
          simp [hl lo hlo]
        simp [htl, hfind]
    rw [hlidn]
    have hwfC : ∀ {vv : VariableValue}, vv ∈ m.variable_values.filter
        (fun vv => decide (vv.variable_name = v)) → vv.scopeWfB = true :=
      fun hmem => c1_helper_wf_cases (v := v) hwf hmem
    have hloc : (m.variable_values.filter (fun vv => decide (vv.variable_name = v))).find?
        (fun vv => decide (vv.scope_type = Scope.LOCATION ∧ vv.location_id = none)) = none := by
      apply List.find?_eq_none.mpr
      intro x hx
      have hwfx := hwfC hx
      simp only [decide_eq_true_eq]
      rintro ⟨h1, h2⟩
      unfold VariableValue.scopeWfB at hwfx
      rw [h1] at hwfx
      simp only [decide_eq_true_eq] at hwfx
      exact hwfx.2 h2
    have htn : truthy (none : Option String) = false := rfl
    cases e with
    | none =>
      have henv : (m.variable_values.filter (fun vv => decide (vv.variable_name = v))).find?
          (fun vv => decide (vv.scope_type = Scope.ENVIRONMENT ∧
            vv.environment_name = none)) = none := by
        apply List.find?_eq_none.mpr
        intro x hx
        have hwfx := hwfC hx
        simp only [decide_eq_true_eq]
        rintro ⟨h1, h2⟩
        unfold VariableValue.scopeWfB at hwfx
        rw [h1] at hwfx
        simp only [decide_eq_true_eq] at hwfx
        exact hwfx.1 h2
      simp only [htn, Bool.false_and, Bool.and_false, Bool.false_eq_true, if_false,
        reduceIte, henv, hloc]
    | some s =>
      have hs : s ≠ "" := fun h => he (by rw [h])
      have hts : truthy (some s) = true := by simp [truthy, hs]
      simp only [htn, hts, Bool.and_false, Bool.false_eq_true, if_false, reduceIte, hloc]
  · simp [hv]

/-- C10 counterexample: at an empty environment name the location axis is
ignored as claimed, but the result is the DEFAULT binding, not the claimed
ENVIRONMENT("") binding. -/
theorem c10_counterexample_empty_env_name :
    mgrEmptyEnvName2.get_variable "W" (some "") (some "zzz") ≠
      envThenDefaultView mgrEmptyEnvName2 "W" (some "") := by decide

/-- C10 witness: the amended theorem at a concrete unknown location. -/
theorem c10_witness :
    (∀ lo ∈ mgrPrecedence.locations, lo.name ≠ "unknown_loc") ∧
    mgrPrecedence.get_variable "API_KEY" (some "prod") (some "unknown_loc") =
      envThenDefaultView mgrPrecedence "API_KEY" (some "prod") :=
  ⟨by decide, c10_unknown_location_ignored mgrPrecedence "API_KEY" (some "prod")
    "unknown_loc" (by decide) (by decide) (by decide)⟩

/-! ## C8: binding-tuple uniqueness -/

theorem blocks_of_key_eq {a b : VariableValue} (h : a.key = b.key) :
    VariableManager.blocks a b = true := by
  unfold VariableValue.key at h
  simp only [Prod.mk.injEq] at h
  obtain ⟨h1, h2, h3, h4⟩ := h
  unfold VariableManager.blocks
  cases hs : b.scope_type <;>
    simp [h1, h2, h3, h4, hs]

theorem add_variable_value_error_of_dup {m : VariableManager}
    {vv ex : VariableValue} (hmem : ex ∈ m.variable_values)
    (hkey : ex.key = vv.key) :
    ∃ msg, m.add_variable_value vv = .error msg := by
  have hany : m.variable_values.any (fun ex => VariableManager.blocks ex vv) = true :=
    List.any_eq_true.mpr ⟨ex, hmem, blocks_of_key_eq hkey⟩
  refine ⟨"Value for variable '" ++ vv.variable_name ++ "' already exists.", ?_⟩
  unfold VariableManager.add_variable_value
  rw [if_pos hany]

theorem add_variable_value_ok_shape {m : VariableManager} {vv : VariableValue}
    {m' : VariableManager} (hok : m.add_variable_value vv = .ok m') :
    m' = { m with variable_values := m.variable_values ++ [vv] } ∧
    ∀ ex ∈ m.variable_values, VariableManager.blocks ex vv = false := by
  unfold VariableManager.add_variable_value at hok
  by_cases hany : m.variable_values.any (fun ex => VariableManager.blocks ex vv) = true
  · rw [if_pos hany] at hok
    cases hok
  · rw [if_neg hany] at hok
    refine ⟨(Except.ok.injEq _ _ ▸ hok).symm, ?_⟩
    intro ex hex
    by_contra hb
    exact hany (List.any_eq_true.mpr ⟨ex, hex, by
      cases hblocks : VariableManager.blocks ex vv
      · exact absurd hblocks hb
      · rfl⟩)

theorem keyUnique_append {bs : List VariableValue} {vv : VariableValue}
    (hu : KeyUnique bs) (hnew : ∀ ex ∈ bs, ex.key ≠ vv.key) :
    KeyUnique (bs ++ [vv]) := by
  unfold KeyUnique at *
  rw [List.pairwise_append]
  exact ⟨hu, List.pairwise_singleton _ _, fun a ha b hb => by
    rw [List.mem_singleton] at hb
    subst hb
    exact hnew a ha⟩

theorem add_variable_value_preserves_unique {m : VariableManager}
    {vv : VariableValue} {m' : VariableManager}
    (hu : KeyUnique m.variable_values) (hok : m.add_variable_value vv = .ok m') :
    KeyUnique m'.variable_values := by
  obtain ⟨hshape, hblocks⟩ := add_variable_value_ok_shape hok
  subst hshape
  exact keyUnique_append hu (fun ex hex hkey => by
    have := blocks_of_key_eq hkey
    rw [hblocks ex hex] at this
    cases this)

/-- Tracing a successful `add_env_var`: the written manager keeps the
environments and locations, its variables keep their names (possibly plus the
new one), and its bindings are the old ones with the same-scope binding
removed plus the new binding, which passed the duplicate check; finally, the
written manager passed the all-contexts cycle check. -/
theorem add_env_var_ok_shape
    {rm : String → String → Bool}
    {ef : String → String → List (String × String) → String}
    {m : VariableManager} {a : AddArgs} {m' : VariableManager}
    (hok : add_env_var rm ef m a = .ok m') :
    ∃ nv : VariableValue,
      nv.variable_name = a.var_name ∧
      m'.environments = m.environments ∧
      m'.locations = m.locations ∧
      m'.variable_values = removeFirstBlocking nv m.variable_values ++ [nv] ∧
      (∀ ex ∈ removeFirstBlocking nv m.variable_values,
        VariableManager.blocks ex nv = false) ∧
      _check_all_contexts_for_circular_dependencies m' = .ok () ∧
      ((m.variables_.map Variable.name).Nodup →
        (m'.variables_.map Variable.name).Nodup) := by
  unfold add_env_var at hok
  split at hok; · cases hok
  split at hok; · cases hok
  split at hok; · cases hok
  split at hok; · cases hok
  split at hok; · cases hok
  rename_i g1 g2 g3 g4 g5
  cases hens : ensureVariable m a with
  | error e => rw [hens] at hok; cases hok
  | ok m1 =>
    rw [hens] at hok
    simp only at hok
    cases hval : computeAddValue ef m1 a with
    | error e => rw [hval] at hok; cases hok
    | ok var_value =>
      rw [hval] at hok
      simp only at hok
      cases hlid : computeLocationId m1 a with
      | error e => rw [hlid] at hok; cases hok
      | ok location_id =>
        rw [hlid] at hok
        simp only at hok
        set nv : VariableValue :=
          { variable_name := a.var_name
            value := var_value
            scope_type := addScope a.env a.loc
            environment_name := if truthy a.env then a.env else none
            location_id := location_id } with hnv
        cases hadd : VariableManager.add_variable_value
            { m1 with variable_values := removeFirstBlocking nv m1.variable_values } nv with
        | error e => rw [hadd] at hok; cases hok
        | ok m3 =>
          rw [hadd] at hok
          simp only at hok
          cases hchk : _check_all_contexts_for_circular_dependencies m3 with
          | error f => rw [hchk] at hok; cases hok
          | ok u =>
            rw [hchk] at hok
            simp only at hok
            have hm3 : m3 = m' := by cases hok; rfl
            subst hm3
            obtain ⟨hshape, hblocks⟩ := add_variable_value_ok_shape hadd
            have hens_env : m1.environments = m.environments ∧
                m1.locations = m.locations ∧
                m1.variable_values = m.variable_values := by
              unfold ensureVariable at hens
              split at hens
              · split at hens
                · cases hens
                · cases hens; exact ⟨rfl, rfl, rfl⟩
              · cases hens; exact ⟨rfl, rfl, rfl⟩
            have hens_names : (m.variables_.map Variable.name).Nodup →
                (m1.variables_.map Variable.name).Nodup := by
              intro hnames
              unfold ensureVariable at hens
              split at hens
              · rename_i hfresh
                split at hens
                · cases hens
                · cases hens
                  simp only [List.map_append, List.map_cons, List.map_nil]
                  rw [List.nodup_append]
                  refine ⟨hnames, List.nodup_singleton _, ?_⟩
                  intro x hx hxa
                  rw [List.mem_singleton] at hxa
                  subst hxa
                  obtain ⟨va, hva, hvan⟩ := List.mem_map.mp hx
                  exact hfresh (List.any_eq_true.mpr ⟨va, hva, by simp [hvan]⟩)
              · cases hens
                simp only [List.map_map]
                have : (m.variables_.map (fun va => Variable.name
                    (if va.name = a.var_name then
                      { va with
                        description := if truthy a.description then a.description else va.description,
                        validation := if truthy a.validation then a.validation else va.validation }
                    else va))) = m.variables_.map Variable.name := by
                  apply List.map_congr_left
                  intro va _
                  by_cases h : va.name = a.var_name <;> simp [h]
                rw [show (Variable.name ∘ fun va =>
                    if va.name = a.var_name then
                      { va with
                        description := if truthy a.description then a.description else va.description,
                        validation := if truthy a.validation then a.validation else va.validation }
                    else va) = (fun va => Variable.name
                    (if va.name = a.var_name then
                      { va with
                        description := if truthy a.description then a.description else va.description,
                        validation := if truthy a.validation then a.validation else va.validation }
                    else va)) from rfl, this]
                exact hnames
            refine ⟨nv, rfl, ?_, ?_, ?_, ?_, ?_, ?_⟩
            · rw [hshape]; exact hens_env.1
            · rw [hshape]; exact hens_env.2.1
            · rw [hshape]; simp only; rw [hens_env.2.2]
            · intro ex hex
              rw [← hens_env.2.2] at hex
              exact hblocks ex hex
            · cases u; exact hchk
            · intro hnames
              rw [hshape]
              exact hens_names hnames

theorem removeFirstBlocking_sublist (nv : VariableValue) (bs : List VariableValue) :
    List.Sublist (removeFirstBlocking nv bs) bs := by
  induction bs with
  | nil => simp [removeFirstBlocking]
  | cons x xs ih =>
    unfold removeFirstBlocking
    cases hb : VariableManager.blocks x nv
    · simp only [Bool.false_eq_true, if_false, reduceIte]
      exact ih.cons₂ x
    · simp only [if_true, reduceIte]
      exact List.sublist_cons_self x xs

/-- C8: the (variable, scope, environment, location) tuple stays unique:
(1) `add_variable_value` rejects a tuple-identical duplicate;
(2) it preserves the uniqueness invariant when it succeeds;
(3) a successful `add` command preserves the invariant, and the written
document carries exactly one binding at the new binding's tuple, everything
else coming from the prior document (update = replace, not duplicate). -/
theorem c8_unique_binding_tuples :
    (∀ (m : VariableManager) (vv ex : VariableValue), ex ∈ m.variable_values →
      ex.key = vv.key → ∃ msg, m.add_variable_value vv = .error msg) ∧
    (∀ (m : VariableManager) (vv : VariableValue) (m' : VariableManager),
      KeyUnique m.variable_values → m.add_variable_value vv = .ok m' →
      KeyUnique m'.variable_values) ∧
    (∀ (rm : String → String → Bool)
       (ef : String → String → List (String × String) → String)
       (m : VariableManager) (a : AddArgs) (m' : VariableManager),
      KeyUnique m.variable_values → add_env_var rm ef m a = .ok m' →
      KeyUnique m'.variable_values ∧
      ∃ nv ∈ m'.variable_values,
        m'.variable_values.filter (fun b => decide (b.key = nv.key)) = [nv] ∧
        ∀ b ∈ m'.variable_values, b = nv ∨ b ∈ m.variable_values) := by
  refine ⟨fun m vv ex hmem hkey => add_variable_value_error_of_dup hmem hkey,
    fun m vv m' hu hok => add_variable_value_preserves_unique hu hok,
    fun rm ef m a m' hu hok => ?_⟩
  obtain ⟨nv, hname, henv, hloc, hvals, hblocks, hchk⟩ := add_env_var_ok_shape hok
  have hsub := removeFirstBlocking_sublist nv m.variable_values
  have hkeys : ∀ ex ∈ removeFirstBlocking nv m.variable_values, ex.key ≠ nv.key := by
    intro ex hex hkey
    have := blocks_of_key_eq hkey
    rw [hblocks ex hex] at this
    cases this
  constructor
  · rw [hvals]
    exact keyUnique_append (hu.sublist hsub) hkeys
  · refine ⟨nv, by rw [hvals]; exact List.mem_append_right _ (List.mem_singleton_self nv), ?_, ?_⟩
    · rw [hvals, List.filter_append]
      have h1 : (removeFirstBlocking nv m.variable_values).filter
          (fun b => decide (b.key = nv.key)) = [] := by
        rw [List.filter_eq_nil_iff]
        intro b hb
        simp only [decide_eq_true_eq]
        exact hkeys b hb
      rw [h1]
      simp
    · intro b hb
      rw [hvals] at hb
      rcases List.mem_append.mp hb with h | h
      · exact Or.inr (hsub.subset h)
      · exact Or.inl (List.mem_singleton.mp h)

/-- C8 witness: the three parts of the uniqueness theorem at concrete
inputs on the precedence document. -/
theorem c8_witness :
    ((mgrPrecedence.variable_values.head?.getD vvDupDefault) ∈ mgrPrecedence.variable_values ∧
      ∃ msg, mgrPrecedence.add_variable_value vvDupDefault = .error msg) ∧
    (KeyUnique mgrPrecedence.variable_values ∧
      KeyUnique ({ mgrPrecedence with variable_values :=
        mgrPrecedence.variable_values ++ [vvNewEnvProd] } : VariableManager).variable_values) ∧
    (add_env_var (fun _ _ => true) (fun v _ _ => v) mgrPrecedence addArgsURL =
        .ok mgrPrecedenceAdded ∧
      KeyUnique mgrPrecedenceAdded.variable_values) := by
  refine ⟨⟨by decide, ?_⟩, ⟨by decide, ?_⟩, ⟨?_, ?_⟩⟩
  · exact c8_unique_binding_tuples.1 mgrPrecedence vvDupDefault
      (mgrPrecedence.variable_values.head?.getD vvDupDefault) (by decide) (by decide)
  · exact c8_unique_binding_tuples.2.1 mgrPrecedence vvNewEnvProd
      { mgrPrecedence with variable_values :=
        mgrPrecedence.variable_values ++ [vvNewEnvProd] } (by decide) (by decide)
  · decide
  · exact (c8_unique_binding_tuples.2.2 (fun _ _ => true) (fun v _ _ => v)
      mgrPrecedence addArgsURL mgrPrecedenceAdded (by decide) (by decide)).1

/-! ## C9: dotenv serialization -/

/-- C9 counterexample: a value without a newline is emitted verbatim,
unquoted, so the claimed always-quoted form does not hold. -/
theorem c9_counterexample_unquoted_plain_value :
    dotenvLines [("A", "hello")] ≠ dotenvSpecLines [("A", "hello")] := by decide

/-- C9 (amended): the escaping and double-quoting of the spec is applied
exactly to values containing a newline; on a mapping all of whose values
contain newlines the code emits precisely the spec's serialization. -/
theorem c9_dotenv_escapes_newline_values (vars : List (String × String))
    (h : ∀ kv ∈ vars, strHasChar kv.2 '\n' = true) :
    dotenvLines vars = dotenvSpecLines vars := by
  unfold dotenvLines dotenvSpecLines
  apply List.map_congr_left
  intro kv hkv
  unfold dotenvLine dotenvSpecLine
  rw [if_pos (h kv hkv)]

/-- C9 witness: a value with an embedded newline, escaped and quoted. -/
theorem c9_witness :
    (∀ kv ∈ [("KEY1", "a\nb")], strHasChar kv.2 '\n' = true) ∧
    dotenvLines [("KEY1", "a\nb")] = dotenvSpecLines [("KEY1", "a\nb")] :=
  ⟨by decide, c9_dotenv_escapes_newline_values [("KEY1", "a\nb")] (by decide)⟩

/-! ## C2: KMS encryption-context binding -/

/-- C2: the `add` command encrypts under context key `env` while
`_get_decrypted_value` decrypts under context key `environment`, so for an
environment-scoped secret the two contexts differ and decrypting the stored
ciphertext under the binding's own scope fails with `DecryptError`; the KMS
contract itself does round-trip under the very context used at encryption
(third conjunct), so the failure is the program's, not the model's. -/
theorem c2_encryption_context_key_mismatch :
    (addEncryptionContext mgrSecret.app (some "dev") (some "my_loc") ≠
      decryptContext mgrSecret vvSecretDevMyLoc) ∧
    kmsDecrypt
      (kmsEncrypt "super_secret_value" "arn:aws:kms:us-east-1:123456789012:key/mrk-12345"
        (addEncryptionContext mgrSecret.app (some "dev") (some "my_loc")))
      "arn:aws:kms:us-east-1:123456789012:key/mrk-12345"
      (decryptContext mgrSecret vvSecretDevMyLoc) = .error () ∧
    kmsDecrypt
      (kmsEncrypt "super_secret_value" "arn:aws:kms:us-east-1:123456789012:key/mrk-12345"
        (addEncryptionContext mgrSecret.app (some "dev") (some "my_loc")))
      "arn:aws:kms:us-east-1:123456789012:key/mrk-12345"
      (addEncryptionContext mgrSecret.app (some "dev") (some "my_loc")) =
      .ok "super_secret_value" := by decide

/-! ## C5: undefined template references -/

/-- C5: a value referencing an undefined name resolves successfully, the
reference silently replaced by the empty string (`jinja2` default
`Undefined`), instead of failing with `TemplateError` as the spec and the
test-suite (`test_resolve_template_with_undefined_variable_raises_error`)
demand. -/
theorem c5_undefined_reference_renders_empty :
    findUndeclared "Hello, {{ UNDEFINED_VAR }}" = ["UNDEFINED_VAR"] ∧
    mgrUndefinedRef.variables_.all (fun va => decide (va.name ≠ "UNDEFINED_VAR")) = true ∧
    _get_resolved_variables {} mgrUndefinedRef (some "local") (some "dev") true =
      .ok [("MESSAGE", "Hello, ")] := by decide

/-! ## C6: environment-selection fallback chain -/

/-- C6 (amended): with `--env` absent the environment comes from
`ENVARS_ENV`; failing that the resolver falls back to the `STAGE` process
variable; only when both are absent does resolution fail with the
missing-environment error. -/
theorem c6_env_fallback_chain (R : ResolveEnv) (m : VariableManager)
    (loc : Option String) :
    (∀ e, R.procEnv "ENVARS_ENV" = some e →
      resolveWithCliEnv R m loc none = _get_resolved_variables R m loc (some e) true) ∧
    (∀ s, R.procEnv "ENVARS_ENV" = none → R.procEnv "STAGE" = some s →
      resolveWithCliEnv R m loc none = _get_resolved_variables R m loc (some s) true) ∧
    (R.procEnv "ENVARS_ENV" = none → R.procEnv "STAGE" = none →
      resolveWithCliEnv R m loc none =
        .error "The --env option is required if the STAGE environment variable is not set.") := by
  refine ⟨fun e hE => ?_, fun s hE hS => ?_, fun hE hS => ?_⟩
  · unfold resolveWithCliEnv cliFinalEnv
    rw [hE]
  · unfold resolveWithCliEnv cliFinalEnv
    rw [hE]
    unfold _get_resolved_variables
    rw [hS]
  · unfold resolveWithCliEnv cliFinalEnv
    rw [hE]
    unfold _get_resolved_variables
    rw [hS]
    rfl

/-- C6 counterexample: `--env` and `ENVARS_ENV` both absent, yet resolution
succeeds by reading `STAGE`, where the claim requires a `MissingEnv`
failure. -/
theorem c6_counterexample_stage_fallback :
    procEnvStageOnly "ENVARS_ENV" = none ∧
    resolveWithCliEnv { procEnv := procEnvStageOnly } mgrDevL1 (some "l1") none =
      .ok [] := by decide

/-- C6 witness: with `ENVARS_ENV` set, resolution uses it. -/
theorem c6_witness :
    ({ procEnv := procEnvBoth : ResolveEnv }.procEnv "ENVARS_ENV" = some "dev") ∧
    resolveWithCliEnv { procEnv := procEnvBoth } mgrDevL1 (some "l1") none =
      _get_resolved_variables { procEnv := procEnvBoth } mgrDevL1 (some "l1")
        (some "dev") true :=
  ⟨rfl, (c6_env_fallback_chain { procEnv := procEnvBoth } mgrDevL1 (some "l1")).1 "dev" rfl⟩

/-! ## C4 / C7: cycle detection -/

theorem kahnFold_spec (l : List String) (hnd : l.Nodup) (indeg : String → Nat)
    (zs : List String) :
    (l.foldl (fun (p : (String → Nat) × List String) v =>
        let d := p.1 v - 1
        (fun w => if w = v then d else p.1 w,
         if d = 0 then p.2 ++ [v] else p.2)) (indeg, zs)) =
      (fun w => if w ∈ l then indeg w - 1 else indeg w,
       zs ++ l.filter (fun v => decide (indeg v - 1 = 0))) := by
  induction l generalizing indeg zs with
  | nil =>
    simp only [List.foldl_nil, List.filter_nil, List.append_nil]
    refine Prod.ext ?_ rfl
    funext w
    simp
  | cons v t ih =>
    have hvt : v ∉ t := (List.nodup_cons.mp hnd).1
    have hndt : t.Nodup := (List.nodup_cons.mp hnd).2
    simp only [List.foldl_cons]
    rw [ih hndt]
    refine Prod.ext ?_ ?_
    · funext w
      by_cases hw : w = v
      · subst hw
        simp [hvt]
      · by_cases hwt : w ∈ t <;> simp [hw, hwt]
    · simp only
      have hfil : t.filter (fun x => decide ((if x = v then indeg v - 1 else indeg x) - 1 = 0)) =
          t.filter (fun x => decide (indeg x - 1 = 0)) := by
        apply List.filter_congr
        intro x hx
        have : x ≠ v := fun h => hvt (h ▸ hx)
        simp [this]
      rw [hfil, List.filter_cons]
      by_cases hz : indeg v - 1 = 0 <;> simp [hz]

theorem mem_two_le_filter_length {l : List String} {p : String → Bool} {a b : String}
    (ha : a ∈ l) (hb : b ∈ l) (hpa : p a = true) (hpb : p b = true) (hne : a ≠ b) :
    2 ≤ (l.filter p).length :=
  two_le_length_of_mem (List.mem_filter.mpr ⟨ha, hpa⟩) (List.mem_filter.mpr ⟨hb, hpb⟩) hne

theorem kahnLoop_avoids
    (adj : String → List String) (inN : String → List String) (nodes : List String)
    (S : List String)
    (hcoh : ∀ u v, v ∈ adj u ↔ (u ∈ inN v ∧ v ∈ nodes))
    (hadjnd : ∀ u, (adj u).Nodup)
    (hinnd : ∀ v, (inN v).Nodup)
    (hScyc : ∀ s ∈ S, ∃ p, p ∈ S ∧ p ∈ inN s) :
    ∀ (fuel : Nat) (queue : List String) (indeg : String → Nat) (acc : List String),
    queue.Nodup →
    (∀ x ∈ queue, x ∈ nodes ∧ indeg x = 0 ∧ x ∉ acc) →
    acc.Nodup →
    (∀ a ∈ acc, a ∈ nodes ∧ indeg a = 0) →
    (∀ v ∈ nodes, indeg v = ((inN v).filter (fun p => decide (p ∉ acc))).length) →
    (∀ s ∈ S, s ∉ acc ∧ s ∉ queue) →
    (kahnLoop adj fuel queue indeg acc).Nodup ∧
    (∀ x ∈ kahnLoop adj fuel queue indeg acc, x ∈ nodes) ∧
    (∀ s ∈ S, s ∉ kahnLoop adj fuel queue indeg acc) := by
  intro fuel
  induction fuel with
  | zero =>
    intro queue indeg acc _ _ haccnd haccm _ hSst
    unfold kahnLoop
    exact ⟨haccnd, fun x hx => (haccm x hx).1, fun s hs => (hSst s hs).1⟩
  | succ fuel ih =>
    intro queue indeg acc hqnd hqm haccnd haccm hindeg hSst
    cases queue with
    | nil =>
      unfold kahnLoop
      exact ⟨haccnd, fun x hx => (haccm x hx).1, fun s hs => (hSst s hs).1⟩
    | cons u qs =>
      obtain ⟨hunodes, hudeg, hunacc⟩ := hqm u (List.mem_cons_self u qs)
      have huq : u ∉ qs := (List.nodup_cons.mp hqnd).1
      have hqsnd : qs.Nodup := (List.nodup_cons.mp hqnd).2
      have huS : u ∉ S := fun h => (hSst u h).2 (List.mem_cons_self u qs)
      -- an in-edge target of u has positive in-degree
      have hpos : ∀ v ∈ adj u, 1 ≤ indeg v := by
        intro v hv
        obtain ⟨hin, hn⟩ := (hcoh u v).mp hv
        rw [hindeg v hn]
        exact List.length_pos_of_mem (List.mem_filter.mpr ⟨hin, by simp [hunacc]⟩)
      have hustep : u ∉ adj u := fun h => by
        have := hpos u h
        omega
      unfold kahnLoop
      rw [kahnFold_spec (adj u) (hadjnd u) indeg []]
      simp only [List.nil_append]
      apply ih
      · -- queue nodup
        rw [List.nodup_append]
        refine ⟨hqsnd, (hadjnd u).filter _, ?_⟩
        intro x hxq hxz
        obtain ⟨hxa, hdeg⟩ := List.mem_filter.mp hxz
        have := hpos x hxa
        have := (hqm x (List.mem_cons_of_mem u hxq)).2.1
        omega
      · -- queue members
        intro x hx
        rcases List.mem_append.mp hx with hxq | hxz
        · obtain ⟨hxn, hxd, hxa⟩ := hqm x (List.mem_cons_of_mem u hxq)
          have hxadj : x ∉ adj u := fun h => by have := hpos x h; omega
          refine ⟨hxn, by simp [hxadj, hxd], ?_⟩
          intro hmem
          rcases List.mem_append.mp hmem with h | h
          · exact hxa h
          · rw [List.mem_singleton] at h
            exact huq (h ▸ hxq)
        · obtain ⟨hxa, hdeg⟩ := List.mem_filter.mp hxz
          simp only [decide_eq_true_eq] at hdeg
          obtain ⟨hin, hxn⟩ := (hcoh u x).mp hxa
          refine ⟨hxn, by simp [hxa, hdeg], ?_⟩
          intro hmem
          have hx1 := hpos x hxa
          rcases List.mem_append.mp hmem with h | h
          · have := (haccm x h).2
            omega
          · rw [List.mem_singleton] at h
            subst h
            omega
      · -- acc nodup
        rw [List.nodup_append]
        exact ⟨haccnd, List.nodup_singleton u, fun x hx hxu =>
          (List.mem_singleton.mp hxu ▸ hunacc) hx⟩
      · -- acc members
        intro x hx
        rcases List.mem_append.mp hx with h | h
        · obtain ⟨hxn, hxd⟩ := haccm x h
          have hxadj : x ∉ adj u := fun hh => by have := hpos x hh; omega
          exact ⟨hxn, by simp [hxadj, hxd]⟩
        · rw [List.mem_singleton] at h
          subst h
          exact ⟨hunodes, by simp [hustep, hudeg]⟩
      · -- in-degree invariant
        intro v hv
        have hsplit : (inN v).filter (fun p => decide (p ∉ acc ++ [u])) =
            ((inN v).filter (fun p => decide (p ∉ acc))).filter (fun p => decide (p ≠ u)) := by
          rw [List.filter_filter]
          apply List.filter_congr
          intro x _
          by_cases h1 : x ∈ acc <;> by_cases h2 : x = u <;> simp [h1, h2]
        rw [hsplit]
        by_cases hva : v ∈ adj u
        · obtain ⟨hin, _⟩ := (hcoh u v).mp hva
          have hunodup : ((inN v).filter (fun p => decide (p ∉ acc))).Nodup :=
            (hinnd v).filter _
          have humem : u ∈ (inN v).filter (fun p => decide (p ∉ acc)) :=
            List.mem_filter.mpr ⟨hin, by simp [hunacc]⟩
          have herase : ((inN v).filter (fun p => decide (p ∉ acc))).filter
              (fun p => decide (p ≠ u)) =
              ((inN v).filter (fun p => decide (p ∉ acc))).erase u := by
            rw [hunodup.erase_eq_filter]
            apply List.filter_congr
            intro x _
            by_cases h : x = u <;> simp [h, bne_iff_ne]
          rw [herase, List.length_erase_of_mem humem, ← hindeg v hv]
          simp [hva]
        · have hnin : u ∉ inN v := fun h => hva ((hcoh u v).mpr ⟨h, hv⟩)
          have : ((inN v).filter (fun p => decide (p ∉ acc))).filter
              (fun p => decide (p ≠ u)) = (inN v).filter (fun p => decide (p ∉ acc)) := by
            apply List.filter_eq_self.mpr
            intro x hx
            have : x ∈ inN v := (List.mem_filter.mp hx).1
            have : x ≠ u := fun h => hnin (h ▸ this)
            simp [this]
          rw [this, ← hindeg v hv]
          simp [hva]
      · -- S stays outside
        intro s hs
        obtain ⟨hsa, hsq⟩ := hSst s hs
        have hsu : s ≠ u := fun h => huS (h ▸ hs)
        constructor
        · intro h
          rcases List.mem_append.mp h with h | h
          · exact hsa h
          · exact hsu (List.mem_singleton.mp h)
        · intro h
          rcases List.mem_append.mp h with h | h
          · exact hsq (List.mem_cons_of_mem u h)
          · obtain ⟨hsadj, hdeg⟩ := List.mem_filter.mp h
            simp only [decide_eq_true_eq] at hdeg
            obtain ⟨p, hpS, hpin⟩ := hScyc s hs
            obtain ⟨huin, hsn⟩ := (hcoh u s).mp hsadj
            have hpu : p ≠ u := fun h => huS (h ▸ hpS)
            have hpacc : p ∉ acc := (hSst p hpS).1
            have h2 : 2 ≤ ((inN s).filter (fun q => decide (q ∉ acc))).length :=
              mem_two_le_filter_length hpin huin (by simp [hpacc]) (by simp [hunacc]) hpu
            rw [hindeg s hsn] at hdeg
            omega

theorem valOf_eq_of_mem {vars : List (String × Val)} (hk : (keysOf vars).Nodup)
    {v : String} {w : Val} (hmem : (v, w) ∈ vars) : valOf vars v = w := by
  induction vars with
  | nil => cases hmem
  | cons p t ih =>
    unfold keysOf at hk
    rw [List.map_cons, List.nodup_cons] at hk
    rcases List.mem_cons.mp hmem with h | h
    · subst h
      unfold valOf
      simp
    · have hne : p.1 ≠ v := by
        intro he
        exact hk.1 (he ▸ List.mem_map_of_mem Prod.fst h)
      unfold valOf
      rw [List.find?_cons_of_neg _ (by simp [hne])]
      exact ih hk.2 h

theorem mem_keysOf_iff {vars : List (String × Val)} {v : String} :
    v ∈ keysOf vars ↔ ∃ w, (v, w) ∈ vars := by
  unfold keysOf
  constructor
  · intro h
    obtain ⟨p, hp, he⟩ := List.mem_map.mp h
    exact ⟨p.2, by rw [← he]; exact hp⟩
  · rintro ⟨w, hw⟩
    exact List.mem_map.mpr ⟨(v, w), hw, rfl⟩

theorem adjOf_mem_iff {vars : List (String × Val)} (hk : (keysOf vars).Nodup)
    {u v : String} :
    v ∈ adjOf vars u ↔ (u ∈ depsIn vars (valOf vars v) ∧ v ∈ keysOf vars) := by
  unfold adjOf
  constructor
  · intro h
    obtain ⟨p, hp, he⟩ := List.mem_map.mp h
    obtain ⟨hpv, hcont⟩ := List.mem_filter.mp hp
    subst he
    have : valOf vars p.1 = p.2 := valOf_eq_of_mem hk hpv
    rw [this]
    exact ⟨by simpa using hcont, List.mem_map_of_mem Prod.fst hpv⟩
  · rintro ⟨hdep, hkey⟩
    obtain ⟨w, hw⟩ := mem_keysOf_iff.mp hkey
    have : valOf vars v = w := valOf_eq_of_mem hk hw
    refine List.mem_map.mpr ⟨(v, w), List.mem_filter.mpr ⟨hw, ?_⟩, rfl⟩
    simpa using (this ▸ hdep)

theorem depsIn_nodup (vars : List (String × Val)) (w : Val) :
    (depsIn vars w).Nodup := by
  unfold depsIn findUndeclared
  cases parseTemplate w.str with
  | none => simp
  | some ts => exact (((List.nodup_dedup _).filter _).filter _)

theorem adjOf_nodup {vars : List (String × Val)} (hk : (keysOf vars).Nodup)
    (u : String) : (adjOf vars u).Nodup := by
  unfold adjOf
  exact ((List.filter_sublist vars).map Prod.fst).nodup hk

/-- Kahn's algorithm cannot complete on a graph containing a cycle witness:
the produced order misses every node of the witness set. -/
theorem cycleSet_topoOrder_incomplete {vars : List (String × Val)}
    {S : List String} (hk : (keysOf vars).Nodup)
    (hS : IsCycleSetB vars S = true) :
    (topoOrder vars).length ≠ vars.length := by
  unfold IsCycleSetB at hS
  rw [Bool.and_eq_true, List.all_eq_true] at hS
  obtain ⟨hne, hall⟩ := hS
  have hSnodes : ∀ s ∈ S, s ∈ keysOf vars := by
    intro s hs
    have := hall s hs
    rw [Bool.and_eq_true] at this
    simpa using this.1
  have hScyc : ∀ s ∈ S, ∃ p, p ∈ S ∧ p ∈ depsIn vars (valOf vars s) := by
    intro s hs
    have := hall s hs
    rw [Bool.and_eq_true, List.any_eq_true] at this
    obtain ⟨p, hp, hmem⟩ := this.2
    exact ⟨p, hp, by simpa using hmem⟩
  have havoid := kahnLoop_avoids (adjOf vars)
    (fun v => depsIn vars (valOf vars v)) (keysOf vars) S
    (fun u v => adjOf_mem_iff hk) (adjOf_nodup hk) (fun v => depsIn_nodup vars _)
    hScyc vars.length
    ((vars.filter (fun p => decide (indegOf vars p.1 = 0))).map Prod.fst)
    (indegOf vars) []
    (((List.filter_sublist vars).map Prod.fst).nodup hk)
    (by
      intro x hx
      obtain ⟨p, hp, he⟩ := List.mem_map.mp hx
      obtain ⟨hpv, hdeg⟩ := List.mem_filter.mp hp
      subst he
      refine ⟨List.mem_map_of_mem Prod.fst hpv, by simpa using hdeg, by simp⟩)
    List.nodup_nil
    (by intro a ha; cases ha)
    (by
      intro v _
      unfold indegOf
      congr 1
      symm
      apply List.filter_eq_self.mpr
      intro x _
      simp)
    (by
      intro s hs
      refine ⟨by simp, ?_⟩
      intro hmem
      obtain ⟨p, hp, he⟩ := List.mem_map.mp hmem
      obtain ⟨hpv, hdeg⟩ := List.mem_filter.mp hp
      obtain ⟨q, _, hqin⟩ := hScyc s hs
      rw [he] at hdeg
      simp only [decide_eq_true_eq] at hdeg
      unfold indegOf at hdeg
      have := List.length_pos_of_mem hqin
      omega)
  obtain ⟨hnd, hsub, hmiss⟩ := havoid
  obtain ⟨s0, hs0⟩ : ∃ s0, s0 ∈ S := by
    cases S with
    | nil => simp at hne
    | cons a t => exact ⟨a, List.mem_cons_self a t⟩
  intro hlen
  unfold topoOrder at hlen
  have hs0n := hSnodes s0 hs0
  have hs0m := hmiss s0 hs0
  have hsubset : topoOrder vars ⊆ (keysOf vars).erase s0 := by
    intro x hx
    have hxn := hsub x hx
    have hxs : x ≠ s0 := fun h => hs0m (h ▸ hx)
    exact (List.mem_erase_of_ne hxs).mpr hxn
  have hle := (hnd.subperm hsubset).length_le
  rw [List.length_erase_of_mem hs0n] at hle
  have hklen : (keysOf vars).length = vars.length := List.length_map vars Prod.fst
  have hpos := List.length_pos_of_mem hs0n
  omega

/-- `_check_for_circular_dependencies` reports an error on every mapping
containing a cycle witness. -/
theorem checkCircular_error_of_cycleSet {vars : List (String × Val)}
    {S : List String} (hk : (keysOf vars).Nodup)
    (hS : IsCycleSetB vars S = true) :
    ∃ cyc, _check_for_circular_dependencies vars = .error cyc := by
  unfold _check_for_circular_dependencies
  rw [if_pos (cycleSet_topoOrder_incomplete hk hS)]
  exact ⟨_, rfl⟩

theorem map_filterMap_sublist {α β γ : Type} (f : α → Option β) (g : β → γ)
    (h : α → γ) (hfg : ∀ a b, f a = some b → g b = h a) (l : List α) :
    List.Sublist ((l.filterMap f).map g) (l.map h) := by
  induction l with
  | nil => simp
  | cons a t ih =>
    rw [List.filterMap_cons, List.map_cons]
    cases hfa : f a with
    | none => exact ih.cons _
    | some b =>
      rw [List.map_cons, hfg a b hfa]
      exact ih.cons₂ _

theorem effectiveVars_keys_nodup {m : VariableManager}
    (hnames : (m.variables_.map Variable.name).Nodup) (e l : String) :
    (keysOf (effectiveVars m e l)).Nodup := by
  unfold keysOf effectiveVars
  refine List.Nodup.sublist ?_ hnames
  apply map_filterMap_sublist
  intro va b hb
  rw [Option.map_eq_some'] at hb
  obtain ⟨vv, _, hvv⟩ := hb
  rw [← hvv]

theorem contextCycleFailures_mem_spec {m : VariableManager}
    {f : String × String × List String} (hf : f ∈ contextCycleFailures m) :
    f.1 ∈ m.environments ∧ (∃ lo ∈ m.locations, lo.name = f.2.1) ∧
    _check_for_circular_dependencies (effectiveVars m f.1 f.2.1) = .error f.2.2 := by
  unfold contextCycleFailures at hf
  obtain ⟨e, he, hf2⟩ := List.mem_flatMap.mp hf
  obtain ⟨lo, hlo, heq⟩ := List.mem_filterMap.mp hf2
  cases hchk : _check_for_circular_dependencies (effectiveVars m e lo.name) with
  | ok _ => rw [hchk] at heq; cases heq
  | error cyc =>
    rw [hchk] at heq
    have hfe : (e, lo.name, cyc) = f := Option.some.inj heq
    subst hfe
    exact ⟨he, ⟨lo, hlo, rfl⟩, hchk⟩

theorem contextCycleFailures_mem_of {m : VariableManager} {e : String}
    {lo : Location} (he : e ∈ m.environments) (hlo : lo ∈ m.locations)
    {cyc : List String}
    (hchk : _check_for_circular_dependencies (effectiveVars m e lo.name) = .error cyc) :
    (e, lo.name, cyc) ∈ contextCycleFailures m := by
  unfold contextCycleFailures
  refine List.mem_flatMap.mpr ⟨e, he, ?_⟩
  exact List.mem_filterMap.mpr ⟨lo, hlo, by rw [hchk]⟩

theorem allContextsCheck_error_of_context_cycle (m : VariableManager)
    (e : String) (lo : Location) (S : List String)
    (he : e ∈ m.environments) (hlo : lo ∈ m.locations)
    (hnames : (m.variables_.map Variable.name).Nodup)
    (hS : IsCycleSetB (effectiveVars m e lo.name) S = true) :
    ∃ e' l' cyc,
      _check_all_contexts_for_circular_dependencies m = .error (e', l', cyc) ∧
      e' ∈ m.environments ∧ (∃ lo' ∈ m.locations, lo'.name = l') ∧
      _check_for_circular_dependencies (effectiveVars m e' l') = .error cyc := by
  obtain ⟨cyc0, hchk⟩ :=
    checkCircular_error_of_cycleSet (effectiveVars_keys_nodup hnames e lo.name) hS
  have hmem := contextCycleFailures_mem_of he hlo hchk
  unfold _check_all_contexts_for_circular_dependencies
  cases hfl : contextCycleFailures m with
  | nil => rw [hfl] at hmem; cases hmem
  | cons f rest =>
    have hf : f ∈ contextCycleFailures m := by
      rw [hfl]; exact List.mem_cons_self f rest
    obtain ⟨h1, h2, h3⟩ := contextCycleFailures_mem_spec hf
    exact ⟨f.1, f.2.1, f.2.2, rfl, h1, h2, h3⟩

/-- C4 (amended): a cycle among the effective bindings of any configured
(environment, location) context makes the all-contexts check used by the
`add` mutation fail, its error naming a context whose effective-bindings
graph the per-context checker rejects; `validate`'s own cycle check runs
only on the global last-binding-per-variable mapping and misses such
documents (see the counterexample). -/
theorem c4_context_cycle_reported_by_all_contexts_check (m : VariableManager)
    (e : String) (lo : Location) (S : List String)
    (he : e ∈ m.environments) (hlo : lo ∈ m.locations)
    (hnames : (m.variables_.map Variable.name).Nodup)
    (hS : IsCycleSetB (effectiveVars m e lo.name) S = true) :
    ∃ e' l' cyc,
      _check_all_contexts_for_circular_dependencies m = .error (e', l', cyc) ∧
      e' ∈ m.environments ∧ (∃ lo' ∈ m.locations, lo'.name = l') ∧
      _check_for_circular_dependencies (effectiveVars m e' l') = .error cyc :=
  allContextsCheck_error_of_context_cycle m e lo S he hlo hnames hS

/-- C4 counterexample: `validate` accepts `mgrContextCycle` outright (its
error list is empty, so no cycle violation naming a context is reported),
although the (dev, loc1) effective-bindings graph has a cycle. -/
theorem c4_counterexample_validate_misses_context_cycle :
    validateErrors (fun _ _ => true) mgrContextCycle false = [] ∧
    IsCycleSetB (effectiveVars mgrContextCycle "dev" "loc1")
      ["VAR_A", "VAR_B"] = true := by decide

/-- C4 witness: the amended theorem at the concrete document. -/
theorem c4_witness :
    IsCycleSetB (effectiveVars mgrContextCycle "dev" "loc1")
      ["VAR_A", "VAR_B"] = true ∧
    ∃ e' l' cyc,
      _check_all_contexts_for_circular_dependencies mgrContextCycle =
        .error (e', l', cyc) ∧
      e' ∈ mgrContextCycle.environments ∧
      (∃ lo' ∈ mgrContextCycle.locations, lo'.name = l') ∧
      _check_for_circular_dependencies (effectiveVars mgrContextCycle e' l') =
        .error cyc :=
  ⟨by decide, c4_context_cycle_reported_by_all_contexts_check mgrContextCycle
    "dev" { name := "loc1", location_id := "1" } ["VAR_A", "VAR_B"]
    (by decide) (by decide) (by decide) (by decide)⟩

/-- C7: a successful `add`/update writes a document that passed the
all-contexts cycle check, hence one with no cycle witness in any configured
(environment, location) context; contrapositively, a mutation whose inserted
binding creates a context cycle cannot return `.ok` — it is rejected with an
error and the document file is never rewritten (writing happens only on
`.ok`). -/
theorem c7_add_rejected_on_context_cycle
    (rm : String → String → Bool)
    (ef : String → String → List (String × String) → String)
    (m : VariableManager) (a : AddArgs) (m' : VariableManager)
    (hok : add_env_var rm ef m a = .ok m') :
    _check_all_contexts_for_circular_dependencies m' = .ok () ∧
    ((m.variables_.map Variable.name).Nodup →
      ∀ (e : String) (lo : Location) (S : List String),
        e ∈ m'.environments → lo ∈ m'.locations →
        IsCycleSetB (effectiveVars m' e lo.name) S = false) := by
  obtain ⟨nv, _, _, _, _, _, hchk, hnodupP⟩ := add_env_var_ok_shape hok
  refine ⟨hchk, fun hnames e lo S he hlo => ?_⟩
  by_contra hne
  rw [Bool.not_eq_false] at hne
  obtain ⟨e', l', cyc, hfail, _⟩ :=
    allContextsCheck_error_of_context_cycle m' e lo S he hlo (hnodupP hnames) hne
  rw [hchk] at hfail
  cases hfail

/-- C7 witness: a concrete successful add, whose written document passes the
all-contexts check and has no context cycle. -/
theorem c7_witness :
    add_env_var (fun _ _ => true) (fun v _ _ => v) mgrDevL1
      { var_name := "VAR_C", var_value := "plain" } =
      .ok { mgrDevL1 with
        variables_ := [{ name := "VAR_C" }]
        variable_values :=
          [{ variable_name := "VAR_C", value := .plain "plain",
             scope_type := .DEFAULT }] } ∧
    _check_all_contexts_for_circular_dependencies
      { mgrDevL1 with
        variables_ := [{ name := "VAR_C" }]
        variable_values :=
          [{ variable_name := "VAR_C", value := .plain "plain",
             scope_type := .DEFAULT }] } = .ok () :=
  ⟨by decide, (c7_add_rejected_on_context_cycle (fun _ _ => true) (fun v _ _ => v)
    mgrDevL1 { var_name := "VAR_C", var_value := "plain" } _ (by decide)).1⟩

/-! ## C3: codec round trip -/

/-! ## C3: generic dictionary lemmas -/

theorem dinsert_of_not_mem {α : Type} {k : String} {v : α} {d : List (String × α)}
    (h : k ∉ d.map Prod.fst) : dinsert k v d = d ++ [(k, v)] := by
  induction d with
  | nil => rfl
  | cons q rest ih =>
    simp only [List.map_cons, List.mem_cons, not_or] at h
    have hd : dinsert k v (q :: rest) = q :: dinsert k v rest := by
      simp only [dinsert, if_neg (fun e : q.1 = k => h.1 e.symm)]
    rw [hd, ih h.2, List.cons_append]

theorem foldl_dinsert_fresh {β α' : Type} {f : β → Option (String × α')}
    {g : List (String × α') → β → List (String × α')}
    (hgs : ∀ d b q, f b = some q → q.1 ∉ d.map Prod.fst → g d b = d ++ [q])
    (hgn : ∀ d b, f b = none → g d b = d) :
    ∀ (bs : List β) (d : List (String × α')),
    (d.map Prod.fst ++ (bs.filterMap f).map Prod.fst).Nodup →
    bs.foldl g d = d ++ bs.filterMap f := by
  intro bs
  induction bs with
  | nil => intro d _; simp
  | cons b bs ih =>
    intro d hnd
    cases hfb : f b with
    | none =>
      have hfm : (b :: bs).filterMap f = bs.filterMap f := by
        simp [List.filterMap_cons, hfb]
      rw [List.foldl_cons, hgn d b hfb, hfm]
      rw [hfm] at hnd
      exact ih d hnd
    | some q =>
      have hfm : (b :: bs).filterMap f = q :: bs.filterMap f := by
        simp [List.filterMap_cons, hfb]
      rw [hfm] at hnd
      simp only [List.map_cons] at hnd
      have hq1 : q.1 ∉ d.map Prod.fst := fun hmem =>
        (List.nodup_append.mp hnd).2.2 hmem (List.mem_cons_self _ _)
      have hnd' : ((d ++ [q]).map Prod.fst ++ (bs.filterMap f).map Prod.fst).Nodup := by
        rw [List.map_append]
        rw [List.append_cons] at hnd
        simpa using hnd
      rw [List.foldl_cons, hgs d b q hfb hq1, ih (d ++ [q]) hnd', hfm]
      simp

theorem eq_of_mem_nodup_map {α β : Type} {f : α → β} {l : List α}
    (h : (l.map f).Nodup) {a b : α}
    (ha : a ∈ l) (hb : b ∈ l) (hk : f a = f b) : a = b := by
  by_contra hne
  exact (List.pairwise_map.mp h).forall
    (by intro x y hxy; exact fun e => hxy e.symm) ha hb hne hk

theorem keyUnique_eq_of_mem {bs : List VariableValue} (h : KeyUnique bs)
    {a b : VariableValue} (ha : a ∈ bs) (hb : b ∈ bs) (hk : a.key = b.key) :
    a = b := by
  by_contra hne
  exact h.forall (by intro x y hxy; exact fun e => hxy e.symm) ha hb hne hk

theorem perm_any_eq {α : Type} {l₁ l₂ : List α} (h : List.Perm l₁ l₂)
    (p : α → Bool) : l₁.any p = l₂.any p := by
  rw [Bool.eq_iff_iff]
  simp only [List.any_eq_true]
  exact ⟨fun ⟨a, ha, hp⟩ => ⟨a, h.mem_iff.mp ha, hp⟩,
    fun ⟨a, ha, hp⟩ => ⟨a, h.mem_iff.mpr ha, hp⟩⟩

theorem ok_bind {ε α β : Type} (a : α) (f : α → Except ε β) :
    (Except.ok a >>= f) = f a := rfl

theorem foldlM_append_except {σ β : Type} (f : σ → β → Except String σ)
    (l₁ : List β) :
    ∀ (l₂ : List β) (i : σ),
    (l₁ ++ l₂).foldlM f i = l₁.foldlM f i >>= fun x => l₂.foldlM f x := by
  induction l₁ with
  | nil => intro l₂ i; simp [List.foldlM_nil]
  | cons b l ih =>
    intro l₂ i
    simp only [List.cons_append, List.foldlM_cons]
    cases f i b with
    | error e => rfl
    | ok s => exact ih l₂ s

theorem flat2_mem_iff {d : List (String × List (String × Val))}
    {e l : String} {v : Val} :
    (e, l, v) ∈ flat2 d ↔ ∃ q ∈ d, q.1 = e ∧ (l, v) ∈ q.2 := by
  induction d with
  | nil => simp [flat2]
  | cons q rest ih =>
    simp only [flat2, List.mem_append, List.mem_cons, ih, List.mem_map,
      Prod.mk.injEq]
    constructor
    · rintro (⟨r, hr, he, hl, hv⟩ | ⟨q', hq', h1, h2⟩)
      · exact ⟨q, Or.inl rfl, he, by rw [← hl, ← hv]; exact hr⟩
      · exact ⟨q', Or.inr hq', h1, h2⟩
    · rintro ⟨q', hq', h1, h2⟩
      rcases hq' with hq' | hq'
      · subst hq'
        exact Or.inl ⟨(l, v), h2, h1, rfl, rfl⟩
      · exact Or.inr ⟨q', hq', h1, h2⟩

theorem dinsert_ne_nil {α : Type} (k : String) (v : α) (d : List (String × α)) :
    dinsert k v d ≠ [] := by
  cases d with
  | nil => simp [dinsert]
  | cons q rest =>
    simp only [dinsert]
    split <;> simp

theorem ndinsert_keys (e l : String) (v : Val) :
    ∀ (d : List (String × List (String × Val))),
    (ndinsert e l v d).map Prod.fst =
      if e ∈ d.map Prod.fst then d.map Prod.fst else d.map Prod.fst ++ [e] := by
  intro d
  induction d with
  | nil => simp [ndinsert]
  | cons q rest ih =>
    by_cases hq : q.1 = e
    · simp [ndinsert, hq]
    · have hne : ¬ e = q.1 := fun e' => hq e'.symm
      simp only [ndinsert, if_neg hq, List.map_cons, ih, List.mem_cons]
      by_cases he : e ∈ rest.map Prod.fst
      · simp [he, hne]
      · simp [he, hne]

theorem ndinsert_flat2 {e l : String} {v : Val} :
    ∀ {d : List (String × List (String × Val))},
    (e, l) ∉ (flat2 d).map (fun t => (t.1, t.2.1)) →
    List.Perm (flat2 (ndinsert e l v d)) ((e, l, v) :: flat2 d) := by
  intro d
  induction d with
  | nil => intro _; simp [ndinsert, flat2]
  | cons q rest ih =>
    intro h
    simp only [flat2, List.map_append, List.mem_append, not_or, List.map_map] at h
    by_cases hq : q.1 = e
    · have hl : l ∉ q.2.map Prod.fst := by
        intro hmem
        apply h.1
        rcases List.mem_map.mp hmem with ⟨r, hr, hrl⟩
        exact List.mem_map.mpr ⟨r, hr, by simp [Function.comp, hq, hrl]⟩
      simp only [ndinsert, if_pos hq, flat2]
      rw [dinsert_of_not_mem hl, List.map_append, hq]
      simp only [List.map_cons, List.map_nil, List.append_assoc,
        List.singleton_append]
      exact List.perm_middle
    · simp only [ndinsert, if_neg hq, flat2]
      exact (List.Perm.append_left _ (ih h.2)).trans List.perm_middle

theorem ndinsert_inner_nodup {e l : String} {v : Val}
    {d : List (String × List (String × Val))}
    (h : ∀ q ∈ d, (q.2.map Prod.fst).Nodup)
    (hfresh : (e, l) ∉ (flat2 d).map (fun t => (t.1, t.2.1))) :
    ∀ q ∈ ndinsert e l v d, (q.2.map Prod.fst).Nodup := by
  induction d with
  | nil =>
    intro q hq
    simp only [ndinsert, List.mem_singleton] at hq
    simp [hq]
  | cons p rest ih =>
    intro q hq
    simp only [flat2, List.map_append, List.mem_append, not_or, List.map_map] at hfresh
    by_cases hp : p.1 = e
    · have hl : l ∉ p.2.map Prod.fst := by
        intro hmem
        apply hfresh.1
        rcases List.mem_map.mp hmem with ⟨r, hr, hrl⟩
        exact List.mem_map.mpr ⟨r, hr, by simp [Function.comp, hp, hrl]⟩
      simp only [ndinsert, if_pos hp, List.mem_cons] at hq
      rcases hq with hq | hq
      · rw [hq]
        simp only [dinsert_of_not_mem hl, List.map_append]
        rw [List.nodup_append]
        exact ⟨h p (List.mem_cons_self _ _), by simp,
          by intro a ha hb; simp at hb; exact hl (hb ▸ ha)⟩
      · exact h q (List.mem_cons_of_mem _ hq)
    · simp only [ndinsert, if_neg hp, List.mem_cons] at hq
      rcases hq with hq | hq
      · exact hq ▸ h p (List.mem_cons_self _ _)
      · exact ih (fun r hr => h r (List.mem_cons_of_mem _ hr)) hfresh.2 q hq

theorem ndinsert_inner_ne_nil {e l : String} {v : Val}
    {d : List (String × List (String × Val))}
    (h : ∀ q ∈ d, q.2 ≠ []) :
    ∀ q ∈ ndinsert e l v d, q.2 ≠ [] := by
  induction d with
  | nil =>
    intro q hq
    simp only [ndinsert, List.mem_singleton] at hq
    simp [hq]
  | cons p rest ih =>
    intro q hq
    by_cases hp : p.1 = e
    · simp only [ndinsert, if_pos hp, List.mem_cons] at hq
      rcases hq with hq | hq
      · rw [hq]; exact dinsert_ne_nil _ _ _
      · exact h q (List.mem_cons_of_mem _ hq)
    · simp only [ndinsert, if_neg hp, List.mem_cons] at hq
      rcases hq with hq | hq
      · exact hq ▸ h p (List.mem_cons_self _ _)
      · exact ih (fun r hr => h r (List.mem_cons_of_mem _ hr)) q hq

/-! ## C3: the writer's grouping pass -/

theorem scopeWf_default {vv : VariableValue} (h : vv.scopeWfB = true)
    (hs : vv.scope_type = .DEFAULT) :
    vv.environment_name = none ∧ vv.location_id = none := by
  simp only [VariableValue.scopeWfB, hs, decide_eq_true_eq] at h
  exact h

theorem scopeWf_env {vv : VariableValue} (h : vv.scopeWfB = true)
    (hs : vv.scope_type = .ENVIRONMENT) :
    (∃ e, vv.environment_name = some e) ∧ vv.location_id = none := by
  simp only [VariableValue.scopeWfB, hs, decide_eq_true_eq] at h
  exact ⟨Option.ne_none_iff_exists'.mp h.1, h.2⟩

theorem scopeWf_loc {vv : VariableValue} (h : vv.scopeWfB = true)
    (hs : vv.scope_type = .LOCATION) :
    vv.environment_name = none ∧ ∃ i, vv.location_id = some i := by
  simp only [VariableValue.scopeWfB, hs, decide_eq_true_eq] at h
  exact ⟨h.1, Option.ne_none_iff_exists'.mp h.2⟩

theorem scopeWf_spec {vv : VariableValue} (h : vv.scopeWfB = true)
    (hs : vv.scope_type = .SPECIFIC) :
    (∃ e, vv.environment_name = some e) ∧ ∃ i, vv.location_id = some i := by
  simp only [VariableValue.scopeWfB, hs, decide_eq_true_eq] at h
  exact ⟨Option.ne_none_iff_exists'.mp h.1, Option.ne_none_iff_exists'.mp h.2⟩

theorem groupDefault_aux_none (bs : List VariableValue)
    (h : ∀ vv ∈ bs, vv.scope_type ≠ .DEFAULT) : ∀ (acc : Option Val),
    bs.foldl (fun acc vv =>
      if vv.scope_type = .DEFAULT then some vv.value else acc) acc = acc := by
  induction bs with
  | nil => intro acc; rfl
  | cons b rest ih =>
    intro acc
    rw [List.foldl_cons, if_neg (h b (List.mem_cons_self _ _))]
    exact ih (fun vv hvv => h vv (List.mem_cons_of_mem _ hvv)) acc

theorem groupDefault_of_forall_ne {bs : List VariableValue}
    (h : ∀ vv ∈ bs, vv.scope_type ≠ .DEFAULT) : groupDefault bs = none :=
  groupDefault_aux_none bs h none

theorem groupDefault_aux_some {w : Val} :
    ∀ (bs : List VariableValue),
    (∀ vv ∈ bs, vv.scope_type = .DEFAULT → vv.value = w) →
    ∀ acc : Option Val,
    ((∃ vv ∈ bs, vv.scope_type = .DEFAULT) ∨ acc = some w) →
    bs.foldl (fun acc vv =>
      if vv.scope_type = .DEFAULT then some vv.value else acc) acc = some w := by
  intro bs
  induction bs with
  | nil =>
    intro _ acc hacc
    rcases hacc with ⟨vv, hvv, _⟩ | hacc
    · cases hvv
    · exact hacc
  | cons b rest ih =>
    intro h acc hacc
    rw [List.foldl_cons]
    by_cases hb : b.scope_type = .DEFAULT
    · rw [if_pos hb]
      exact ih (fun vv hvv => h vv (List.mem_cons_of_mem _ hvv)) _
        (Or.inr (by rw [h b (List.mem_cons_self _ _) hb]))
    · rw [if_neg hb]
      apply ih (fun vv hvv => h vv (List.mem_cons_of_mem _ hvv)) acc
      rcases hacc with ⟨vv, hvv, hd⟩ | hacc
      · rcases List.mem_cons.mp hvv with rfl | hvv
        · exact absurd hd hb
        · exact Or.inl ⟨vv, hvv, hd⟩
      · exact Or.inr hacc

theorem groupDefault_of_mem {bs : List VariableValue} {vv : VariableValue}
    (hmem : vv ∈ bs) (hd : vv.scope_type = .DEFAULT)
    (h : ∀ x ∈ bs, x.scope_type = .DEFAULT → x.value = vv.value) :
    groupDefault bs = some vv.value :=
  groupDefault_aux_some bs h none (Or.inl ⟨vv, hmem, hd⟩)

theorem filterMap_keyfn_nodup {α' β' : Type} {f : VariableValue → Option α'}
    {kf : α' → β'} {bs : List VariableValue} (h : KeyUnique bs)
    (hf : ∀ a b, a ∈ bs → b ∈ bs → a.key ≠ b.key →
      ∀ x, f a = some x → ∀ y, f b = some y → kf x ≠ kf y) :
    ((bs.filterMap f).map kf).Nodup := by
  have h' : bs.Pairwise (fun a b => a ∈ bs ∧ b ∈ bs ∧ a.key ≠ b.key) :=
    List.Pairwise.and_mem.mp h
  refine List.pairwise_map.mpr (List.Pairwise.filterMap f ?_ h')
  rintro a b ⟨ha, hb, hk⟩ x hx y hy
  exact hf a b ha hb hk x (Option.mem_def.mp hx) y (Option.mem_def.mp hy)

theorem envProj_some_iff {vv : VariableValue} {q : String × Val} :
    envProj vv = some q ↔
    vv.scope_type = .ENVIRONMENT ∧ q = (vv.environment_name.getD "", vv.value) := by
  by_cases hs : vv.scope_type = .ENVIRONMENT
  · simp [envProj, hs, eq_comm]
  · simp [envProj, hs]

theorem envKeys_nodup {n : String} {bs : List VariableValue} (h : KeyUnique bs)
    (hwf : ∀ vv ∈ bs, vv.scopeWfB = true)
    (hn : ∀ vv ∈ bs, vv.variable_name = n) :
    ((bs.filterMap envProj).map Prod.fst).Nodup := by
  refine filterMap_keyfn_nodup h ?_
  intro a b ha hb hk x hx y hy
  obtain ⟨hsa, hxa⟩ := envProj_some_iff.mp hx
  obtain ⟨hsb, hxb⟩ := envProj_some_iff.mp hy
  obtain ⟨⟨ea, hea⟩, hla⟩ := scopeWf_env (hwf a ha) hsa
  obtain ⟨⟨eb, heb⟩, hlb⟩ := scopeWf_env (hwf b hb) hsb
  intro hxy
  apply hk
  simp only [VariableValue.key, hn a ha, hn b hb, hsa, hsb, hea, heb, hla, hlb]
  simp only [hxa, hxb, hea, heb, Option.getD_some] at hxy
  simp [hxy]

theorem locProj_some_iff {m : VariableManager} {vv : VariableValue}
    {q : String × Val} :
    locProj m vv = some q ↔
    vv.scope_type = .LOCATION ∧
    ∃ lo, m.locations.find? (fun lo =>
        decide (some lo.location_id = vv.location_id)) = some lo ∧
      lo.name ≠ "" ∧ q = (lo.name, vv.value) := by
  by_cases hs : vv.scope_type = .LOCATION
  · simp only [locProj, if_pos hs, true_and, hs]
    cases hf : m.locations.find? (fun lo =>
        decide (some lo.location_id = vv.location_id)) with
    | none => simp
    | some lo =>
      by_cases ht : truthy (some lo.name)
      · have htn : lo.name ≠ "" := by simpa [truthy] using ht
        simp [ht, htn, eq_comm]
        intro _
        exact fun e => htn e.symm
      · have htn : ¬ lo.name ≠ "" := by simpa [truthy] using ht
        simp [ht, htn]
  · simp [locProj, hs]

theorem locKeys_nodup {n : String} {m : VariableManager} {bs : List VariableValue}
    (h : KeyUnique bs) (hwf : ∀ vv ∈ bs, vv.scopeWfB = true)
    (hn : ∀ vv ∈ bs, vv.variable_name = n)
    (hlname : ((m.locations.map Location.name)).Nodup) :
    ((bs.filterMap (locProj m)).map Prod.fst).Nodup := by
  refine filterMap_keyfn_nodup h ?_
  intro a b ha hb hk x hx y hy
  obtain ⟨hsa, loa, hfa, _, hxa⟩ := locProj_some_iff.mp hx
  obtain ⟨hsb, lob, hfb, _, hxb⟩ := locProj_some_iff.mp hy
  obtain ⟨hena, ia, hia⟩ := scopeWf_loc (hwf a ha) hsa
  obtain ⟨henb, ib, hib⟩ := scopeWf_loc (hwf b hb) hsb
  have hidla : loa.location_id = ia := by
    have := List.find?_some hfa
    simp only [hia, decide_eq_true_eq, Option.some.injEq] at this
    exact this
  have hidlb : lob.location_id = ib := by
    have := List.find?_some hfb
    simp only [hib, decide_eq_true_eq, Option.some.injEq] at this
    exact this
  intro hxy
  apply hk
  have hnames : loa.name = lob.name := by
    simpa [hxa, hxb] using hxy
  have hlo : loa = lob :=
    eq_of_mem_nodup_map hlname (List.mem_of_find?_eq_some hfa)
      (List.mem_of_find?_eq_some hfb) hnames
  simp only [VariableValue.key, hn a ha, hn b hb, hsa, hsb, hena, henb,
    hia, hib, ← hidla, ← hidlb, hlo]

theorem specProj_some_iff {m : VariableManager} {vv : VariableValue}
    {t : String × String × Val} :
    specProj m vv = some t ↔
    vv.scope_type = .SPECIFIC ∧
    ∃ lo, m.locations.find? (fun lo =>
        decide (some lo.location_id = vv.location_id)) = some lo ∧
      lo.name ≠ "" ∧ t = (vv.environment_name.getD "", lo.name, vv.value) := by
  by_cases hs : vv.scope_type = .SPECIFIC
  · simp only [specProj, if_pos hs, true_and, hs]
    cases hf : m.locations.find? (fun lo =>
        decide (some lo.location_id = vv.location_id)) with
    | none => simp
    | some lo =>
      by_cases ht : truthy (some lo.name)
      · have htn : lo.name ≠ "" := by simpa [truthy] using ht
        simp [ht, htn, eq_comm]
        intro _
        exact fun e => htn e.symm
      · have htn : ¬ lo.name ≠ "" := by simpa [truthy] using ht
        simp [ht, htn]
  · simp [specProj, hs]

theorem specPairs_nodup {n : String} {m : VariableManager} {bs : List VariableValue}
    (h : KeyUnique bs) (hwf : ∀ vv ∈ bs, vv.scopeWfB = true)
    (hn : ∀ vv ∈ bs, vv.variable_name = n)
    (hlname : ((m.locations.map Location.name)).Nodup) :
    ((bs.filterMap (specProj m)).map (fun t => (t.1, t.2.1))).Nodup := by
  refine filterMap_keyfn_nodup h ?_
  intro a b ha hb hk x hx y hy
  obtain ⟨hsa, loa, hfa, _, hxa⟩ := specProj_some_iff.mp hx
  obtain ⟨hsb, lob, hfb, _, hxb⟩ := specProj_some_iff.mp hy
  obtain ⟨⟨ea, hea⟩, ia, hia⟩ := scopeWf_spec (hwf a ha) hsa
  obtain ⟨⟨eb, heb⟩, ib, hib⟩ := scopeWf_spec (hwf b hb) hsb
  have hidla : loa.location_id = ia := by
    have := List.find?_some hfa
    simp only [hia, decide_eq_true_eq, Option.some.injEq] at this
    exact this
  have hidlb : lob.location_id = ib := by
    have := List.find?_some hfb
    simp only [hib, decide_eq_true_eq, Option.some.injEq] at this
    exact this
  intro hxy
  apply hk
  simp only [hxa, hxb, hea, heb, Option.getD_some, Prod.mk.injEq] at hxy
  have hlo : loa = lob :=
    eq_of_mem_nodup_map hlname (List.mem_of_find?_eq_some hfa)
      (List.mem_of_find?_eq_some hfb) hxy.2
  simp only [VariableValue.key, hn a ha, hn b hb, hsa, hsb, hea, heb,
    hia, hib, ← hidla, ← hidlb, hlo, hxy.1]

theorem envStep_some : ∀ (d : List (String × Val)) (vv : VariableValue)
    (q : String × Val),
    envProj vv = some q → q.1 ∉ d.map Prod.fst →
    (if vv.scope_type = .ENVIRONMENT then
      dinsert (vv.environment_name.getD "") vv.value d else d) = d ++ [q] := by
  intro d vv q hq hfresh
  obtain ⟨hs, hqe⟩ := envProj_some_iff.mp hq
  rw [if_pos hs, hqe, dinsert_of_not_mem (by rw [hqe] at hfresh; exact hfresh)]

theorem envStep_none : ∀ (d : List (String × Val)) (vv : VariableValue),
    envProj vv = none →
    (if vv.scope_type = .ENVIRONMENT then
      dinsert (vv.environment_name.getD "") vv.value d else d) = d := by
  intro d vv hq
  by_cases hs : vv.scope_type = .ENVIRONMENT
  · simp [envProj, hs] at hq
  · rw [if_neg hs]

theorem groupEnv_eq {bs : List VariableValue}
    (hud : ((bs.filterMap envProj).map Prod.fst).Nodup) :
    groupEnv bs = bs.filterMap envProj := by
  have h := foldl_dinsert_fresh envStep_some envStep_none bs [] (by simpa using hud)
  simpa [groupEnv] using h

theorem locStep_some (m : VariableManager) :
    ∀ (d : List (String × Val)) (vv : VariableValue) (q : String × Val),
    locProj m vv = some q → q.1 ∉ d.map Prod.fst →
    (if vv.scope_type = .LOCATION then
      match m.locations.find? (fun lo =>
          decide (some lo.location_id = vv.location_id)) with
      | some lo => if truthy (some lo.name) then dinsert lo.name vv.value d else d
      | none => d
    else d) = d ++ [q] := by
  intro d vv q hq hfresh
  obtain ⟨hs, lo, hf, htn, hqe⟩ := locProj_some_iff.mp hq
  rw [if_pos hs, hf]
  have ht : truthy (some lo.name) = true := by simpa [truthy] using htn
  show (if truthy (some lo.name) = true then dinsert lo.name vv.value d else d) =
    d ++ [q]
  rw [if_pos ht, hqe, dinsert_of_not_mem (by rw [hqe] at hfresh; exact hfresh)]

theorem locStep_none (m : VariableManager) :
    ∀ (d : List (String × Val)) (vv : VariableValue),
    locProj m vv = none →
    (if vv.scope_type = .LOCATION then
      match m.locations.find? (fun lo =>
          decide (some lo.location_id = vv.location_id)) with
      | some lo => if truthy (some lo.name) then dinsert lo.name vv.value d else d
      | none => d
    else d) = d := by
  intro d vv hq
  by_cases hs : vv.scope_type = .LOCATION
  · rw [if_pos hs]
    simp only [locProj, if_pos hs] at hq
    cases hf : m.locations.find? (fun lo =>
        decide (some lo.location_id = vv.location_id)) with
    | none => rfl
    | some lo =>
      rw [hf] at hq
      by_cases ht : truthy (some lo.name)
      · simp [ht] at hq
      · simp [ht]
  · rw [if_neg hs]

theorem groupLoc_eq {m : VariableManager} {bs : List VariableValue}
    (hud : ((bs.filterMap (locProj m)).map Prod.fst).Nodup) :
    groupLoc m bs = bs.filterMap (locProj m) := by
  have h := foldl_dinsert_fresh (locStep_some m) (locStep_none m) bs []
    (by simpa using hud)
  simpa [groupLoc] using h

theorem specStep_eq (m : VariableManager) (d : List (String × List (String × Val)))
    (vv : VariableValue) :
    (if vv.scope_type = .SPECIFIC then
      match m.locations.find? (fun lo =>
          decide (some lo.location_id = vv.location_id)) with
      | some lo =>
        if truthy (some lo.name) then
          ndinsert (vv.environment_name.getD "") lo.name vv.value d
        else d
      | none => d
    else d) =
    (match specProj m vv with
     | some t => ndinsert t.1 t.2.1 t.2.2 d
     | none => d) := by
  by_cases hs : vv.scope_type = .SPECIFIC
  · simp only [specProj, if_pos hs]
    cases m.locations.find? (fun lo =>
        decide (some lo.location_id = vv.location_id)) with
    | none => rfl
    | some lo =>
      by_cases ht : truthy (some lo.name)
      · simp [ht]
      · simp [ht]
  · simp [specProj, hs]

theorem groupSpecific_eq_foldl (m : VariableManager) (bs : List VariableValue) :
    groupSpecific m bs = bs.foldl (fun d vv => match specProj m vv with
      | some t => ndinsert t.1 t.2.1 t.2.2 d
      | none => d) [] := by
  unfold groupSpecific
  congr 1
  funext d vv
  exact specStep_eq m d vv

theorem specFold_spec (m : VariableManager) :
    ∀ (bs : List VariableValue) (d : List (String × List (String × Val))),
    ((flat2 d).map (fun t => (t.1, t.2.1)) ++
      (bs.filterMap (specProj m)).map (fun t => (t.1, t.2.1))).Nodup →
    (d.map Prod.fst).Nodup →
    (∀ q ∈ d, (q.2.map Prod.fst).Nodup ∧ q.2 ≠ []) →
    List.Perm
      (flat2 (bs.foldl (fun d vv => match specProj m vv with
        | some t => ndinsert t.1 t.2.1 t.2.2 d
        | none => d) d))
      (flat2 d ++ bs.filterMap (specProj m)) ∧
    ((bs.foldl (fun d vv => match specProj m vv with
        | some t => ndinsert t.1 t.2.1 t.2.2 d
        | none => d) d).map Prod.fst).Nodup ∧
    (∀ q ∈ bs.foldl (fun d vv => match specProj m vv with
        | some t => ndinsert t.1 t.2.1 t.2.2 d
        | none => d) d, (q.2.map Prod.fst).Nodup ∧ q.2 ≠ []) := by
  intro bs
  induction bs with
  | nil =>
    intro d _ hdk hinner
    refine ⟨?_, hdk, hinner⟩
    simp only [List.foldl_nil, List.filterMap_nil, List.append_nil]
    exact List.Perm.refl _
  | cons b bs ih =>
    intro d hnd hdk hinner
    cases hfb : specProj m b with
    | none =>
      have hfm : (b :: bs).filterMap (specProj m) = bs.filterMap (specProj m) := by
        simp [List.filterMap_cons, hfb]
      rw [hfm] at hnd
      simp only [List.foldl_cons, hfb, hfm]
      exact ih d hnd hdk hinner
    | some t =>
      obtain ⟨e, l, v⟩ := t
      have hfm : (b :: bs).filterMap (specProj m) =
          (e, l, v) :: bs.filterMap (specProj m) := by
        simp [List.filterMap_cons, hfb]
      rw [hfm] at hnd
      simp only [List.map_cons] at hnd
      have hfresh : (e, l) ∉ (flat2 d).map (fun t => (t.1, t.2.1)) := fun hmem =>
        (List.nodup_append.mp hnd).2.2 hmem (List.mem_cons_self _ _)
      have hperm : List.Perm (flat2 (ndinsert e l v d)) ((e, l, v) :: flat2 d) :=
        ndinsert_flat2 hfresh
      have hpairs : List.Perm ((flat2 (ndinsert e l v d)).map (fun t => (t.1, t.2.1)))
          ((e, l) :: (flat2 d).map (fun t => (t.1, t.2.1))) :=
        hperm.map _
      have hnd' : ((flat2 (ndinsert e l v d)).map (fun t => (t.1, t.2.1)) ++
          (bs.filterMap (specProj m)).map (fun t => (t.1, t.2.1))).Nodup := by
        refine ((hpairs.append_right _).nodup_iff).mpr ?_
        have : List.Perm
            ((flat2 d).map (fun t => (t.1, t.2.1)) ++
              (e, l) :: (bs.filterMap (specProj m)).map (fun t => (t.1, t.2.1)))
            ((e, l) :: ((flat2 d).map (fun t => (t.1, t.2.1)) ++
              (bs.filterMap (specProj m)).map (fun t => (t.1, t.2.1)))) :=
          List.perm_middle
        exact (this.nodup_iff).mp hnd
      have hdk' : ((ndinsert e l v d).map Prod.fst).Nodup := by
        rw [ndinsert_keys]
        by_cases he : e ∈ d.map Prod.fst
        · rw [if_pos he]; exact hdk
        · rw [if_neg he]
          simp only [List.nodup_append]
          exact ⟨hdk, by simp, by intro a ha hb; simp at hb; exact he (hb ▸ ha)⟩
      have hinner' : ∀ q ∈ ndinsert e l v d, (q.2.map Prod.fst).Nodup ∧ q.2 ≠ [] :=
        fun q hq => ⟨ndinsert_inner_nodup (fun r hr => (hinner r hr).1) hfresh q hq,
          ndinsert_inner_ne_nil (fun r hr => (hinner r hr).2) q hq⟩
      have hmain := ih (ndinsert e l v d) hnd' hdk' hinner'
      simp only [List.foldl_cons, hfb, hfm]
      refine ⟨?_, hmain.2.1, hmain.2.2⟩
      exact hmain.1.trans ((hperm.append_right _).trans List.perm_middle.symm)

theorem groupSpecific_spec (m : VariableManager) (bs : List VariableValue)
    (hnd : ((bs.filterMap (specProj m)).map (fun t => (t.1, t.2.1))).Nodup) :
    List.Perm (flat2 (groupSpecific m bs)) (bs.filterMap (specProj m)) ∧
    ((groupSpecific m bs).map Prod.fst).Nodup ∧
    (∀ q ∈ groupSpecific m bs, (q.2.map Prod.fst).Nodup ∧ q.2 ≠ []) := by
  rw [groupSpecific_eq_foldl]
  have h := specFold_spec m bs [] (by simpa [flat2] using hnd) (by simp)
    (by simp)
  simpa [flat2] using h

theorem sortPairsByKey_perm {α : Type} (ps : List (String × α)) :
    List.Perm (sortPairsByKey ps) ps := List.perm_insertionSort _ _

theorem sortVariables_perm (vs : List Variable) :
    List.Perm (sortVariables vs) vs := List.perm_insertionSort _ _

theorem sortByName_perm (ls : List Location) :
    List.Perm (sortByName ls) ls := List.perm_insertionSort _ _

theorem sortStrings_perm (l : List String) :
    List.Perm (sortStrings l) l := List.perm_insertionSort _ _

theorem filterMap_some_eq_map {α β : Type} (g : α → β) (l : List α) :
    l.filterMap (fun a => some (g a)) = l.map g := by
  induction l with
  | nil => rfl
  | cons a l ih => simp [List.filterMap_cons, ih]

theorem roundTripWf_parts {m : VariableManager} (h : roundTripWfB m = true) :
    (m.variables_.map Variable.name).Nodup ∧
    (∀ va ∈ m.variables_, strUpper va.name = va.name) ∧
    m.environments.Nodup ∧
    (m.locations.map Location.location_id).Nodup ∧
    (m.locations.map Location.name).Nodup ∧
    (∀ lo ∈ m.locations, lo.name ≠ "" ∧
      lo.name ∉ (["description", "default", "validation"] : List String)) ∧
    (∀ e ∈ m.environments, e ∉ m.locations.map Location.name ∧
      e ∉ (["description", "default", "validation"] : List String)) ∧
    KeyUnique m.variable_values ∧
    (∀ vv ∈ m.variable_values, vv.scopeWfB = true ∧
      (∃ va ∈ m.variables_, va.name = vv.variable_name) ∧
      (∀ e, vv.environment_name = some e → e ∈ m.environments) ∧
      (∀ i, vv.location_id = some i → i ∈ m.locations.map Location.location_id)) ∧
    (∀ v1 ∈ m.variable_values, ∀ v2 ∈ m.variable_values,
      ¬(v1.variable_name = v2.variable_name ∧ v1.scope_type = .ENVIRONMENT ∧
        v2.scope_type = .SPECIFIC ∧ v1.environment_name = v2.environment_name)) := by
  rw [roundTripWfB] at h
  repeat rw [Bool.and_eq_true] at h
  obtain ⟨⟨⟨⟨⟨⟨⟨⟨⟨h1, h2⟩, h3⟩, h4⟩, h5⟩, h6⟩, h7⟩, h8⟩, h9⟩, h10⟩ := h
  refine ⟨by simpa using h1, ?_, by simpa using h3, by simpa using h4,
    by simpa using h5, ?_, ?_, by simpa using h8, ?_, ?_⟩
  · intro va hva
    have := List.all_eq_true.mp h2 va hva
    simpa using this
  · intro lo hlo
    have := List.all_eq_true.mp h6 lo hlo
    rw [Bool.and_eq_true] at this
    refine ⟨by simpa using this.1, ?_⟩
    intro hmem
    have hc := this.2
    rw [Bool.not_eq_true'] at hc
    rw [← List.elem_iff] at hmem
    have hcc : (["description", "default", "validation"] : List String).contains lo.name = true := hmem
    rw [hcc] at hc
    exact Bool.noConfusion hc
  · intro e he
    have := List.all_eq_true.mp h7 e he
    rw [Bool.and_eq_true] at this
    constructor
    · intro hmem
      have hc := this.1
      rw [Bool.not_eq_true'] at hc
      rw [← List.elem_iff] at hmem
      have hcc : (m.locations.map Location.name).contains e = true := hmem
      rw [hcc] at hc
      exact Bool.noConfusion hc
    · intro hmem
      have hc := this.2
      rw [Bool.not_eq_true'] at hc
      rw [← List.elem_iff] at hmem
      have hcc : (["description", "default", "validation"] : List String).contains e = true := hmem
      rw [hcc] at hc
      exact Bool.noConfusion hc
  · intro vv hvv
    have := List.all_eq_true.mp h9 vv hvv
    repeat rw [Bool.and_eq_true] at this
    obtain ⟨⟨⟨hwf, hdecl⟩, henv⟩, hloc⟩ := this
    refine ⟨hwf, ?_, ?_, ?_⟩
    · obtain ⟨va, hva, hname⟩ := List.any_eq_true.mp hdecl
      exact ⟨va, hva, of_decide_eq_true hname⟩
    · intro e he
      rw [he] at henv
      exact List.elem_iff.mp henv
    · intro i hi
      rw [hi] at hloc
      exact List.elem_iff.mp hloc
  · intro v1 hv1 v2 hv2
    have := List.all_eq_true.mp h10 v1 hv1
    have := List.all_eq_true.mp this v2 hv2
    rw [Bool.not_eq_true'] at this
    intro ⟨e1, e2, e3, e4⟩
    simp [e1, e2, e3, e4] at this

theorem bsOf_sub {m : VariableManager} {n : String} :
    ∀ vv ∈ bsOf m n, vv ∈ m.variable_values ∧ vv.variable_name = n := by
  intro vv hvv
  rw [bsOf, List.mem_filter] at hvv
  exact ⟨hvv.1, of_decide_eq_true hvv.2⟩

theorem bsOf_mem {m : VariableManager} {n : String} {vv : VariableValue}
    (h1 : vv ∈ m.variable_values) (h2 : vv.variable_name = n) :
    vv ∈ bsOf m n := by
  rw [bsOf, List.mem_filter]
  exact ⟨h1, by simp [h2]⟩

theorem bsOf_keyUnique {m : VariableManager} (h : KeyUnique m.variable_values)
    (n : String) : KeyUnique (bsOf m n) :=
  List.Pairwise.sublist (List.filter_sublist _) h

theorem scalarFold_eq (ps : List (String × Val)) (d : List (String × YVal))
    (hnd : (d.map Prod.fst ++ ps.map Prod.fst).Nodup) :
    ps.foldl (fun d q => dinsert q.1 (YVal.scalar q.2) d) d =
      d ++ ps.map (fun q => (q.1, YVal.scalar q.2)) := by
  have hgs : ∀ (d : List (String × YVal)) (b : String × Val) (q : String × YVal),
      some (b.1, YVal.scalar b.2) = some q → q.1 ∉ d.map Prod.fst →
      dinsert b.1 (YVal.scalar b.2) d = d ++ [q] := by
    intro d b q hq hfresh
    simp only [Option.some.injEq] at hq
    rw [← hq] at hfresh ⊢
    exact dinsert_of_not_mem hfresh
  have hgn : ∀ (d : List (String × YVal)) (b : String × Val),
      (some (b.1, YVal.scalar b.2) : Option (String × YVal)) = none →
      dinsert b.1 (YVal.scalar b.2) d = d := by
    intro d b hq
    simp at hq
  have h := foldl_dinsert_fresh hgs hgn ps d
    (by rw [filterMap_some_eq_map]; simpa using hnd)
  rw [filterMap_some_eq_map] at h
  exact h

theorem specSetFold_eq (ps : List (String × List (String × Val)))
    (d : List (String × YVal))
    (hnd : (d.map Prod.fst ++ ps.map Prod.fst).Nodup) :
    ps.foldl (fun d q => setSpecificEntry q.1 q.2 d) d =
      d ++ ps.map (fun q => (q.1,
        YVal.ymap ((sortPairsByKey q.2).map (fun r => (r.1, YVal.scalar r.2))))) := by
  have hgs : ∀ (d : List (String × YVal)) (b : String × List (String × Val))
      (q : String × YVal),
      some (b.1, YVal.ymap ((sortPairsByKey b.2).map
        (fun r => (r.1, YVal.scalar r.2)))) = some q →
      q.1 ∉ d.map Prod.fst →
      setSpecificEntry b.1 b.2 d = d ++ [q] := by
    intro d b q hq hfresh
    simp only [Option.some.injEq] at hq
    rw [← hq] at hfresh ⊢
    have hfind : d.find? (fun p => decide (p.1 = b.1)) = none := by
      apply List.find?_eq_none.mpr
      intro p hp
      simp only [decide_eq_true_eq]
      intro he
      exact hfresh (he ▸ List.mem_map_of_mem Prod.fst hp)
    unfold setSpecificEntry
    rw [hfind]
    exact dinsert_of_not_mem hfresh
  have hgn : ∀ (d : List (String × YVal)) (b : String × List (String × Val)),
      (some (b.1, YVal.ymap ((sortPairsByKey b.2).map
        (fun r => (r.1, YVal.scalar r.2)))) : Option (String × YVal)) = none →
      setSpecificEntry b.1 b.2 d = d := by
    intro d b hq
    simp at hq
  have h := foldl_dinsert_fresh hgs hgn ps d
    (by rw [filterMap_some_eq_map]; simpa using hnd)
  rw [filterMap_some_eq_map] at h
  exact h

theorem metaEntries_keys {va : Variable} :
    ∀ k ∈ (metaEntries va).map Prod.fst, k = "description" ∨ k = "validation" := by
  intro k hk
  simp only [metaEntries, List.map_append, List.mem_append] at hk
  rcases hk with hk | hk
  · left
    by_cases hd : truthy va.description
    · simpa [hd] using hk
    · simp [hd] at hk
  · right
    by_cases hd : truthy va.validation
    · simpa [hd] using hk
    · simp [hd] at hk

theorem metaEntries_keys_nodup {va : Variable} :
    ((metaEntries va).map Prod.fst).Nodup := by
  simp only [metaEntries]
  by_cases hd : truthy va.description <;> by_cases hv : truthy va.validation <;>
    simp [hd, hv]

theorem defaultEntries_keys {bs : List VariableValue} :
    ∀ k ∈ (defaultEntries bs).map Prod.fst, k = "default" := by
  intro k hk
  rw [defaultEntries] at hk
  cases hgd : groupDefault bs with
  | none => rw [hgd] at hk; cases hk
  | some dv => rw [hgd] at hk; simpa using hk

theorem defaultEntries_keys_nodup {bs : List VariableValue} :
    ((defaultEntries bs).map Prod.fst).Nodup := by
  rw [defaultEntries]
  cases groupDefault bs <;> simp

theorem map_fst_pair_map {α β γ : Type} (g : α × β → γ) (l : List (α × β)) :
    (l.map (fun q => (q.1, g q))).map Prod.fst = l.map Prod.fst := by
  induction l with
  | nil => rfl
  | cons a l ih => simp [ih]

theorem bsOf_wf {m : VariableManager} (h : roundTripWfB m = true) (n : String) :
    KeyUnique (bsOf m n) ∧ (∀ vv ∈ bsOf m n, vv.scopeWfB = true) ∧
    (∀ vv ∈ bsOf m n, vv.variable_name = n) := by
  obtain ⟨h1, h2, h3, h4, h5, h6, h7, h8, h9, h10⟩ := roundTripWf_parts h
  exact ⟨bsOf_keyUnique h8 n,
    fun vv hvv => (h9 vv (bsOf_sub vv hvv).1).1,
    fun vv hvv => (bsOf_sub vv hvv).2⟩

theorem envKeys_mem {m : VariableManager} (h : roundTripWfB m = true) (n : String) :
    ∀ k ∈ (groupEnv (bsOf m n)).map Prod.fst,
    k ∈ m.environments ∧
    ∃ vv ∈ bsOf m n, vv.scope_type = .ENVIRONMENT ∧
      vv.environment_name = some k := by
  obtain ⟨hku, hwf, hn⟩ := bsOf_wf h n
  obtain ⟨h1, h2, h3, h4, h5, h6, h7, h8, h9, h10⟩ := roundTripWf_parts h
  rw [groupEnv_eq (envKeys_nodup hku hwf hn)]
  intro k hk
  obtain ⟨q, hq, hqk⟩ := List.mem_map.mp hk
  obtain ⟨vv, hvv, hproj⟩ := List.mem_filterMap.mp hq
  obtain ⟨hs, hqe⟩ := envProj_some_iff.mp hproj
  obtain ⟨⟨e, he⟩, hl⟩ := scopeWf_env (hwf vv hvv) hs
  have hke : k = e := by rw [← hqk, hqe]; simp [he]
  subst hke
  exact ⟨(h9 vv (bsOf_sub vv hvv).1).2.2.1 k he, vv, hvv, hs, he⟩

theorem locKeysGroup_mem {m : VariableManager} (h : roundTripWfB m = true)
    (n : String) :
    ∀ k ∈ (groupLoc m (bsOf m n)).map Prod.fst,
    k ∈ m.locations.map Location.name := by
  obtain ⟨hku, hwf, hn⟩ := bsOf_wf h n
  obtain ⟨h1, h2, h3, h4, h5, h6, h7, h8, h9, h10⟩ := roundTripWf_parts h
  rw [groupLoc_eq (locKeys_nodup hku hwf hn h5)]
  intro k hk
  obtain ⟨q, hq, hqk⟩ := List.mem_map.mp hk
  obtain ⟨vv, hvv, hproj⟩ := List.mem_filterMap.mp hq
  obtain ⟨hs, lo, hf, htn, hqe⟩ := locProj_some_iff.mp hproj
  have hkl : k = lo.name := by rw [← hqk, hqe]
  subst hkl
  exact List.mem_map_of_mem Location.name (List.mem_of_find?_eq_some hf)

theorem specKeysGroup_mem {m : VariableManager} (h : roundTripWfB m = true)
    (n : String) :
    ∀ k ∈ (groupSpecific m (bsOf m n)).map Prod.fst,
    k ∈ m.environments ∧
    ∃ vv ∈ bsOf m n, vv.scope_type = .SPECIFIC ∧
      vv.environment_name = some k := by
  obtain ⟨hku, hwf, hn⟩ := bsOf_wf h n
  obtain ⟨h1, h2, h3, h4, h5, h6, h7, h8, h9, h10⟩ := roundTripWf_parts h
  have hgs := groupSpecific_spec m (bsOf m n) (specPairs_nodup hku hwf hn h5)
  intro k hk
  obtain ⟨q, hq, hqk⟩ := List.mem_map.mp hk
  obtain ⟨r, hr⟩ := List.exists_mem_of_ne_nil _ ((hgs.2.2 q hq).2)
  have hfl : (q.1, r.1, r.2) ∈ flat2 (groupSpecific m (bsOf m n)) :=
    flat2_mem_iff.mpr ⟨q, hq, rfl, by simpa using hr⟩
  have hmem2 := hgs.1.mem_iff.mp hfl
  obtain ⟨vv, hvv, hproj⟩ := List.mem_filterMap.mp hmem2
  obtain ⟨hs, lo, hf, htn, hte⟩ := specProj_some_iff.mp hproj
  obtain ⟨⟨e, he⟩, _⟩ := scopeWf_spec (hwf vv hvv) hs
  have hke : k = e := by
    rw [← hqk]
    have : q.1 = vv.environment_name.getD "" := congrArg (fun t => t.1) hte
    rw [this, he]
    rfl
  subst hke
  exact ⟨(h9 vv (bsOf_sub vv hvv).1).2.2.1 k he, vv, hvv, hs, he⟩

theorem blockKeys_nodup {m : VariableManager} (h : roundTripWfB m = true)
    (va : Variable) :
    ((metaEntries va).map Prod.fst ++ (defaultEntries (bsOf m va.name)).map Prod.fst ++
     (envEntries (bsOf m va.name)).map Prod.fst ++
     (locEntries m (bsOf m va.name)).map Prod.fst ++
     (specEntries m (bsOf m va.name)).map Prod.fst).Nodup := by
  obtain ⟨hku, hwf, hn⟩ := bsOf_wf h va.name
  obtain ⟨h1, h2, h3, h4, h5, h6, h7, h8, h9, h10⟩ := roundTripWf_parts h
  have hCkeys : (envEntries (bsOf m va.name)).map Prod.fst =
      (sortPairsByKey (groupEnv (bsOf m va.name))).map Prod.fst :=
    map_fst_pair_map _ _
  have hDkeys : (locEntries m (bsOf m va.name)).map Prod.fst =
      (sortPairsByKey (groupLoc m (bsOf m va.name))).map Prod.fst :=
    map_fst_pair_map _ _
  have hEkeys : (specEntries m (bsOf m va.name)).map Prod.fst =
      (sortPairsByKey (groupSpecific m (bsOf m va.name))).map Prod.fst :=
    map_fst_pair_map _ _
  have hCperm : List.Perm ((envEntries (bsOf m va.name)).map Prod.fst)
      ((groupEnv (bsOf m va.name)).map Prod.fst) := by
    rw [hCkeys]; exact (sortPairsByKey_perm _).map _
  have hDperm : List.Perm ((locEntries m (bsOf m va.name)).map Prod.fst)
      ((groupLoc m (bsOf m va.name)).map Prod.fst) := by
    rw [hDkeys]; exact (sortPairsByKey_perm _).map _
  have hEperm : List.Perm ((specEntries m (bsOf m va.name)).map Prod.fst)
      ((groupSpecific m (bsOf m va.name)).map Prod.fst) := by
    rw [hEkeys]; exact (sortPairsByKey_perm _).map _
  have hCmem : ∀ k ∈ (envEntries (bsOf m va.name)).map Prod.fst,
      k ∈ m.environments ∧ ∃ vv ∈ bsOf m va.name,
        vv.scope_type = .ENVIRONMENT ∧ vv.environment_name = some k :=
    fun k hk => envKeys_mem h va.name k (hCperm.mem_iff.mp hk)
  have hDmem : ∀ k ∈ (locEntries m (bsOf m va.name)).map Prod.fst,
      k ∈ m.locations.map Location.name :=
    fun k hk => locKeysGroup_mem h va.name k (hDperm.mem_iff.mp hk)
  have hEmem : ∀ k ∈ (specEntries m (bsOf m va.name)).map Prod.fst,
      k ∈ m.environments ∧ ∃ vv ∈ bsOf m va.name,
        vv.scope_type = .SPECIFIC ∧ vv.environment_name = some k :=
    fun k hk => specKeysGroup_mem h va.name k (hEperm.mem_iff.mp hk)
  have hCnd : ((envEntries (bsOf m va.name)).map Prod.fst).Nodup := by
    rw [hCperm.nodup_iff, groupEnv_eq (envKeys_nodup hku hwf hn)]
    exact envKeys_nodup hku hwf hn
  have hDnd : ((locEntries m (bsOf m va.name)).map Prod.fst).Nodup := by
    rw [hDperm.nodup_iff, groupLoc_eq (locKeys_nodup hku hwf hn h5)]
    exact locKeys_nodup hku hwf hn h5
  have hEnd : ((specEntries m (bsOf m va.name)).map Prod.fst).Nodup := by
    rw [hEperm.nodup_iff]
    exact (groupSpecific_spec m (bsOf m va.name)
      (specPairs_nodup hku hwf hn h5)).2.1
  have hmetaList : ∀ k, k = "description" ∨ k = "validation" →
      k ∈ (["description", "default", "validation"] : List String) := by
    rintro k (rfl | rfl) <;> simp
  have hdfltList : ∀ k, k = "default" →
      k ∈ (["description", "default", "validation"] : List String) := by
    rintro k rfl; simp
  have hAB : ((metaEntries va).map Prod.fst ++
      (defaultEntries (bsOf m va.name)).map Prod.fst).Nodup := by
    rw [List.nodup_append]
    refine ⟨metaEntries_keys_nodup, defaultEntries_keys_nodup, ?_⟩
    intro k hk hk2
    rcases metaEntries_keys k hk with rfl | rfl <;>
      simpa using defaultEntries_keys _ hk2
  have hABC : ((metaEntries va).map Prod.fst ++
      (defaultEntries (bsOf m va.name)).map Prod.fst ++
      (envEntries (bsOf m va.name)).map Prod.fst).Nodup := by
    rw [List.nodup_append]
    refine ⟨hAB, hCnd, ?_⟩
    intro k hk hk2
    have hkm : k ∈ (["description", "default", "validation"] : List String) := by
      rcases List.mem_append.mp hk with hk | hk
      · exact hmetaList k (metaEntries_keys k hk)
      · exact hdfltList k (defaultEntries_keys k hk)
    exact (h7 k (hCmem k hk2).1).2 hkm
  have hABCD : ((metaEntries va).map Prod.fst ++
      (defaultEntries (bsOf m va.name)).map Prod.fst ++
      (envEntries (bsOf m va.name)).map Prod.fst ++
      (locEntries m (bsOf m va.name)).map Prod.fst).Nodup := by
    rw [List.nodup_append]
    refine ⟨hABC, hDnd, ?_⟩
    intro k hk hk2
    have hkloc := hDmem k hk2
    rcases List.mem_append.mp hk with hk | hk
    · have hkm : k ∈ (["description", "default", "validation"] : List String) := by
        rcases List.mem_append.mp hk with hk | hk
        · exact hmetaList k (metaEntries_keys k hk)
        · exact hdfltList k (defaultEntries_keys k hk)
      obtain ⟨lo, hlo, hloname⟩ := List.mem_map.mp hkloc
      exact (h6 lo hlo).2 (hloname ▸ hkm)
    · exact (h7 k (hCmem k hk).1).1 hkloc
  rw [List.nodup_append]
  refine ⟨hABCD, hEnd, ?_⟩
  intro k hk hk2
  have hkspec := hEmem k hk2
  rcases List.mem_append.mp hk with hk | hk
  · rcases List.mem_append.mp hk with hk | hk
    · have hkm : k ∈ (["description", "default", "validation"] : List String) := by
        rcases List.mem_append.mp hk with hk | hk
        · exact hmetaList k (metaEntries_keys k hk)
        · exact hdfltList k (defaultEntries_keys k hk)
      exact (h7 k hkspec.1).2 hkm
    · obtain ⟨he, vv1, hvv1, hs1, hen1⟩ := hCmem k hk
      obtain ⟨_, vv2, hvv2, hs2, hen2⟩ := hkspec
      exact h10 vv1 (bsOf_sub vv1 hvv1).1 vv2 (bsOf_sub vv2 hvv2).1
        ⟨((bsOf_sub vv1 hvv1).2).trans ((bsOf_sub vv2 hvv2).2).symm,
          hs1, hs2, hen1.trans hen2.symm⟩
  · exact (h7 k hkspec.1).1 (hDmem k hk)

theorem bsOf_def (m : VariableManager) (n : String) :
    List.filter (fun vv => decide (vv.variable_name = n)) m.variable_values =
    bsOf m n := rfl

theorem metaEntries_def (va : Variable) :
    ((if truthy va.description = true then
      [("description", YVal.scalar (Val.plain (va.description.getD "")))] else []) ++
      if truthy va.validation = true then
      [("validation", YVal.scalar (Val.plain (va.validation.getD "")))] else []) =
    metaEntries va := rfl

theorem envEntries_def (bs : List VariableValue) :
    (sortPairsByKey (groupEnv bs)).map (fun q => (q.1, YVal.scalar q.2)) =
    envEntries bs := rfl

theorem locEntries_def (m : VariableManager) (bs : List VariableValue) :
    (sortPairsByKey (groupLoc m bs)).map (fun q => (q.1, YVal.scalar q.2)) =
    locEntries m bs := rfl

theorem specEntries_def (m : VariableManager) (bs : List VariableValue) :
    (sortPairsByKey (groupSpecific m bs)).map (fun q => (q.1,
      YVal.ymap ((sortPairsByKey q.2).map (fun r => (r.1, YVal.scalar r.2))))) =
    specEntries m bs := rfl

theorem varDataTail_eq (m : VariableManager) (bs : List VariableValue)
    (base : List (String × YVal))
    (hnd : (base.map Prod.fst ++ (envEntries bs).map Prod.fst ++
      (locEntries m bs).map Prod.fst ++
      (specEntries m bs).map Prod.fst).Nodup) :
    (sortPairsByKey (groupSpecific m bs)).foldl
      (fun d q => setSpecificEntry q.1 q.2 d)
      ((sortPairsByKey (groupLoc m bs)).foldl
        (fun d q => dinsert q.1 (YVal.scalar q.2) d)
        ((sortPairsByKey (groupEnv bs)).foldl
          (fun d q => dinsert q.1 (YVal.scalar q.2) d) base)) =
      base ++ envEntries bs ++ locEntries m bs ++ specEntries m bs := by
  have hE : (envEntries bs).map Prod.fst =
      (sortPairsByKey (groupEnv bs)).map Prod.fst := map_fst_pair_map _ _
  have hD : (locEntries m bs).map Prod.fst =
      (sortPairsByKey (groupLoc m bs)).map Prod.fst := map_fst_pair_map _ _
  have hS : (specEntries m bs).map Prod.fst =
      (sortPairsByKey (groupSpecific m bs)).map Prod.fst := map_fst_pair_map _ _
  have hnd1 : (base.map Prod.fst ++
      (sortPairsByKey (groupEnv bs)).map Prod.fst).Nodup := by
    rw [← hE]
    exact List.Pairwise.sublist
      ((List.sublist_append_left _ _).trans (List.sublist_append_left _ _)) hnd
  rw [scalarFold_eq (sortPairsByKey (groupEnv bs)) base hnd1]
  rw [envEntries_def]
  have hnd2 : ((base ++ envEntries bs).map Prod.fst ++
      (sortPairsByKey (groupLoc m bs)).map Prod.fst).Nodup := by
    rw [List.map_append, ← hD]
    exact List.Pairwise.sublist (List.sublist_append_left _ _) hnd
  rw [scalarFold_eq (sortPairsByKey (groupLoc m bs)) (base ++ envEntries bs) hnd2]
  rw [locEntries_def]
  have hnd3 : ((base ++ envEntries bs ++ locEntries m bs).map Prod.fst ++
      (sortPairsByKey (groupSpecific m bs)).map Prod.fst).Nodup := by
    rw [List.map_append, List.map_append, ← hS]
    exact hnd
  rw [specSetFold_eq (sortPairsByKey (groupSpecific m bs))
    (base ++ envEntries bs ++ locEntries m bs) hnd3]
  rw [specEntries_def]

theorem varDataFor_eq {m : VariableManager} (h : roundTripWfB m = true)
    (va : Variable) :
    varDataFor m va =
      metaEntries va ++ defaultEntries (bsOf m va.name) ++
      envEntries (bsOf m va.name) ++ locEntries m (bsOf m va.name) ++
      specEntries m (bsOf m va.name) := by
  have hkeys := blockKeys_nodup h va
  have hmetafresh : "default" ∉ (metaEntries va).map Prod.fst := by
    intro hmem
    rcases metaEntries_keys _ hmem with h' | h' <;> simp at h'
  simp only [varDataFor]
  rw [bsOf_def m va.name, metaEntries_def va]
  split
  · rename_i dv hgd
    have hdflt : defaultEntries (bsOf m va.name) = [("default", YVal.scalar dv)] := by
      simp [defaultEntries, hgd]
    have hbase : dinsert "default" (YVal.scalar dv) (metaEntries va) =
        metaEntries va ++ defaultEntries (bsOf m va.name) := by
      rw [dinsert_of_not_mem hmetafresh, hdflt]
    rw [hbase]
    refine (varDataTail_eq m (bsOf m va.name)
      (metaEntries va ++ defaultEntries (bsOf m va.name)) ?_).trans ?_
    · rw [List.map_append]
      exact hkeys
    · simp [List.append_assoc]
  · rename_i hgd
    have hdflt : defaultEntries (bsOf m va.name) = [] := by
      simp [defaultEntries, hgd]
    have hbase : metaEntries va = metaEntries va ++ defaultEntries (bsOf m va.name) := by
      rw [hdflt, List.append_nil]
    rw [hbase]
    refine (varDataTail_eq m (bsOf m va.name)
      (metaEntries va ++ defaultEntries (bsOf m va.name)) ?_).trans ?_
    · rw [List.map_append]
      exact hkeys
    · simp [List.append_assoc, hdflt]

/-! ## C3: the loader on written documents -/

theorem locPairs_fst (ls : List Location) :
    (locPairs ls).map Prod.fst = ls.map Location.name := by
  induction ls with
  | nil => rfl
  | cons lo ls ih => simp only [locPairs, List.map_cons] at ih ⊢; rw [ih]

theorem locPairs_snd (ls : List Location) :
    (locPairs ls).map Prod.snd = ls.map Location.location_id := by
  induction ls with
  | nil => rfl
  | cons lo ls ih => simp only [locPairs, List.map_cons] at ih ⊢; rw [ih]

theorem lookupIdByName_eq {ls : List Location} {l i : String}
    (hnames : (ls.map Location.name).Nodup)
    (hmem : (l, i) ∈ locPairs ls) :
    lookupIdByName ls l = some i := by
  obtain ⟨lo, hlo, hpair⟩ := List.mem_map.mp hmem
  have hn : lo.name = l := congrArg Prod.fst hpair
  have hi : lo.location_id = i := congrArg Prod.snd hpair
  rw [lookupIdByName]
  cases hf : ls.find? (fun lo => decide (lo.name = l)) with
  | none =>
    exfalso
    have := List.find?_eq_none.mp hf lo hlo
    simp [hn] at this
  | some lo' =>
    have h1 := List.find?_some hf
    simp only [decide_eq_true_eq] at h1
    have heq : lo' = lo := eq_of_mem_nodup_map hnames
      (List.mem_of_find?_eq_some hf) hlo (by rw [h1, hn])
    simp [heq, hi]

theorem findById_eq {ls : List Location} {i : String} {lo : Location}
    (hids : (ls.map Location.location_id).Nodup) (hlo : lo ∈ ls)
    (hid : lo.location_id = i) :
    ls.find? (fun x => decide (some x.location_id = some i)) = some lo := by
  cases hf : ls.find? (fun x => decide (some x.location_id = some i)) with
  | none =>
    exfalso
    have := List.find?_eq_none.mp hf lo hlo
    simp [hid] at this
  | some lo' =>
    have h1 := List.find?_some hf
    simp only [Option.some.injEq, decide_eq_true_eq] at h1
    rw [eq_of_mem_nodup_map hids (List.mem_of_find?_eq_some hf) hlo
      (by rw [h1, hid])]

theorem groupDefault_inv :
    ∀ (bs : List VariableValue) (acc : Option Val) (dv : Val),
    bs.foldl (fun acc vv =>
      if vv.scope_type = .DEFAULT then some vv.value else acc) acc = some dv →
    (∃ b ∈ bs, b.scope_type = .DEFAULT ∧ b.value = dv) ∨ acc = some dv := by
  intro bs
  induction bs with
  | nil => intro acc dv h; exact Or.inr h
  | cons b rest ih =>
    intro acc dv h
    rw [List.foldl_cons] at h
    by_cases hb : b.scope_type = .DEFAULT
    · rw [if_pos hb] at h
      rcases ih _ _ h with ⟨b', hb', hd', hv'⟩ | hacc
      · exact Or.inl ⟨b', List.mem_cons_of_mem _ hb', hd', hv'⟩
      · exact Or.inl ⟨b, List.mem_cons_self _ _, hb, by
          injection hacc⟩
    · rw [if_neg hb] at h
      rcases ih _ _ h with ⟨b', hb', hd', hv'⟩ | hacc
      · exact Or.inl ⟨b', List.mem_cons_of_mem _ hb', hd', hv'⟩
      · exact Or.inr hacc

theorem foldlM_pure_of_all {σ : Type} {β : Type} (f : σ → β → Except String σ)
    (l : List β) (h : ∀ b ∈ l, ∀ s, f s b = .ok s) :
    ∀ s, l.foldlM f s = .ok s := by
  induction l with
  | nil => intro s; rfl
  | cons b rest ih =>
    intro s
    rw [List.foldlM_cons, h b (List.mem_cons_self _ _) s]
    exact (ih (fun b hb => h b (List.mem_cons_of_mem _ hb))) s

theorem loadVarEntry_meta {m : VariableManager} {n k : String} {yv : YVal}
    (h : k = "description" ∨ k = "default" ∨ k = "validation") :
    loadVarEntry m n k yv = .ok m := by
  rw [loadVarEntry.eq_def, if_pos h]
  rfl

theorem foldlM_add_environment (es : List String) :
    ∀ (m : VariableManager), (m.environments ++ es).Nodup →
    es.foldlM (fun m e => m.add_environment e) m =
      .ok { m with environments := m.environments ++ es } := by
  induction es with
  | nil =>
    intro m _
    simp only [List.append_nil]
    rfl
  | cons e es ih =>
    intro m hnd
    rw [List.foldlM_cons]
    have hne : e ∉ m.environments := by
      intro hmem
      exact (List.nodup_append.mp hnd).2.2 hmem (List.mem_cons_self _ _)
    have hcond : ¬ (m.environments.contains e = true) := by
      rw [List.elem_iff]
      exact hne
    rw [VariableManager.add_environment, if_neg hcond, ok_bind]
    have hnd' : (({ m with environments := m.environments ++ [e] } :
        VariableManager).environments ++ es).Nodup := by
      show ((m.environments ++ [e]) ++ es).Nodup
      rw [← List.append_cons]
      exact hnd
    rw [ih _ hnd']
    simp

theorem foldlM_add_location (ps : List (String × LocEntry)) :
    ∀ (m : VariableManager),
    ((m.locations.map Location.location_id) ++
      (ps.map locOfEntry).map Location.location_id).Nodup →
    ps.foldlM (fun m p =>
      match p.2 with
      | .detailed id kms => m.add_location ⟨p.1, id, kms⟩
      | .plainId id => m.add_location ⟨p.1, id, none⟩) m =
      .ok { m with locations := m.locations ++ ps.map locOfEntry } := by
  induction ps with
  | nil =>
    intro m _
    simp only [List.map_nil, List.append_nil]
    rfl
  | cons p ps ih =>
    intro m hnd
    rw [List.foldlM_cons]
    simp only [List.map_cons] at hnd
    have hfresh : (locOfEntry p).location_id ∉ m.locations.map Location.location_id := by
      intro hmem
      exact (List.nodup_append.mp hnd).2.2 hmem (List.mem_cons_self _ _)
    have hstep : (match p.2 with
        | .detailed id kms => m.add_location ⟨p.1, id, kms⟩
        | .plainId id => m.add_location ⟨p.1, id, none⟩) =
        .ok { m with locations := m.locations ++ [locOfEntry p] } := by
      have hany : ∀ lo ∈ m.locations,
          ¬ lo.location_id = (locOfEntry p).location_id := by
        intro lo hlo he
        exact hfresh (he ▸ List.mem_map_of_mem Location.location_id hlo)
      cases hp : p.2 with
      | detailed id kms =>
        have hle : locOfEntry p = ⟨p.1, id, kms⟩ := by simp [locOfEntry, hp]
        show m.add_location ⟨p.1, id, kms⟩ =
          .ok { m with locations := m.locations ++ [locOfEntry p] }
        rw [VariableManager.add_location, if_neg, hle]
        rw [List.any_eq_true]
        rintro ⟨lo, hlo, hc⟩
        simp only [decide_eq_true_eq] at hc
        refine hany lo hlo ?_
        rw [hle]
        exact hc
      | plainId id =>
        have hle : locOfEntry p = ⟨p.1, id, none⟩ := by simp [locOfEntry, hp]
        show m.add_location ⟨p.1, id, none⟩ =
          .ok { m with locations := m.locations ++ [locOfEntry p] }
        rw [VariableManager.add_location, if_neg, hle]
        rw [List.any_eq_true]
        rintro ⟨lo, hlo, hc⟩
        simp only [decide_eq_true_eq] at hc
        refine hany lo hlo ?_
        rw [hle]
        exact hc
    rw [hstep, ok_bind]
    have hnd' : (({ m with locations := m.locations ++ [locOfEntry p] } :
        VariableManager).locations.map Location.location_id ++
        (ps.map locOfEntry).map Location.location_id).Nodup := by
      show ((m.locations ++ [locOfEntry p]).map Location.location_id ++
        (ps.map locOfEntry).map Location.location_id).Nodup
      rw [List.map_append]
      simp only [List.map_cons, List.map_nil]
      rw [List.append_assoc, List.singleton_append]
      exact hnd
    rw [ih _ hnd']
    simp

theorem blocks_env_new {ex : VariableValue} {n e : String} {v : Val}
    (h : ¬ (ex.variable_name = n ∧ ex.scope_type = .ENVIRONMENT ∧
      ex.environment_name = some e)) :
    VariableManager.blocks ex ⟨n, v, .ENVIRONMENT, some e, none⟩ = false := by
  by_cases h1 : ex.variable_name = n
  · by_cases h2 : ex.scope_type = .ENVIRONMENT
    · by_cases h3 : ex.environment_name = some e
      · exact absurd ⟨h1, h2, h3⟩ h
      · simp [VariableManager.blocks, h3]
    · simp [VariableManager.blocks, h2]
  · simp [VariableManager.blocks, h1]

theorem blocks_loc_new {ex : VariableValue} {n : String} {v : Val} {oid : Option String}
    (h : ¬ (ex.variable_name = n ∧ ex.scope_type = .LOCATION ∧
      ex.location_id = oid)) :
    VariableManager.blocks ex ⟨n, v, .LOCATION, none, oid⟩ = false := by
  by_cases h1 : ex.variable_name = n
  · by_cases h2 : ex.scope_type = .LOCATION
    · by_cases h3 : ex.location_id = oid
      · exact absurd ⟨h1, h2, h3⟩ h
      · simp [VariableManager.blocks, h3]
    · simp [VariableManager.blocks, h2]
  · simp [VariableManager.blocks, h1]

theorem blocks_spec_new {ex : VariableValue} {n e : String} {v : Val}
    {oid : Option String}
    (h : ¬ (ex.variable_name = n ∧ ex.scope_type = .SPECIFIC ∧
      ex.environment_name = some e ∧ ex.location_id = oid)) :
    VariableManager.blocks ex ⟨n, v, .SPECIFIC, some e, oid⟩ = false := by
  by_cases h1 : ex.variable_name = n
  · by_cases h2 : ex.scope_type = .SPECIFIC
    · by_cases h3 : ex.environment_name = some e
      · by_cases h4 : ex.location_id = oid
        · exact absurd ⟨h1, h2, h3, h4⟩ h
        · simp [VariableManager.blocks, h3, h4]
      · simp [VariableManager.blocks, h3]
    · simp [VariableManager.blocks, h2]
  · simp [VariableManager.blocks, h1]

theorem blocks_default_new {ex : VariableValue} {n : String} {v : Val}
    (h : ¬ (ex.variable_name = n ∧ ex.scope_type = .DEFAULT)) :
    VariableManager.blocks ex ⟨n, v, .DEFAULT, none, none⟩ = false := by
  by_cases h1 : ex.variable_name = n
  · by_cases h2 : ex.scope_type = .DEFAULT
    · exact absurd ⟨h1, h2⟩ h
    · simp [VariableManager.blocks, h2]
  · simp [VariableManager.blocks, h1]

theorem lookupIdByName_inj {ls : List Location}
    (hnames : (ls.map Location.name).Nodup)
    (hids : (ls.map Location.location_id).Nodup)
    {a b : String} (ha : a ∈ ls.map Location.name) (hb : b ∈ ls.map Location.name)
    (hne : a ≠ b) : lookupIdByName ls a ≠ lookupIdByName ls b := by
  obtain ⟨la, hla, hlan⟩ := List.mem_map.mp ha
  obtain ⟨lb, hlb, hlbn⟩ := List.mem_map.mp hb
  cases hfa : ls.find? (fun lo => decide (lo.name = a)) with
  | none => exact absurd (List.find?_eq_none.mp hfa la hla) (by simp [hlan])
  | some la' =>
    cases hfb : ls.find? (fun lo => decide (lo.name = b)) with
    | none => exact absurd (List.find?_eq_none.mp hfb lb hlb) (by simp [hlbn])
    | some lb' =>
      have hna := List.find?_some hfa
      simp only [decide_eq_true_eq] at hna
      have hnb := List.find?_some hfb
      simp only [decide_eq_true_eq] at hnb
      simp only [lookupIdByName, hfa, hfb, Option.map_some', ne_eq,
        Option.some.injEq]
      intro hide
      have heq : la' = lb' := eq_of_mem_nodup_map hids
        (List.mem_of_find?_eq_some hfa) (List.mem_of_find?_eq_some hfb) hide
      exact hne (by rw [← hna, ← hnb, heq])

theorem lookupIdByName_isSome {ls : List Location} {a : String}
    (ha : a ∈ ls.map Location.name) :
    ∃ i, lookupIdByName ls a = some i := by
  obtain ⟨la, hla, hlan⟩ := List.mem_map.mp ha
  cases hfa : ls.find? (fun lo => decide (lo.name = a)) with
  | none => exact absurd (List.find?_eq_none.mp hfa la hla) (by simp [hlan])
  | some la' => exact ⟨la'.location_id, by simp [lookupIdByName, hfa]⟩

theorem foldlM_envEntries (n : String) :
    ∀ (ps : List (String × Val)) (m : VariableManager),
    (∀ q ∈ ps, q.1 ∈ m.environments) →
    (∀ q ∈ ps, ¬ (q.1 = "description" ∨ q.1 = "default" ∨ q.1 = "validation")) →
    (ps.map Prod.fst).Nodup →
    (∀ q ∈ ps, ∀ vv ∈ m.variable_values,
      ¬ (vv.variable_name = n ∧ vv.scope_type = .ENVIRONMENT ∧
         vv.environment_name = some q.1)) →
    (ps.map (fun q => (q.1, YVal.scalar q.2))).foldlM
      (fun m p => loadVarEntry m n p.1 p.2) m =
      .ok { m with variable_values := (m.variable_values ++
        ps.map (fun q => ⟨n, q.2, .ENVIRONMENT, some q.1, none⟩)) } := by
  intro ps
  induction ps with
  | nil =>
    intro m _ _ _ _
    simp only [List.map_nil, List.append_nil]
    rfl
  | cons q ps ih =>
    intro m hmem hmeta hnd hnob
    simp only [List.map_cons] at hnd
    simp only [List.map_cons, List.foldlM_cons]
    have hentry : loadVarEntry m n q.1 (YVal.scalar q.2) =
        .ok { m with variable_values := (m.variable_values ++
          [⟨n, q.2, .ENVIRONMENT, some q.1, none⟩]) } := by
      rw [loadVarEntry.eq_def, if_neg (hmeta q (List.mem_cons_self _ _)),
        if_pos (List.elem_iff.mpr (hmem q (List.mem_cons_self _ _)))]
      show m.add_variable_value ⟨n, q.2, .ENVIRONMENT, some q.1, none⟩ = _
      rw [VariableManager.add_variable_value, if_neg]
      rw [List.any_eq_true]
      rintro ⟨ex, hex, hbl⟩
      rw [blocks_env_new (hnob q (List.mem_cons_self _ _) ex hex)] at hbl
      exact Bool.noConfusion hbl
    rw [hentry, ok_bind]
    have hmain := ih { m with variable_values := (m.variable_values ++
        [⟨n, q.2, .ENVIRONMENT, some q.1, none⟩]) }
      (fun r hr => hmem r (List.mem_cons_of_mem _ hr))
      (fun r hr => hmeta r (List.mem_cons_of_mem _ hr))
      hnd.of_cons
      ?_
    · rw [hmain]
      simp [List.append_assoc]
    · intro r hr vv hvv
      rcases List.mem_append.mp hvv with hvv | hvv
      · exact hnob r (List.mem_cons_of_mem _ hr) vv hvv
      · rw [List.mem_singleton] at hvv
        subst hvv
        rintro ⟨_, _, h3⟩
        have h3' : some q.1 = some r.1 := h3
        injection h3' with h4
        have hne : r.1 ≠ q.1 := by
          intro he
          exact (List.nodup_cons.mp hnd).1 (he ▸ List.mem_map_of_mem Prod.fst hr)
        exact hne h4.symm

theorem foldlM_locEntries (n : String) :
    ∀ (ps : List (String × Val)) (m : VariableManager),
    (∀ q ∈ ps, q.1 ∈ m.locations.map Location.name) →
    (∀ q ∈ ps, ¬ (q.1 = "description" ∨ q.1 = "default" ∨ q.1 = "validation")) →
    (∀ q ∈ ps, q.1 ∉ m.environments) →
    (ps.map Prod.fst).Nodup →
    ((m.locations.map Location.name).Nodup) →
    ((m.locations.map Location.location_id).Nodup) →
    (∀ q ∈ ps, ∀ vv ∈ m.variable_values,
      ¬ (vv.variable_name = n ∧ vv.scope_type = .LOCATION ∧
         vv.location_id = lookupIdByName m.locations q.1)) →
    (ps.map (fun q => (q.1, YVal.scalar q.2))).foldlM
      (fun m p => loadVarEntry m n p.1 p.2) m =
      .ok { m with variable_values := (m.variable_values ++
        ps.map (fun q => ⟨n, q.2, .LOCATION, none,
          lookupIdByName m.locations q.1⟩)) } := by
  intro ps
  induction ps with
  | nil =>
    intro m _ _ _ _ _ _ _
    simp only [List.map_nil, List.append_nil]
    rfl
  | cons q ps ih =>
    intro m hmem hmeta hnenv hnd hnames hids hnob
    simp only [List.map_cons] at hnd
    simp only [List.map_cons, List.foldlM_cons]
    have hcontains : ((m.locations.map Location.name).contains q.1 = true) :=
      List.elem_iff.mpr (hmem q (List.mem_cons_self _ _))
    obtain ⟨lo, hfq⟩ : ∃ lo, m.locations.find?
        (fun lo => decide (lo.name = q.1)) = some lo := by
      cases hf : m.locations.find? (fun lo => decide (lo.name = q.1)) with
      | none =>
        exfalso
        obtain ⟨la, hla, hlan⟩ := List.mem_map.mp (hmem q (List.mem_cons_self _ _))
        exact absurd (List.find?_eq_none.mp hf la hla) (by simp [hlan])
      | some lo => exact ⟨lo, rfl⟩
    have hlk : lookupIdByName m.locations q.1 = some lo.location_id := by
      simp [lookupIdByName, hfq]
    have hentry : loadVarEntry m n q.1 (YVal.scalar q.2) =
        .ok { m with variable_values := (m.variable_values ++
          [⟨n, q.2, .LOCATION, none, lookupIdByName m.locations q.1⟩]) } := by
      rw [loadVarEntry.eq_def, if_neg (hmeta q (List.mem_cons_self _ _)),
        if_neg (by rw [List.elem_iff]; exact hnenv q (List.mem_cons_self _ _)),
        if_pos hcontains, hfq, hlk]
      show m.add_variable_value ⟨n, q.2, .LOCATION, none, some lo.location_id⟩ = _
      rw [VariableManager.add_variable_value, if_neg]
      rw [List.any_eq_true]
      rintro ⟨ex, hex, hbl⟩
      have hnb := hnob q (List.mem_cons_self _ _) ex hex
      rw [hlk] at hnb
      rw [blocks_loc_new hnb] at hbl
      exact Bool.noConfusion hbl
    rw [hentry, ok_bind]
    have hmain := ih { m with variable_values := (m.variable_values ++
        [⟨n, q.2, .LOCATION, none, lookupIdByName m.locations q.1⟩]) }
      (fun r hr => hmem r (List.mem_cons_of_mem _ hr))
      (fun r hr => hmeta r (List.mem_cons_of_mem _ hr))
      (fun r hr => hnenv r (List.mem_cons_of_mem _ hr))
      hnd.of_cons hnames hids ?_
    · rw [hmain]
      simp [List.append_assoc]
    · intro r hr vv hvv
      rcases List.mem_append.mp hvv with hvv | hvv
      · exact hnob r (List.mem_cons_of_mem _ hr) vv hvv
      · rw [List.mem_singleton] at hvv
        subst hvv
        rintro ⟨_, _, h3⟩
        have hne : r.1 ≠ q.1 := by
          intro he
          exact (List.nodup_cons.mp hnd).1 (he ▸ List.mem_map_of_mem Prod.fst hr)
        have h3' : lookupIdByName m.locations q.1 =
            lookupIdByName m.locations r.1 := h3
        exact lookupIdByName_inj hnames hids
          (hmem q (List.mem_cons_self _ _)) (hmem r (List.mem_cons_of_mem _ hr))
          (fun he => hne he.symm) h3'

theorem foldlM_specInner (n e : String) :
    ∀ (rs : List (String × Val)) (m : VariableManager),
    (∀ r ∈ rs, r.1 ∈ m.locations.map Location.name) →
    (rs.map Prod.fst).Nodup →
    ((m.locations.map Location.name).Nodup) →
    ((m.locations.map Location.location_id).Nodup) →
    (∀ r ∈ rs, ∀ vv ∈ m.variable_values,
      ¬ (vv.variable_name = n ∧ vv.scope_type = .SPECIFIC ∧
         vv.environment_name = some e ∧
         vv.location_id = lookupIdByName m.locations r.1)) →
    (rs.map (fun r => (r.1, YVal.scalar r.2))).foldlM
      (fun m q =>
        if (m.locations.map Location.name).contains q.1 then
          match m.locations.find? (fun lo => decide (lo.name = q.1)) with
          | some lo =>
            match q.2 with
            | .ymap _ => throw ("Invalid nesting in '" ++ n ++ "' -> '"
                ++ e ++ "' -> '" ++ q.1 ++ "'")
            | .scalar v => m.add_variable_value
                ⟨n, v, .SPECIFIC, some e, some lo.location_id⟩
          | none => pure m
        else throw ("Location '" ++ q.1 ++ "' not found in configuration.")) m =
      .ok { m with variable_values := (m.variable_values ++
        rs.map (fun r => ⟨n, r.2, .SPECIFIC, some e,
          lookupIdByName m.locations r.1⟩)) } := by
  intro rs
  induction rs with
  | nil =>
    intro m _ _ _ _ _
    simp only [List.map_nil, List.append_nil]
    rfl
  | cons q rs ih =>
    intro m hmem hnd hnames hids hnob
    simp only [List.map_cons] at hnd
    simp only [List.map_cons, List.foldlM_cons]
    have hcontains : ((m.locations.map Location.name).contains q.1 = true) :=
      List.elem_iff.mpr (hmem q (List.mem_cons_self _ _))
    obtain ⟨lo, hfq⟩ : ∃ lo, m.locations.find?
        (fun lo => decide (lo.name = q.1)) = some lo := by
      cases hf : m.locations.find? (fun lo => decide (lo.name = q.1)) with
      | none =>
        exfalso
        obtain ⟨la, hla, hlan⟩ := List.mem_map.mp (hmem q (List.mem_cons_self _ _))
        exact absurd (List.find?_eq_none.mp hf la hla) (by simp [hlan])
      | some lo => exact ⟨lo, rfl⟩
    have hlk : lookupIdByName m.locations q.1 = some lo.location_id := by
      simp [lookupIdByName, hfq]
    have hentry : (if (m.locations.map Location.name).contains q.1 = true then
        match m.locations.find? (fun lo => decide (lo.name = q.1)) with
        | some lo =>
          match (YVal.scalar q.2 : YVal) with
          | .ymap _ => throw ("Invalid nesting in '" ++ n ++ "' -> '"
              ++ e ++ "' -> '" ++ q.1 ++ "'")
          | .scalar v => m.add_variable_value
              ⟨n, v, .SPECIFIC, some e, some lo.location_id⟩
        | none => pure m
      else throw ("Location '" ++ q.1 ++ "' not found in configuration.")) =
        .ok { m with variable_values := (m.variable_values ++
          [⟨n, q.2, .SPECIFIC, some e, lookupIdByName m.locations q.1⟩]) } := by
      rw [if_pos hcontains, hfq, hlk]
      show m.add_variable_value ⟨n, q.2, .SPECIFIC, some e, some lo.location_id⟩ = _
      rw [VariableManager.add_variable_value, if_neg]
      rw [List.any_eq_true]
      rintro ⟨ex, hex, hbl⟩
      have hnb := hnob q (List.mem_cons_self _ _) ex hex
      rw [hlk] at hnb
      rw [blocks_spec_new hnb] at hbl
      exact Bool.noConfusion hbl
    rw [hentry, ok_bind]
    have hmain := ih { m with variable_values := (m.variable_values ++
        [⟨n, q.2, .SPECIFIC, some e, lookupIdByName m.locations q.1⟩]) }
      (fun r hr => hmem r (List.mem_cons_of_mem _ hr))
      hnd.of_cons hnames hids ?_
    · rw [hmain]
      simp [List.append_assoc]
    · intro r hr vv hvv
      rcases List.mem_append.mp hvv with hvv | hvv
      · exact hnob r (List.mem_cons_of_mem _ hr) vv hvv
      · rw [List.mem_singleton] at hvv
        subst hvv
        rintro ⟨_, _, _, h4⟩
        have hne : r.1 ≠ q.1 := by
          intro he
          exact (List.nodup_cons.mp hnd).1 (he ▸ List.mem_map_of_mem Prod.fst hr)
        have h4' : lookupIdByName m.locations q.1 =
            lookupIdByName m.locations r.1 := h4
        exact lookupIdByName_inj hnames hids
          (hmem q (List.mem_cons_self _ _)) (hmem r (List.mem_cons_of_mem _ hr))
          (fun he => hne he.symm) h4'

theorem foldlM_specEntries (n : String) :
    ∀ (ps : List (String × List (String × Val))) (m : VariableManager),
    (∀ p ∈ ps, p.1 ∈ m.environments) →
    (∀ p ∈ ps, ¬ (p.1 = "description" ∨ p.1 = "default" ∨ p.1 = "validation")) →
    (∀ p ∈ ps, ∀ r ∈ p.2, r.1 ∈ m.locations.map Location.name) →
    (∀ p ∈ ps, (p.2.map Prod.fst).Nodup) →
    ((m.locations.map Location.name).Nodup) →
    ((m.locations.map Location.location_id).Nodup) →
    (∀ p ∈ ps, ∀ r ∈ p.2, ∀ vv ∈ m.variable_values,
      ¬ (vv.variable_name = n ∧ vv.scope_type = .SPECIFIC ∧
         vv.environment_name = some p.1 ∧
         vv.location_id = lookupIdByName m.locations r.1)) →
    (ps.map Prod.fst).Nodup →
    (ps.map (fun p => (p.1,
        YVal.ymap (p.2.map (fun r => (r.1, YVal.scalar r.2)))))).foldlM
      (fun m p => loadVarEntry m n p.1 p.2) m =
      .ok { m with variable_values := (m.variable_values ++
        (ps.map (fun p => p.2.map (fun r => (⟨n, r.2, .SPECIFIC, some p.1,
          lookupIdByName m.locations r.1⟩ : VariableValue)))).flatten) } := by
  intro ps
  induction ps with
  | nil =>
    intro m _ _ _ _ _ _ _ _
    simp only [List.map_nil, List.flatten_nil, List.append_nil]
    rfl
  | cons p ps ih =>
    intro m henv hmeta hlmem hinnd hnames hids hnob hondk
    simp only [List.map_cons] at hondk
    simp only [List.map_cons, List.foldlM_cons]
    have hentry : loadVarEntry m n p.1
        (YVal.ymap (p.2.map (fun r => (r.1, YVal.scalar r.2)))) =
        .ok { m with variable_values := (m.variable_values ++
          p.2.map (fun r => ⟨n, r.2, .SPECIFIC, some p.1,
            lookupIdByName m.locations r.1⟩)) } := by
      rw [loadVarEntry.eq_def, if_neg (hmeta p (List.mem_cons_self _ _)),
        if_pos (List.elem_iff.mpr (henv p (List.mem_cons_self _ _)))]
      exact foldlM_specInner n p.1 p.2 m
        (hlmem p (List.mem_cons_self _ _))
        (hinnd p (List.mem_cons_self _ _)) hnames hids
        (hnob p (List.mem_cons_self _ _))
    rw [hentry, ok_bind]
    have hmain := ih { m with variable_values := (m.variable_values ++
        p.2.map (fun r => ⟨n, r.2, .SPECIFIC, some p.1,
          lookupIdByName m.locations r.1⟩)) }
      (fun r hr => henv r (List.mem_cons_of_mem _ hr))
      (fun r hr => hmeta r (List.mem_cons_of_mem _ hr))
      (fun r hr => hlmem r (List.mem_cons_of_mem _ hr))
      (fun r hr => hinnd r (List.mem_cons_of_mem _ hr))
      hnames hids ?_ hondk.of_cons
    · rw [hmain]
      simp [List.append_assoc]
    · intro p' hp' r hr vv hvv
      rcases List.mem_append.mp hvv with hvv | hvv
      · exact hnob p' (List.mem_cons_of_mem _ hp') r hr vv hvv
      · obtain ⟨r0, hr0, hvv0⟩ := List.mem_map.mp hvv
        subst hvv0
        rintro ⟨_, _, h3, _⟩
        have h3' : some p.1 = some p'.1 := h3
        injection h3' with h4
        have hne : p'.1 ≠ p.1 := by
          intro he
          exact (List.nodup_cons.mp hondk).1 (he ▸ List.mem_map_of_mem Prod.fst hp')
        exact hne h4.symm

theorem vv_ext {vv : VariableValue} {n : String} {v : Val} {st : Scope}
    {en li : Option String}
    (h1 : vv.variable_name = n) (h2 : vv.value = v) (h3 : vv.scope_type = st)
    (h4 : vv.environment_name = en) (h5 : vv.location_id = li) :
    vv = ⟨n, v, st, en, li⟩ := by
  cases vv
  simp_all

theorem mls_names_nodup {M : VariableManager} {mls : List Location}
    (hperm : List.Perm (locPairs mls) (locPairs M.locations))
    (hn : (M.locations.map Location.name).Nodup) :
    (mls.map Location.name).Nodup := by
  rw [← locPairs_fst]
  refine (List.Perm.nodup_iff (hperm.map Prod.fst)).mpr ?_
  rw [locPairs_fst]
  exact hn

theorem recon_default_iff {M : VariableManager} (h : roundTripWfB M = true)
    (n : String) {dv : Val} (hgd : groupDefault (bsOf M n) = some dv) :
    ∀ vv : VariableValue,
    vv ∈ ([⟨n, dv, .DEFAULT, none, none⟩] : List VariableValue) ↔
      (vv ∈ bsOf M n ∧ vv.scope_type = .DEFAULT) := by
  obtain ⟨hku, hwfb, hnames⟩ := bsOf_wf h n
  intro vv
  constructor
  · intro hvv
    rw [List.mem_singleton] at hvv
    subst hvv
    rcases groupDefault_inv (bsOf M n) none dv hgd with ⟨b, hb, hbd, hbv⟩ | hc
    · obtain ⟨hbe, hbl⟩ := scopeWf_default (hwfb b hb) hbd
      have : b = ⟨n, dv, .DEFAULT, none, none⟩ :=
        vv_ext (hnames b hb) hbv hbd hbe hbl
      rw [← this]
      exact ⟨hb, hbd⟩
    · exact absurd hc (by simp)
  · rintro ⟨hvv, hd⟩
    obtain ⟨hbe, hbl⟩ := scopeWf_default (hwfb vv hvv) hd
    have huniq : ∀ x ∈ bsOf M n, x.scope_type = .DEFAULT → x.value = vv.value := by
      intro x hx hxd
      obtain ⟨hxe, hxl⟩ := scopeWf_default (hwfb x hx) hxd
      have : x = vv := keyUnique_eq_of_mem hku hx hvv (by
        simp [VariableValue.key, hnames x hx, hnames vv hvv, hxd, hd,
          hxe, hbe, hxl, hbl])
      rw [this]
    have := groupDefault_of_mem hvv hd huniq
    rw [hgd] at this
    injection this with hdv
    rw [List.mem_singleton]
    exact vv_ext (hnames vv hvv) hdv.symm hd hbe hbl

theorem recon_default_none {M : VariableManager} (h : roundTripWfB M = true)
    (n : String) (hgd : groupDefault (bsOf M n) = none) :
    ∀ vv ∈ bsOf M n, vv.scope_type ≠ .DEFAULT := by
  obtain ⟨hku, hwfb, hnames⟩ := bsOf_wf h n
  intro vv hvv hd
  have huniq : ∀ x ∈ bsOf M n, x.scope_type = .DEFAULT → x.value = vv.value := by
    intro x hx hxd
    obtain ⟨hxe, hxl⟩ := scopeWf_default (hwfb x hx) hxd
    obtain ⟨hbe, hbl⟩ := scopeWf_default (hwfb vv hvv) hd
    have : x = vv := keyUnique_eq_of_mem hku hx hvv (by
      simp [VariableValue.key, hnames x hx, hnames vv hvv, hxd, hd,
        hxe, hbe, hxl, hbl])
    rw [this]
  have := groupDefault_of_mem hvv hd huniq
  rw [hgd] at this
  exact Option.noConfusion this

theorem recon_env_iff {M : VariableManager} (h : roundTripWfB M = true)
    (n : String) :
    ∀ vv : VariableValue,
    vv ∈ (sortPairsByKey (groupEnv (bsOf M n))).map
        (fun q => (⟨n, q.2, .ENVIRONMENT, some q.1, none⟩ : VariableValue)) ↔
      (vv ∈ bsOf M n ∧ vv.scope_type = .ENVIRONMENT) := by
  obtain ⟨hku, hwfb, hnames⟩ := bsOf_wf h n
  have hge : groupEnv (bsOf M n) = (bsOf M n).filterMap envProj :=
    groupEnv_eq (envKeys_nodup hku hwfb hnames)
  intro vv
  constructor
  · intro hvv
    obtain ⟨q, hq, hqv⟩ := List.mem_map.mp hvv
    have hq2 : q ∈ groupEnv (bsOf M n) := (sortPairsByKey_perm _).mem_iff.mp hq
    rw [hge] at hq2
    obtain ⟨b, hb, hproj⟩ := List.mem_filterMap.mp hq2
    obtain ⟨hs, hqe⟩ := envProj_some_iff.mp hproj
    obtain ⟨⟨e, he⟩, hl⟩ := scopeWf_env (hwfb b hb) hs
    have hbq : b = ⟨n, q.2, .ENVIRONMENT, some q.1, none⟩ := by
      refine vv_ext (hnames b hb) ?_ hs ?_ hl
      · rw [hqe]
      · rw [hqe, he]
        simp
    rw [← hqv, ← hbq]
    exact ⟨hb, hs⟩
  · rintro ⟨hvv, hs⟩
    obtain ⟨⟨e, he⟩, hl⟩ := scopeWf_env (hwfb vv hvv) hs
    have hproj : envProj vv = some (e, vv.value) := by
      rw [envProj_some_iff]
      exact ⟨hs, by rw [he]; rfl⟩
    have hq2 : (e, vv.value) ∈ groupEnv (bsOf M n) := by
      rw [hge]
      exact List.mem_filterMap.mpr ⟨vv, hvv, hproj⟩
    have hq : (e, vv.value) ∈ sortPairsByKey (groupEnv (bsOf M n)) :=
      (sortPairsByKey_perm _).mem_iff.mpr hq2
    refine List.mem_map.mpr ⟨(e, vv.value), hq, ?_⟩
    exact (vv_ext (hnames vv hvv) rfl hs he hl).symm

theorem recon_loc_iff {M : VariableManager} (h : roundTripWfB M = true)
    (n : String) {mls : List Location}
    (hperm : List.Perm (locPairs mls) (locPairs M.locations)) :
    ∀ vv : VariableValue,
    vv ∈ (sortPairsByKey (groupLoc M (bsOf M n))).map
        (fun q => (⟨n, q.2, .LOCATION, none,
          lookupIdByName mls q.1⟩ : VariableValue)) ↔
      (vv ∈ bsOf M n ∧ vv.scope_type = .LOCATION) := by
  obtain ⟨hku, hwfb, hnames⟩ := bsOf_wf h n
  obtain ⟨h1, h2, h3, h4, h5, h6, h7, h8, h9, h10⟩ := roundTripWf_parts h
  have hmlsn : (mls.map Location.name).Nodup := mls_names_nodup hperm h5
  have hgl : groupLoc M (bsOf M n) = (bsOf M n).filterMap (locProj M) :=
    groupLoc_eq (locKeys_nodup hku hwfb hnames h5)
  intro vv
  constructor
  · intro hvv
    obtain ⟨q, hq, hqv⟩ := List.mem_map.mp hvv
    have hq2 : q ∈ groupLoc M (bsOf M n) := (sortPairsByKey_perm _).mem_iff.mp hq
    rw [hgl] at hq2
    obtain ⟨b, hb, hproj⟩ := List.mem_filterMap.mp hq2
    obtain ⟨hs, lo, hf, htn, hqe⟩ := locProj_some_iff.mp hproj
    obtain ⟨he, i, hi⟩ := scopeWf_loc (hwfb b hb) hs
    have hloid : lo.location_id = i := by
      have := List.find?_some hf
      simp only [hi, decide_eq_true_eq, Option.some.injEq] at this
      exact this
    have hlk : lookupIdByName mls lo.name = some i := by
      refine lookupIdByName_eq hmlsn (hperm.mem_iff.mpr ?_)
      exact List.mem_map.mpr ⟨lo, List.mem_of_find?_eq_some hf, by rw [hloid]⟩
    have hbq : b = ⟨n, q.2, .LOCATION, none, lookupIdByName mls q.1⟩ := by
      refine vv_ext (hnames b hb) ?_ hs he ?_
      · rw [hqe]
      · rw [hqe]
        show b.location_id = lookupIdByName mls lo.name
        rw [hlk, hi]
    rw [← hqv, ← hbq]
    exact ⟨hb, hs⟩
  · rintro ⟨hvv, hs⟩
    obtain ⟨he, i, hi⟩ := scopeWf_loc (hwfb vv hvv) hs
    have hiid : i ∈ M.locations.map Location.location_id :=
      (h9 vv (bsOf_sub vv hvv).1).2.2.2 i hi
    obtain ⟨lo, hlo, hloid⟩ := List.mem_map.mp hiid
    have hf : M.locations.find? (fun x => decide (some x.location_id = some i)) =
        some lo := findById_eq h4 hlo hloid
    have hf' : M.locations.find? (fun x =>
        decide (some x.location_id = vv.location_id)) = some lo := by
      rw [hi]
      exact hf
    have hproj : locProj M vv = some (lo.name, vv.value) := by
      rw [locProj_some_iff]
      exact ⟨hs, lo, hf', (h6 lo hlo).1, rfl⟩
    have hq2 : (lo.name, vv.value) ∈ groupLoc M (bsOf M n) := by
      rw [hgl]
      exact List.mem_filterMap.mpr ⟨vv, hvv, hproj⟩
    have hq : (lo.name, vv.value) ∈ sortPairsByKey (groupLoc M (bsOf M n)) :=
      (sortPairsByKey_perm _).mem_iff.mpr hq2
    refine List.mem_map.mpr ⟨(lo.name, vv.value), hq, ?_⟩
    have hlk : lookupIdByName mls lo.name = some i := by
      refine lookupIdByName_eq hmlsn (hperm.mem_iff.mpr ?_)
      exact List.mem_map.mpr ⟨lo, hlo, by rw [hloid]⟩
    refine (vv_ext (hnames vv hvv) rfl hs he ?_).symm
    show vv.location_id = lookupIdByName mls lo.name
    rw [hlk, hi]

theorem recon_spec_iff {M : VariableManager} (h : roundTripWfB M = true)
    (n : String) {mls : List Location}
    (hperm : List.Perm (locPairs mls) (locPairs M.locations)) :
    ∀ vv : VariableValue,
    vv ∈ ((sortPairsByKey (groupSpecific M (bsOf M n))).map
        (fun q => (sortPairsByKey q.2).map
          (fun r => (⟨n, r.2, .SPECIFIC, some q.1,
            lookupIdByName mls r.1⟩ : VariableValue)))).flatten ↔
      (vv ∈ bsOf M n ∧ vv.scope_type = .SPECIFIC) := by
  obtain ⟨hku, hwfb, hnames⟩ := bsOf_wf h n
  obtain ⟨h1, h2, h3, h4, h5, h6, h7, h8, h9, h10⟩ := roundTripWf_parts h
  have hmlsn : (mls.map Location.name).Nodup := mls_names_nodup hperm h5
  have hgs := groupSpecific_spec M (bsOf M n) (specPairs_nodup hku hwfb hnames h5)
  intro vv
  constructor
  · intro hvv
    obtain ⟨l, hl, hvl⟩ := List.mem_flatten.mp hvv
    obtain ⟨q, hq, hql⟩ := List.mem_map.mp hl
    rw [← hql] at hvl
    obtain ⟨r, hr, hrv⟩ := List.mem_map.mp hvl
    have hq2 : q ∈ groupSpecific M (bsOf M n) :=
      (sortPairsByKey_perm _).mem_iff.mp hq
    have hr2 : r ∈ q.2 := (sortPairsByKey_perm _).mem_iff.mp hr
    have hfl : (q.1, r.1, r.2) ∈ flat2 (groupSpecific M (bsOf M n)) :=
      flat2_mem_iff.mpr ⟨q, hq2, rfl, by simpa using hr2⟩
    have hmem2 := hgs.1.mem_iff.mp hfl
    obtain ⟨b, hb, hproj⟩ := List.mem_filterMap.mp hmem2
    obtain ⟨hs, lo, hf, htn, hte⟩ := specProj_some_iff.mp hproj
    obtain ⟨⟨e, he⟩, i, hi⟩ := scopeWf_spec (hwfb b hb) hs
    have hloid : lo.location_id = i := by
      have := List.find?_some hf
      simp only [hi, decide_eq_true_eq, Option.some.injEq] at this
      exact this
    have he1 : q.1 = e := by
      have : q.1 = b.environment_name.getD "" := congrArg (fun t => t.1) hte
      rw [this, he]
      rfl
    have he2 : r.1 = lo.name := by
      have : r.1 = (b.environment_name.getD "", lo.name, b.value).2.1 :=
        congrArg (fun t => t.2.1) hte
      exact this
    have he3 : r.2 = b.value := by
      have : r.2 = (b.environment_name.getD "", lo.name, b.value).2.2 :=
        congrArg (fun t => t.2.2) hte
      exact this
    have hlk : lookupIdByName mls r.1 = some i := by
      rw [he2]
      refine lookupIdByName_eq hmlsn (hperm.mem_iff.mpr ?_)
      exact List.mem_map.mpr ⟨lo, List.mem_of_find?_eq_some hf, by rw [hloid]⟩
    have hbq : b = ⟨n, r.2, .SPECIFIC, some q.1, lookupIdByName mls r.1⟩ := by
      refine vv_ext (hnames b hb) he3.symm hs ?_ ?_
      · rw [he, he1]
      · rw [hlk, hi]
    rw [← hrv, ← hbq]
    exact ⟨hb, hs⟩
  · rintro ⟨hvv, hs⟩
    obtain ⟨⟨e, he⟩, i, hi⟩ := scopeWf_spec (hwfb vv hvv) hs
    have hiid : i ∈ M.locations.map Location.location_id :=
      (h9 vv (bsOf_sub vv hvv).1).2.2.2 i hi
    obtain ⟨lo, hlo, hloid⟩ := List.mem_map.mp hiid
    have hf' : M.locations.find? (fun x =>
        decide (some x.location_id = vv.location_id)) = some lo := by
      rw [hi]
      exact findById_eq h4 hlo hloid
    have hproj : specProj M vv = some (e, lo.name, vv.value) := by
      rw [specProj_some_iff]
      refine ⟨hs, lo, hf', (h6 lo hlo).1, ?_⟩
      rw [he]
      rfl
    have hfl : (e, lo.name, vv.value) ∈ flat2 (groupSpecific M (bsOf M n)) :=
      hgs.1.mem_iff.mpr (List.mem_filterMap.mpr ⟨vv, hvv, hproj⟩)
    obtain ⟨q, hq, hqe, hql⟩ := flat2_mem_iff.mp hfl
    have hlk : lookupIdByName mls lo.name = some i := by
      refine lookupIdByName_eq hmlsn (hperm.mem_iff.mpr ?_)
      exact List.mem_map.mpr ⟨lo, hlo, by rw [hloid]⟩
    refine List.mem_flatten.mpr ⟨(sortPairsByKey q.2).map
      (fun r => (⟨n, r.2, .SPECIFIC, some q.1,
        lookupIdByName mls r.1⟩ : VariableValue)), ?_, ?_⟩
    · refine List.mem_map.mpr ⟨q, (sortPairsByKey_perm _).mem_iff.mpr hq, rfl⟩
    · refine List.mem_map.mpr ⟨(lo.name, vv.value),
        (sortPairsByKey_perm _).mem_iff.mpr hql, ?_⟩
      refine (vv_ext (hnames vv hvv) rfl hs ?_ ?_).symm
      · rw [he, hqe]
      · show vv.location_id = lookupIdByName mls lo.name
        rw [hlk, hi]

theorem mls_ids_nodup {M : VariableManager} {mls : List Location}
    (hperm : List.Perm (locPairs mls) (locPairs M.locations))
    (hn : (M.locations.map Location.location_id).Nodup) :
    (mls.map Location.location_id).Nodup := by
  rw [← locPairs_snd]
  refine (List.Perm.nodup_iff (hperm.map Prod.snd)).mpr ?_
  rw [locPairs_snd]
  exact hn

theorem mls_names_perm {M : VariableManager} {mls : List Location}
    (hperm : List.Perm (locPairs mls) (locPairs M.locations)) :
    List.Perm (mls.map Location.name) (M.locations.map Location.name) := by
  rw [← locPairs_fst, ← locPairs_fst]
  exact hperm.map _

theorem notin_metadata {k : String}
    (h : k ∉ (["description", "default", "validation"] : List String)) :
    ¬ (k = "description" ∨ k = "default" ∨ k = "validation") := by
  rintro (rfl | rfl | rfl) <;> simp at h

theorem specInnerKeys_mem {M : VariableManager} (h : roundTripWfB M = true)
    (n : String) :
    ∀ q ∈ groupSpecific M (bsOf M n), ∀ r ∈ q.2,
    r.1 ∈ M.locations.map Location.name := by
  obtain ⟨hku, hwfb, hnames⟩ := bsOf_wf h n
  obtain ⟨h1, h2, h3, h4, h5, h6, h7, h8, h9, h10⟩ := roundTripWf_parts h
  have hgs := groupSpecific_spec M (bsOf M n) (specPairs_nodup hku hwfb hnames h5)
  intro q hq r hr
  have hfl : (q.1, r.1, r.2) ∈ flat2 (groupSpecific M (bsOf M n)) :=
    flat2_mem_iff.mpr ⟨q, hq, rfl, by simpa using hr⟩
  obtain ⟨b, hb, hproj⟩ := List.mem_filterMap.mp (hgs.1.mem_iff.mp hfl)
  obtain ⟨hs, lo, hf, htn, hte⟩ := specProj_some_iff.mp hproj
  have : r.1 = lo.name :=
    congrArg (fun t => t.2.1) hte
  rw [this]
  exact List.mem_map_of_mem Location.name (List.mem_of_find?_eq_some hf)

theorem varData_entries_fold {M : VariableManager} (hwf : roundTripWfB M = true)
    (va : Variable) (m2 : VariableManager)
    (henviff : ∀ e, e ∈ m2.environments ↔ e ∈ M.environments)
    (hperm : List.Perm (locPairs m2.locations) (locPairs M.locations))
    (hnob : ∀ vv ∈ m2.variable_values, vv.variable_name = va.name →
      vv.scope_type = .DEFAULT) :
    (varDataFor M va).foldlM (fun m p => loadVarEntry m va.name p.1 p.2) m2 =
      .ok { m2 with variable_values := (m2.variable_values ++
        ((sortPairsByKey (groupEnv (bsOf M va.name))).map
          (fun q => ⟨va.name, q.2, .ENVIRONMENT, some q.1, none⟩) ++
        (sortPairsByKey (groupLoc M (bsOf M va.name))).map
          (fun q => ⟨va.name, q.2, .LOCATION, none,
            lookupIdByName m2.locations q.1⟩) ++
        ((sortPairsByKey (groupSpecific M (bsOf M va.name))).map
          (fun q => (sortPairsByKey q.2).map
            (fun r => (⟨va.name, r.2, .SPECIFIC, some q.1,
              lookupIdByName m2.locations r.1⟩ : VariableValue)))).flatten)) } := by
  obtain ⟨hku, hwfb, hnames⟩ := bsOf_wf hwf va.name
  obtain ⟨h1, h2, h3, h4, h5, h6, h7, h8, h9, h10⟩ := roundTripWf_parts hwf
  have hm2names : (m2.locations.map Location.name).Nodup := mls_names_nodup hperm h5
  have hm2ids : (m2.locations.map Location.location_id).Nodup := mls_ids_nodup hperm h4
  have hnperm := mls_names_perm hperm
  have hgs := groupSpecific_spec M (bsOf M va.name)
    (specPairs_nodup hku hwfb hnames h5)
  -- key facts for the three groups, at the sorted lists
  have hCmem : ∀ q ∈ sortPairsByKey (groupEnv (bsOf M va.name)),
      q.1 ∈ M.environments := by
    intro q hq
    exact (envKeys_mem hwf va.name q.1 (List.mem_map_of_mem Prod.fst
      ((sortPairsByKey_perm _).mem_iff.mp hq))).1
  have hCnd : ((sortPairsByKey (groupEnv (bsOf M va.name))).map Prod.fst).Nodup := by
    refine ((sortPairsByKey_perm _).map Prod.fst).nodup_iff.mpr ?_
    rw [groupEnv_eq (envKeys_nodup hku hwfb hnames)]
    exact envKeys_nodup hku hwfb hnames
  have hDmem : ∀ q ∈ sortPairsByKey (groupLoc M (bsOf M va.name)),
      q.1 ∈ M.locations.map Location.name := by
    intro q hq
    exact locKeysGroup_mem hwf va.name q.1 (List.mem_map_of_mem Prod.fst
      ((sortPairsByKey_perm _).mem_iff.mp hq))
  have hDnd : ((sortPairsByKey (groupLoc M (bsOf M va.name))).map Prod.fst).Nodup := by
    refine ((sortPairsByKey_perm _).map Prod.fst).nodup_iff.mpr ?_
    rw [groupLoc_eq (locKeys_nodup hku hwfb hnames h5)]
    exact locKeys_nodup hku hwfb hnames h5
  have hEmem : ∀ q ∈ sortPairsByKey (groupSpecific M (bsOf M va.name)),
      q.1 ∈ M.environments := by
    intro q hq
    exact (specKeysGroup_mem hwf va.name q.1 (List.mem_map_of_mem Prod.fst
      ((sortPairsByKey_perm _).mem_iff.mp hq))).1
  have hEnd : ((sortPairsByKey (groupSpecific M (bsOf M va.name))).map
      Prod.fst).Nodup := by
    refine ((sortPairsByKey_perm _).map Prod.fst).nodup_iff.mpr ?_
    exact hgs.2.1
  have hEinner : ∀ q ∈ sortPairsByKey (groupSpecific M (bsOf M va.name)),
      ∀ r ∈ sortPairsByKey q.2, r.1 ∈ M.locations.map Location.name := by
    intro q hq r hr
    exact specInnerKeys_mem hwf va.name q
      ((sortPairsByKey_perm _).mem_iff.mp hq) r
      ((sortPairsByKey_perm _).mem_iff.mp hr)
  have hEinnd : ∀ q ∈ sortPairsByKey (groupSpecific M (bsOf M va.name)),
      ((sortPairsByKey q.2).map Prod.fst).Nodup := by
    intro q hq
    refine ((sortPairsByKey_perm _).map Prod.fst).nodup_iff.mpr ?_
    exact (hgs.2.2 q ((sortPairsByKey_perm _).mem_iff.mp hq)).1
  -- unfold the writer block and split the fold
  rw [varDataFor_eq hwf va]
  rw [foldlM_append_except, foldlM_append_except, foldlM_append_except,
    foldlM_append_except]
  -- metadata entries: all skipped
  rw [foldlM_pure_of_all _ (metaEntries va) (fun b hb s => loadVarEntry_meta
    (by rcases metaEntries_keys b.1 (List.mem_map_of_mem Prod.fst hb) with h' | h'
        · exact Or.inl h'
        · exact Or.inr (Or.inr h'))) m2, ok_bind]
  -- default entry: skipped
  rw [foldlM_pure_of_all _ (defaultEntries (bsOf M va.name)) (fun b hb s =>
    loadVarEntry_meta (Or.inr (Or.inl
      (defaultEntries_keys b.1 (List.mem_map_of_mem Prod.fst hb)))) ) m2, ok_bind]
  -- environment entries
  rw [← envEntries_def]
  rw [foldlM_envEntries va.name (sortPairsByKey (groupEnv (bsOf M va.name))) m2
    (fun q hq => (henviff q.1).mpr (hCmem q hq))
    (fun q hq => notin_metadata (h7 q.1 (hCmem q hq)).2)
    hCnd
    (fun q hq vv hvv => by
      rintro ⟨hn', hsc, _⟩
      have := hnob vv hvv hn'
      rw [this] at hsc
      exact Scope.noConfusion hsc), ok_bind]
  -- location entries
  rw [← locEntries_def]
  have hstep2 := foldlM_locEntries va.name
    (sortPairsByKey (groupLoc M (bsOf M va.name)))
    { m2 with variable_values := (m2.variable_values ++
      (sortPairsByKey (groupEnv (bsOf M va.name))).map
        (fun q => ⟨va.name, q.2, .ENVIRONMENT, some q.1, none⟩)) }
    (fun q hq => hnperm.mem_iff.mpr (hDmem q hq))
    (fun q hq => notin_metadata (by
      obtain ⟨lo, hlo, hlon⟩ := List.mem_map.mp (hDmem q hq)
      exact hlon ▸ (h6 lo hlo).2))
    (fun q hq hqenv => (h7 q.1 ((henviff q.1).mp hqenv)).1 (hDmem q hq))
    hDnd hm2names hm2ids
    (fun q hq vv hvv => by
      rcases List.mem_append.mp hvv with hvv | hvv
      · rintro ⟨hn', hsc, _⟩
        have := hnob vv hvv hn'
        rw [this] at hsc
        exact Scope.noConfusion hsc
      · obtain ⟨q', hq', hqv⟩ := List.mem_map.mp hvv
        rintro ⟨_, hsc, _⟩
        rw [← hqv] at hsc
        simp at hsc)
  have hstep2' := hstep2.trans (show _ = Except.ok
    { m2 with variable_values := (m2.variable_values ++
      ((sortPairsByKey (groupEnv (bsOf M va.name))).map
        (fun q => ⟨va.name, q.2, .ENVIRONMENT, some q.1, none⟩) ++
      (sortPairsByKey (groupLoc M (bsOf M va.name))).map
        (fun q => (⟨va.name, q.2, .LOCATION, none,
          lookupIdByName m2.locations q.1⟩ : VariableValue)))) } from by
    simp [List.append_assoc])
  rw [hstep2', ok_bind]
  -- specific entries
  have hreshape : specEntries M (bsOf M va.name) =
      ((sortPairsByKey (groupSpecific M (bsOf M va.name))).map
        (fun q => (q.1, sortPairsByKey q.2))).map
        (fun p => (p.1, YVal.ymap (p.2.map (fun r => (r.1, YVal.scalar r.2))))) := by
    rw [← specEntries_def, List.map_map]
    rfl
  rw [hreshape]
  have hstep3 := foldlM_specEntries va.name
    ((sortPairsByKey (groupSpecific M (bsOf M va.name))).map
      (fun q => (q.1, sortPairsByKey q.2)))
    { m2 with variable_values := (m2.variable_values ++
      ((sortPairsByKey (groupEnv (bsOf M va.name))).map
        (fun q => ⟨va.name, q.2, .ENVIRONMENT, some q.1, none⟩) ++
      (sortPairsByKey (groupLoc M (bsOf M va.name))).map
        (fun q => (⟨va.name, q.2, .LOCATION, none,
          lookupIdByName m2.locations q.1⟩ : VariableValue)))) }
    (fun p hp => by
      obtain ⟨q, hq, hpq⟩ := List.mem_map.mp hp
      have : p.1 = q.1 := by rw [← hpq]
      rw [this]
      exact (henviff q.1).mpr (hEmem q hq))
    (fun p hp => by
      obtain ⟨q, hq, hpq⟩ := List.mem_map.mp hp
      have hp1 : p.1 = q.1 := by rw [← hpq]
      rw [hp1]
      exact notin_metadata (h7 q.1 (hEmem q hq)).2)
    (fun p hp r hr => by
      obtain ⟨q, hq, hpq⟩ := List.mem_map.mp hp
      have hp2 : p.2 = sortPairsByKey q.2 := by rw [← hpq]
      rw [hp2] at hr
      exact hnperm.mem_iff.mpr (hEinner q hq r hr))
    (fun p hp => by
      obtain ⟨q, hq, hpq⟩ := List.mem_map.mp hp
      have hp2 : p.2 = sortPairsByKey q.2 := by rw [← hpq]
      rw [hp2]
      exact hEinnd q hq)
    hm2names hm2ids
    (fun p hp r hr vv hvv => by
      rcases List.mem_append.mp hvv with hvv | hvv
      · rintro ⟨hn', hsc, _⟩
        have := hnob vv hvv hn'
        rw [this] at hsc
        exact Scope.noConfusion hsc
      · rcases List.mem_append.mp hvv with hvv | hvv
        · obtain ⟨q', hq', hqv⟩ := List.mem_map.mp hvv
          rintro ⟨_, hsc, _⟩
          rw [← hqv] at hsc
          simp at hsc
        · obtain ⟨q', hq', hqv⟩ := List.mem_map.mp hvv
          rintro ⟨_, hsc, _⟩
          rw [← hqv] at hsc
          simp at hsc)
    (by
      have : (((sortPairsByKey (groupSpecific M (bsOf M va.name))).map
          (fun q => (q.1, sortPairsByKey q.2))).map Prod.fst) =
          ((sortPairsByKey (groupSpecific M (bsOf M va.name))).map Prod.fst) := by
        rw [List.map_map]
        rfl
      rw [this]
      exact hEnd)
  refine hstep3.trans ?_
  simp only [Except.ok.injEq]
  have hflat : ((sortPairsByKey (groupSpecific M (bsOf M va.name))).map
      (fun q => (q.1, sortPairsByKey q.2))).map
      (fun p => p.2.map (fun r => (⟨va.name, r.2, .SPECIFIC, some p.1,
        lookupIdByName m2.locations r.1⟩ : VariableValue))) =
      (sortPairsByKey (groupSpecific M (bsOf M va.name))).map
        (fun q => (sortPairsByKey q.2).map
          (fun r => (⟨va.name, r.2, .SPECIFIC, some q.1,
            lookupIdByName m2.locations r.1⟩ : VariableValue))) := by
    rw [List.map_map]
    rfl
  rw [hflat]
  simp [List.append_assoc]

theorem loadVarBlock_ok {M : VariableManager} (hwf : roundTripWfB M = true)
    (va : Variable) (hva : va ∈ M.variables_) (m : VariableManager)
    (henviff : ∀ e, e ∈ m.environments ↔ e ∈ M.environments)
    (hperm : List.Perm (locPairs m.locations) (locPairs M.locations))
    (hfreshname : va.name ∉ m.variables_.map Variable.name)
    (hnovv : ∀ vv ∈ m.variable_values, vv.variable_name ≠ va.name) :
    ∃ newBs,
      loadVarBlock m va.name (varDataFor M va) =
        .ok { m with
          variables_ := (m.variables_ ++ [⟨va.name,
            yGetStr (varDataFor M va) "description",
            yGetStr (varDataFor M va) "validation"⟩]),
          variable_values := (m.variable_values ++ newBs) } ∧
      (∀ vv, vv ∈ newBs ↔ vv ∈ M.variable_values ∧ vv.variable_name = va.name) := by
  obtain ⟨h1, h2, h3, h4, h5, h6, h7, h8, h9, h10⟩ := roundTripWf_parts hwf
  have hup : strUpper va.name = va.name := h2 va hva
  have haddvar : m.add_variable ⟨va.name, yGetStr (varDataFor M va) "description",
      yGetStr (varDataFor M va) "validation"⟩ =
      .ok { m with variables_ := (m.variables_ ++ [⟨va.name,
        yGetStr (varDataFor M va) "description",
        yGetStr (varDataFor M va) "validation"⟩]) } := by
    rw [VariableManager.add_variable, if_neg]
    rw [List.any_eq_true]
    rintro ⟨v', hv', hnm⟩
    simp only [decide_eq_true_eq] at hnm
    exact hfreshname (hnm ▸ List.mem_map_of_mem Variable.name hv')
  obtain ⟨hku, hwfb, hnames⟩ := bsOf_wf hwf va.name
  have hpdef : ∀ (seg : List (String × YVal)),
      (∀ x ∈ seg, ¬ x.1 = "default") →
      seg.find? (fun p => decide (p.1 = "default")) = none := by
    intro seg hx
    apply List.find?_eq_none.mpr
    intro p hp
    simp only [decide_eq_true_eq]
    exact hx p hp
  have hmetaN := hpdef (metaEntries va) (fun x hx => by
    rcases metaEntries_keys x.1 (List.mem_map_of_mem Prod.fst hx) with h' | h' <;>
      simp [h'])
  have henvN := hpdef (envEntries (bsOf M va.name)) (fun x hx => by
    obtain ⟨q, hq, hqx⟩ := List.mem_map.mp hx
    have hq1 : x.1 = q.1 := by rw [← hqx]
    rw [hq1]
    intro he
    refine (h7 q.1 (envKeys_mem hwf va.name q.1 (List.mem_map_of_mem Prod.fst
      ((sortPairsByKey_perm _).mem_iff.mp hq))).1).2 ?_
    rw [he]
    simp)
  have hlocN := hpdef (locEntries M (bsOf M va.name)) (fun x hx => by
    obtain ⟨q, hq, hqx⟩ := List.mem_map.mp hx
    have hq1 : x.1 = q.1 := by rw [← hqx]
    rw [hq1]
    intro he
    obtain ⟨lo, hlo, hlon⟩ := List.mem_map.mp
      (locKeysGroup_mem hwf va.name q.1 (List.mem_map_of_mem Prod.fst
        ((sortPairsByKey_perm _).mem_iff.mp hq)))
    refine (h6 lo hlo).2 ?_
    rw [hlon, he]
    simp)
  have hspecN := hpdef (specEntries M (bsOf M va.name)) (fun x hx => by
    obtain ⟨q, hq, hqx⟩ := List.mem_map.mp hx
    have hq1 : x.1 = q.1 := by rw [← hqx]
    rw [hq1]
    intro he
    refine (h7 q.1 (specKeysGroup_mem hwf va.name q.1 (List.mem_map_of_mem Prod.fst
      ((sortPairsByKey_perm _).mem_iff.mp hq))).1).2 ?_
    rw [he]
    simp)
  have hfindeq : (varDataFor M va).find? (fun p => decide (p.1 = "default")) =
      (defaultEntries (bsOf M va.name)).find? (fun p => decide (p.1 = "default")) := by
    rw [varDataFor_eq hwf va]
    rw [List.find?_append, List.find?_append, List.find?_append, List.find?_append]
    rw [hmetaN, henvN, hlocN, hspecN]
    simp
  have hmem4 : ∀ vv : VariableValue,
      (vv ∈ (sortPairsByKey (groupEnv (bsOf M va.name))).map
          (fun q => (⟨va.name, q.2, .ENVIRONMENT, some q.1, none⟩ : VariableValue)) ∨
       vv ∈ (sortPairsByKey (groupLoc M (bsOf M va.name))).map
          (fun q => (⟨va.name, q.2, .LOCATION, none,
            lookupIdByName m.locations q.1⟩ : VariableValue)) ∨
       vv ∈ ((sortPairsByKey (groupSpecific M (bsOf M va.name))).map
          (fun q => (sortPairsByKey q.2).map
            (fun r => (⟨va.name, r.2, .SPECIFIC, some q.1,
              lookupIdByName m.locations r.1⟩ : VariableValue)))).flatten) ↔
      (vv ∈ bsOf M va.name ∧ ¬ vv.scope_type = .DEFAULT) := by
    intro vv
    constructor
    · rintro (hvv | hvv | hvv)
      · obtain ⟨hb, hs⟩ := (recon_env_iff hwf va.name vv).mp hvv
        exact ⟨hb, by rw [hs]; exact fun h => Scope.noConfusion h⟩
      · obtain ⟨hb, hs⟩ := (recon_loc_iff hwf va.name hperm vv).mp hvv
        exact ⟨hb, by rw [hs]; exact fun h => Scope.noConfusion h⟩
      · obtain ⟨hb, hs⟩ := (recon_spec_iff hwf va.name hperm vv).mp hvv
        exact ⟨hb, by rw [hs]; exact fun h => Scope.noConfusion h⟩
    · rintro ⟨hb, hs⟩
      cases hsc : vv.scope_type with
      | DEFAULT => exact absurd hsc hs
      | ENVIRONMENT => exact Or.inl ((recon_env_iff hwf va.name vv).mpr ⟨hb, hsc⟩)
      | LOCATION => exact Or.inr (Or.inl
          ((recon_loc_iff hwf va.name hperm vv).mpr ⟨hb, hsc⟩))
      | SPECIFIC => exact Or.inr (Or.inr
          ((recon_spec_iff hwf va.name hperm vv).mpr ⟨hb, hsc⟩))
  rw [loadVarBlock.eq_def]
  simp only [hup, ne_eq, not_true_eq_false, if_false, pure_bind]
  cases hgd : groupDefault (bsOf M va.name) with
  | some dv =>
    have hdf : (defaultEntries (bsOf M va.name)).find?
        (fun p => decide (p.1 = "default")) = some ("default", YVal.scalar dv) := by
      have hde : defaultEntries (bsOf M va.name) = [("default", YVal.scalar dv)] := by
        simp [defaultEntries, hgd]
      rw [hde]
      rfl
    refine ⟨[(⟨va.name, dv, .DEFAULT, none, none⟩ : VariableValue)] ++
      (sortPairsByKey (groupEnv (bsOf M va.name))).map
        (fun q => ⟨va.name, q.2, .ENVIRONMENT, some q.1, none⟩) ++
      (sortPairsByKey (groupLoc M (bsOf M va.name))).map
        (fun q => ⟨va.name, q.2, .LOCATION, none, lookupIdByName m.locations q.1⟩) ++
      ((sortPairsByKey (groupSpecific M (bsOf M va.name))).map
        (fun q => (sortPairsByKey q.2).map
          (fun r => (⟨va.name, r.2, .SPECIFIC, some q.1,
            lookupIdByName m.locations r.1⟩ : VariableValue)))).flatten, ?_, ?_⟩
    · rw [haddvar, ok_bind, hfindeq.trans hdf]
      show ((({ m with variables_ := (m.variables_ ++ [⟨va.name,
          yGetStr (varDataFor M va) "description",
          yGetStr (varDataFor M va) "validation"⟩]) } :
          VariableManager).add_variable_value
          ⟨va.name, dv, .DEFAULT, none, none⟩) >>= fun m =>
          (varDataFor M va).foldlM (fun m p => loadVarEntry m va.name p.1 p.2) m) = _
      have haddvv : (({ m with variables_ := (m.variables_ ++ [⟨va.name,
          yGetStr (varDataFor M va) "description",
          yGetStr (varDataFor M va) "validation"⟩]) } :
          VariableManager).add_variable_value
          ⟨va.name, dv, .DEFAULT, none, none⟩) =
          .ok { m with
            variables_ := (m.variables_ ++ [⟨va.name,
              yGetStr (varDataFor M va) "description",
              yGetStr (varDataFor M va) "validation"⟩]),
            variable_values := (m.variable_values ++
              [⟨va.name, dv, .DEFAULT, none, none⟩]) } := by
        rw [VariableManager.add_variable_value, if_neg]
        rw [List.any_eq_true]
        rintro ⟨ex, hex, hbl⟩
        rw [blocks_default_new (fun hc => hnovv ex hex hc.1)] at hbl
        exact Bool.noConfusion hbl
      rw [haddvv, ok_bind]
      refine (varData_entries_fold hwf va
        { m with
          variables_ := (m.variables_ ++ [⟨va.name,
            yGetStr (varDataFor M va) "description",
            yGetStr (varDataFor M va) "validation"⟩]),
          variable_values := (m.variable_values ++
            [⟨va.name, dv, .DEFAULT, none, none⟩]) }
        henviff hperm ?_).trans ?_
      · intro vv hvv hvn
        rcases List.mem_append.mp hvv with hvv | hvv
        · exact absurd hvn (hnovv vv hvv)
        · rw [List.mem_singleton] at hvv
          rw [hvv]
      · simp [List.append_assoc]
    · intro vv
      simp only [List.append_assoc, List.mem_append, List.mem_singleton]
      constructor
      · rintro (hvv | hvv)
        · rw [hvv]
          obtain ⟨hb, _⟩ := (recon_default_iff hwf va.name hgd
            (⟨va.name, dv, .DEFAULT, none, none⟩ : VariableValue)).mp
            (List.mem_singleton.mpr rfl)
          exact ⟨(bsOf_sub _ hb).1, (bsOf_sub _ hb).2⟩
        · obtain ⟨hb, _⟩ := (hmem4 vv).mp (by tauto)
          exact ⟨(bsOf_sub _ hb).1, (bsOf_sub _ hb).2⟩
      · rintro ⟨hvm, hvn⟩
        have hb : vv ∈ bsOf M va.name := bsOf_mem hvm hvn
        by_cases hd : vv.scope_type = .DEFAULT
        · exact Or.inl (List.mem_singleton.mp
            ((recon_default_iff hwf va.name hgd vv).mpr ⟨hb, hd⟩))
        · have := (hmem4 vv).mpr ⟨hb, hd⟩
          tauto
  | none =>
    refine ⟨(sortPairsByKey (groupEnv (bsOf M va.name))).map
        (fun q => ⟨va.name, q.2, .ENVIRONMENT, some q.1, none⟩) ++
      (sortPairsByKey (groupLoc M (bsOf M va.name))).map
        (fun q => ⟨va.name, q.2, .LOCATION, none, lookupIdByName m.locations q.1⟩) ++
      ((sortPairsByKey (groupSpecific M (bsOf M va.name))).map
        (fun q => (sortPairsByKey q.2).map
          (fun r => (⟨va.name, r.2, .SPECIFIC, some q.1,
            lookupIdByName m.locations r.1⟩ : VariableValue)))).flatten, ?_, ?_⟩
    · have hdf : (defaultEntries (bsOf M va.name)).find?
          (fun p => decide (p.1 = "default")) = none := by
        have hde : defaultEntries (bsOf M va.name) = [] := by
          simp [defaultEntries, hgd]
        rw [hde]
        rfl
      rw [haddvar, ok_bind, hfindeq.trans hdf]
      show ((pure ({ m with variables_ := (m.variables_ ++ [⟨va.name,
          yGetStr (varDataFor M va) "description",
          yGetStr (varDataFor M va) "validation"⟩]) } : VariableManager) :
          Except String VariableManager) >>= fun m =>
          (varDataFor M va).foldlM (fun m p => loadVarEntry m va.name p.1 p.2) m) = _
      rw [pure_bind]
      refine (varData_entries_fold hwf va
        { m with
          variables_ := (m.variables_ ++ [⟨va.name,
            yGetStr (varDataFor M va) "description",
            yGetStr (varDataFor M va) "validation"⟩]) }
        henviff hperm ?_).trans ?_
      · intro vv hvv hvn
        exact absurd hvn (hnovv vv hvv)
      · simp [List.append_assoc]
    · intro vv
      simp only [List.append_assoc, List.mem_append]
      constructor
      · intro hvv
        obtain ⟨hb, _⟩ := (hmem4 vv).mp (by tauto)
        exact ⟨(bsOf_sub _ hb).1, (bsOf_sub _ hb).2⟩
      · rintro ⟨hvm, hvn⟩
        have hb : vv ∈ bsOf M va.name := bsOf_mem hvm hvn
        by_cases hd : vv.scope_type = .DEFAULT
        · exact absurd hd (recon_default_none hwf va.name hgd vv hb)
        · have := (hmem4 vv).mpr ⟨hb, hd⟩
          tauto

theorem docNodupKeys_write {m : VariableManager} (h : roundTripWfB m = true) :
    docNodupKeys (write_envars_yml m) = true := by
  obtain ⟨h1, h2, h3, h4, h5, h6, h7, h8, h9, h10⟩ := roundTripWf_parts h
  have hev : (write_envars_yml m).environment_variables =
      (sortVariables m.variables_).map (fun va => (va.name, varDataFor m va)) := rfl
  rw [docNodupKeys, Bool.and_eq_true]
  constructor
  · rw [hev, decide_eq_true_eq, List.map_map]
    have hc : ((sortVariables m.variables_).map
        (Prod.fst ∘ fun va => (va.name, varDataFor m va))) =
        (sortVariables m.variables_).map Variable.name := rfl
    rw [hc]
    exact ((sortVariables_perm _).map Variable.name).nodup_iff.mpr h1
  · rw [hev, List.all_eq_true]
    intro vb hvb
    obtain ⟨va, hva, hvavb⟩ := List.mem_map.mp hvb
    have hvb2 : vb.2 = varDataFor m va := by rw [← hvavb]
    rw [Bool.and_eq_true]
    constructor
    · rw [decide_eq_true_eq, hvb2, varDataFor_eq h va]
      have := blockKeys_nodup h va
      simpa [List.map_append] using this
    · rw [List.all_eq_true]
      intro x hx
      rw [hvb2, varDataFor_eq h va] at hx
      have hscalar : (∃ v, x.2 = YVal.scalar v) →
          (match x.2 with
           | YVal.scalar _ => true
           | YVal.ymap es => decide ((es.map Prod.fst).Nodup)) = true := by
        rintro ⟨v, hv⟩
        rw [hv]
      rcases List.mem_append.mp hx with hx | hx
      · rcases List.mem_append.mp hx with hx | hx
        · rcases List.mem_append.mp hx with hx | hx
          · rcases List.mem_append.mp hx with hx | hx
            · refine hscalar ?_
              simp only [metaEntries, List.mem_append] at hx
              rcases hx with hx | hx
              · by_cases hd : truthy va.description
                · rw [if_pos hd, List.mem_singleton] at hx
                  exact ⟨_, by rw [hx]⟩
                · rw [if_neg hd] at hx
                  cases hx
              · by_cases hd : truthy va.validation
                · rw [if_pos hd, List.mem_singleton] at hx
                  exact ⟨_, by rw [hx]⟩
                · rw [if_neg hd] at hx
                  cases hx
            · refine hscalar ?_
              rw [defaultEntries] at hx
              cases hgd : groupDefault (bsOf m va.name) with
              | none => rw [hgd] at hx; cases hx
              | some dv =>
                rw [hgd, List.mem_singleton] at hx
                exact ⟨_, by rw [hx]⟩
          · refine hscalar ?_
            obtain ⟨q, _, hq⟩ := List.mem_map.mp hx
            exact ⟨q.2, by rw [← hq]⟩
        · refine hscalar ?_
          obtain ⟨q, _, hq⟩ := List.mem_map.mp hx
          exact ⟨q.2, by rw [← hq]⟩
      · obtain ⟨q, hq, hqx⟩ := List.mem_map.mp hx
        have hx2 : x.2 = YVal.ymap ((sortPairsByKey q.2).map
            (fun r => (r.1, YVal.scalar r.2))) := by rw [← hqx]
        rw [hx2]
        rw [decide_eq_true_eq]
        have hqk : ((sortPairsByKey q.2).map
            (fun r => (r.1, YVal.scalar r.2))).map Prod.fst =
            (sortPairsByKey q.2).map Prod.fst := map_fst_pair_map _ _
        rw [hqk]
        obtain ⟨hku, hwfb, hnames⟩ := bsOf_wf h va.name
        have hgs := groupSpecific_spec m (bsOf m va.name)
          (specPairs_nodup hku hwfb hnames h5)
        refine ((sortPairsByKey_perm _).map Prod.fst).nodup_iff.mpr ?_
        exact (hgs.2.2 q ((sortPairsByKey_perm _).mem_iff.mp hq)).1

theorem locPairs_map_locOfEntry (ls : List Location) :
    locPairs (((ls.map (fun lo =>
      if truthy lo.kms_key then (lo.name, LocEntry.detailed lo.location_id lo.kms_key)
      else (lo.name, LocEntry.plainId lo.location_id)))).map locOfEntry) =
    locPairs ls := by
  induction ls with
  | nil => rfl
  | cons lo ls ih =>
    simp only [List.map_cons, locPairs] at ih ⊢
    by_cases hk : truthy lo.kms_key
    · rw [if_pos hk]
      simp only [locOfEntry]
      rw [ih]
    · rw [if_neg hk]
      simp only [locOfEntry]
      rw [ih]

theorem foldlM_blocks {M : VariableManager} (hwf : roundTripWfB M = true) :
    ∀ (vas : List Variable) (m : VariableManager),
    (∀ va ∈ vas, va ∈ M.variables_) →
    ((vas.map Variable.name).Nodup) →
    (∀ va ∈ vas, va.name ∉ m.variables_.map Variable.name) →
    (∀ vv ∈ m.variable_values, ∀ va ∈ vas, vv.variable_name ≠ va.name) →
    (∀ e, e ∈ m.environments ↔ e ∈ M.environments) →
    (List.Perm (locPairs m.locations) (locPairs M.locations)) →
    ∃ m2 : VariableManager,
      (vas.map (fun va => (va.name, varDataFor M va))).foldlM
        (fun m vb => loadVarBlock m vb.1 vb.2) m = .ok m2 ∧
      m2.variables_.map Variable.name =
        m.variables_.map Variable.name ++ vas.map Variable.name ∧
      m2.environments = m.environments ∧
      m2.locations = m.locations ∧
      (∀ vv, vv ∈ m2.variable_values ↔ vv ∈ m.variable_values ∨
        (vv ∈ M.variable_values ∧ ∃ va ∈ vas, vv.variable_name = va.name)) := by
  intro vas
  induction vas with
  | nil =>
    intro m _ _ _ _ _ _
    refine ⟨m, rfl, by simp, rfl, rfl, ?_⟩
    intro vv
    simp
  | cons va vas ih =>
    intro m hin hnd hfresh hnovv henviff hperm
    simp only [List.map_cons, List.foldlM_cons]
    obtain ⟨newBs, hstep, hmem⟩ := loadVarBlock_ok hwf va
      (hin va (List.mem_cons_self _ _)) m henviff hperm
      (hfresh va (List.mem_cons_self _ _))
      (fun vv hvv => hnovv vv hvv va (List.mem_cons_self _ _))
    rw [hstep, ok_bind]
    simp only [List.map_cons] at hnd
    have hfresh' : ∀ x ∈ vas, x.name ∉
        (m.variables_ ++ [(⟨va.name,
          yGetStr (varDataFor M va) "description",
          yGetStr (varDataFor M va) "validation"⟩ : Variable)]).map Variable.name := by
      intro x hx
      rw [List.map_append]
      intro hmemx
      rcases List.mem_append.mp hmemx with hmemx | hmemx
      · exact hfresh x (List.mem_cons_of_mem _ hx) hmemx
      · simp only [List.map_cons, List.map_nil, List.mem_singleton] at hmemx
        exact (List.nodup_cons.mp hnd).1
          (hmemx ▸ List.mem_map_of_mem Variable.name hx)
    have hnovv' : ∀ vv ∈ (m.variable_values ++ newBs), ∀ x ∈ vas,
        vv.variable_name ≠ x.name := by
      intro vv hvv x hx
      rcases List.mem_append.mp hvv with hvv | hvv
      · exact hnovv vv hvv x (List.mem_cons_of_mem _ hx)
      · obtain ⟨_, hn⟩ := (hmem vv).mp hvv
        rw [hn]
        intro he
        exact (List.nodup_cons.mp hnd).1 (he ▸ List.mem_map_of_mem Variable.name hx)
    obtain ⟨m2, hfold, hnames2, henv2, hloc2, hvv2⟩ := ih
      { m with
        variables_ := (m.variables_ ++ [⟨va.name,
          yGetStr (varDataFor M va) "description",
          yGetStr (varDataFor M va) "validation"⟩]),
        variable_values := (m.variable_values ++ newBs) }
      (fun x hx => hin x (List.mem_cons_of_mem _ hx))
      hnd.of_cons hfresh' hnovv' henviff hperm
    refine ⟨m2, hfold, ?_, henv2, hloc2, ?_⟩
    · rw [hnames2]
      simp [List.map_append]
    · intro vv
      rw [hvv2]
      constructor
      · rintro (hvv | hvv)
        · rcases List.mem_append.mp hvv with hvv | hvv
          · exact Or.inl hvv
          · obtain ⟨hm, hn⟩ := (hmem vv).mp hvv
            exact Or.inr ⟨hm, va, List.mem_cons_self _ _, hn⟩
        · obtain ⟨hm, x, hx, hn⟩ := hvv
          exact Or.inr ⟨hm, x, List.mem_cons_of_mem _ hx, hn⟩
      · rintro (hvv | hvv)
        · exact Or.inl (List.mem_append.mpr (Or.inl hvv))
        · obtain ⟨hm, x, hx, hn⟩ := hvv
          rcases List.mem_cons.mp hx with rfl | hx
          · exact Or.inl (List.mem_append.mpr (Or.inr ((hmem vv).mpr ⟨hm, hn⟩)))
          · exact Or.inr ⟨hm, x, hx, hn⟩

theorem load_tail_ok {M : VariableManager} (hwf : roundTripWfB M = true)
    (es : List String) (ps : List (String × LocEntry)) (a k : Option String)
    (dm : Bool)
    (hes : List.Perm es M.environments)
    (hps : List.Perm (locPairs (ps.map locOfEntry)) (locPairs M.locations)) :
    ∃ M2,
      ((es.foldlM (fun m e => m.add_environment e)
        ({ app := a, kms_key := k, description_mandatory := dm } :
          VariableManager)) >>=
      fun m => (ps.foldlM (fun m p =>
          match p.2 with
          | .detailed id kms => m.add_location ⟨p.1, id, kms⟩
          | .plainId id => m.add_location ⟨p.1, id, none⟩) m) >>=
        fun m => ((sortVariables M.variables_).map
            (fun va => (va.name, varDataFor M va))).foldlM
          (fun m vb => loadVarBlock m vb.1 vb.2) m) = .ok M2 ∧
      (M2.variables_.map Variable.name =
        (sortVariables M.variables_).map Variable.name) ∧
      List.Perm (locPairs M2.locations) (locPairs M.locations) ∧
      (∀ vv, vv ∈ M2.variable_values ↔ vv ∈ M.variable_values) := by
  obtain ⟨h1, h2, h3, h4, h5, h6, h7, h8, h9, h10⟩ := roundTripWf_parts hwf
  have hnd1 : (([] : List String) ++ es).Nodup := by
    rw [List.nil_append]
    exact hes.nodup_iff.mpr h3
  have hnd2 : (([] : List String) ++
      (ps.map locOfEntry).map Location.location_id).Nodup := by
    rw [List.nil_append, ← locPairs_snd]
    refine ((hps.map Prod.snd).nodup_iff).mpr ?_
    rw [locPairs_snd]
    exact h4
  obtain ⟨m2, hfold, hnames2, henv2, hloc2, hvv2⟩ := foldlM_blocks hwf
    (sortVariables M.variables_)
    ({ app := a, kms_key := k, description_mandatory := dm,
       environments := es, locations := ps.map locOfEntry } : VariableManager)
    (fun x hx => (sortVariables_perm _).mem_iff.mp hx)
    (((sortVariables_perm _).map Variable.name).nodup_iff.mpr h1)
    (fun x hx hmem => absurd hmem (List.not_mem_nil _))
    (fun vv hvv => absurd hvv (List.not_mem_nil _))
    (fun e => hes.mem_iff)
    hps
  refine ⟨m2, ?_, ?_, ?_, ?_⟩
  · have hA : es.foldlM (fun m e => m.add_environment e)
        ({ app := a, kms_key := k, description_mandatory := dm } :
          VariableManager) =
        .ok ({ app := a, kms_key := k, description_mandatory := dm,
               environments := es } : VariableManager) :=
      foldlM_add_environment es
        ({ app := a, kms_key := k, description_mandatory := dm } :
          VariableManager) hnd1
    have hB : ps.foldlM (fun m p =>
          match p.2 with
          | .detailed id kms => m.add_location ⟨p.1, id, kms⟩
          | .plainId id => m.add_location ⟨p.1, id, none⟩)
        ({ app := a, kms_key := k, description_mandatory := dm,
           environments := es } : VariableManager) =
        .ok ({ app := a, kms_key := k, description_mandatory := dm,
               environments := es, locations := ps.map locOfEntry } :
          VariableManager) :=
      foldlM_add_location ps
        ({ app := a, kms_key := k, description_mandatory := dm,
           environments := es } : VariableManager) hnd2
    rw [hA, ok_bind, hB, ok_bind]
    exact hfold
  · refine hnames2.trans ?_
    simp
  · rw [hloc2]
    exact hps
  · intro vv
    rw [hvv2 vv]
    constructor
    · rintro (h | ⟨hm, _⟩)
      · exact absurd h (List.not_mem_nil _)
      · exact hm
    · intro hm
      obtain ⟨_, ⟨x, hx, hxn⟩, _, _⟩ := h9 vv hm
      exact Or.inr ⟨hm, x, (sortVariables_perm _).mem_iff.mpr hx, hxn.symm⟩

theorem anyMap {α β : Type} (f : α → β) (l : List α) (p : β → Bool) :
    (l.map f).any p = l.any (fun a => p (f a)) := by
  induction l with
  | nil => rfl
  | cons a l ih => simp [List.any_cons, ih]

theorem fst_nodup_mem_eq {α β : Type} {l : List (α × β)}
    (h : (l.map Prod.fst).Nodup)
    {a b : α × β} (ha : a ∈ l) (hb : b ∈ l) (hfst : a.1 = b.1) : a = b := by
  by_contra hne
  exact (List.pairwise_map.mp h).forall
    (by intro x y hxy; exact fun ee => hxy ee.symm) ha hb hne hfst

theorem keyUnique_mem_eq {bs : List VariableValue} (h : KeyUnique bs)
    {a b : VariableValue} (ha : a ∈ bs) (hb : b ∈ bs)
    (hk : a.key = b.key) : a = b := by
  by_contra hne
  have hp : bs.Pairwise (fun a b : VariableValue => a.key ≠ b.key) := h
  exact hp.forall (by intro x y hxy; exact fun ee => hxy ee.symm) ha hb hne hk

theorem cand_find?_eq {M2 M : VariableManager}
    (hvv : ∀ vv, vv ∈ M2.variable_values ↔ vv ∈ M.variable_values)
    (hku : KeyUnique M.variable_values)
    (hwfs : ∀ vv ∈ M.variable_values, vv.scopeWfB = true)
    (v : String) (p : VariableValue → Bool)
    (hdet : ∀ a b : VariableValue, a.scopeWfB = true → b.scopeWfB = true →
      a.variable_name = b.variable_name → p a = true → p b = true →
      a.key = b.key) :
    (M2.variable_values.filter (fun vv => decide (vv.variable_name = v))).find? p =
    (M.variable_values.filter (fun vv => decide (vv.variable_name = v))).find? p := by
  apply find?_eq_of_mem_iff
  · intro x
    constructor
    · intro hx
      obtain ⟨hm, hn⟩ := List.mem_filter.mp hx
      exact List.mem_filter.mpr ⟨(hvv x).mp hm, hn⟩
    · intro hx
      obtain ⟨hm, hn⟩ := List.mem_filter.mp hx
      exact List.mem_filter.mpr ⟨(hvv x).mpr hm, hn⟩
  · intro x y hx hy hpx hpy
    obtain ⟨hmx, hnx⟩ := List.mem_filter.mp hx
    obtain ⟨hmy, hny⟩ := List.mem_filter.mp hy
    have hmx2 := (hvv x).mp hmx
    have hmy2 := (hvv y).mp hmy
    refine keyUnique_mem_eq hku hmx2 hmy2 ?_
    exact hdet x y (hwfs x hmx2) (hwfs y hmy2)
      ((of_decide_eq_true hnx).trans (of_decide_eq_true hny).symm) hpx hpy

theorem get_variable_ext {M2 M : VariableManager}
    (hku : KeyUnique M.variable_values)
    (hwfs : ∀ vv ∈ M.variable_values, vv.scopeWfB = true)
    (hnd5 : (M.locations.map Location.name).Nodup)
    (hnames : M2.variables_.map Variable.name =
      (sortVariables M.variables_).map Variable.name)
    (hlperm : List.Perm (locPairs M2.locations) (locPairs M.locations))
    (hvv : ∀ vv, vv ∈ M2.variable_values ↔ vv ∈ M.variable_values)
    (v : String) (e l : Option String) :
    M2.get_variable v e l = M.get_variable v e l := by
  have hany : (M2.variables_.any fun va => decide (va.name = v)) =
      (M.variables_.any fun va => decide (va.name = v)) := by
    have hp : List.Perm (M2.variables_.map Variable.name)
        (M.variables_.map Variable.name) := by
      rw [hnames]
      exact (sortVariables_perm _).map _
    have e2 : ((M2.variables_.map Variable.name).any fun n => decide (n = v)) =
        ((M.variables_.map Variable.name).any fun n => decide (n = v)) := by
      rw [Bool.eq_iff_iff]
      simp only [List.any_eq_true]
      exact ⟨fun ⟨a, ha, hpa⟩ => ⟨a, hp.mem_iff.mp ha, hpa⟩,
        fun ⟨a, ha, hpa⟩ => ⟨a, hp.mem_iff.mpr ha, hpa⟩⟩
    rw [anyMap, anyMap] at e2
    exact e2
  have hpair : (locPairs M2.locations).find? (fun q => decide (some q.1 = l)) =
      (locPairs M.locations).find? (fun q => decide (some q.1 = l)) := by
    apply find?_eq_of_mem_iff
    · intro x
      exact hlperm.mem_iff
    · intro x y hx hy hpx hpy
      have hnod2 : ((locPairs M2.locations).map Prod.fst).Nodup := by
        refine ((hlperm.map Prod.fst).nodup_iff).mpr ?_
        rw [locPairs_fst]
        exact hnd5
      refine fst_nodup_mem_eq hnod2 hx hy ?_
      exact Option.some.inj
        ((of_decide_eq_true hpx).trans (of_decide_eq_true hpy).symm)
  have hfid : (M2.locations.find? (fun lo => decide (some lo.name = l))).map
      Location.location_id =
      (M.locations.find? (fun lo => decide (some lo.name = l))).map
      Location.location_id := by
    have hq1 := hpair
    unfold locPairs at hq1
    rw [List.find?_map, List.find?_map] at hq1
    have hq2 := congrArg (Option.map Prod.snd) hq1
    rw [Option.map_map, Option.map_map] at hq2
    exact hq2
  unfold VariableManager.get_variable
  rw [hany]
  by_cases hex : (M.variables_.any fun va => decide (va.name = v)) = true
  · simp only [hex, not_true, if_false, ite_false, Bool.not_true, reduceIte]
    have hlid : (if truthy l = true then
          match M2.locations.find? (fun lo => decide (some lo.name = l)) with
          | some lo => some lo.location_id
          | none => none
        else none) =
        (if truthy l = true then
          match M.locations.find? (fun lo => decide (some lo.name = l)) with
          | some lo => some lo.location_id
          | none => none
        else none) := by
      cases htl : truthy l with
      | false => rfl
      | true =>
        rw [if_pos rfl, if_pos rfl]
        cases hf2 : M2.locations.find? (fun lo => decide (some lo.name = l)) with
        | none =>
          cases hf1 : M.locations.find? (fun lo => decide (some lo.name = l)) with
          | none => rfl
          | some lo1 =>
            rw [hf2, hf1] at hfid
            simp at hfid
        | some lo2 =>
          cases hf1 : M.locations.find? (fun lo => decide (some lo.name = l)) with
          | none =>
            rw [hf2, hf1] at hfid
            simp at hfid
          | some lo1 =>
            rw [hf2, hf1] at hfid
            simp only [Option.map_some', Option.some.injEq] at hfid
            show some lo2.location_id = some lo1.location_id
            rw [hfid]
    rw [hlid]
    generalize (if truthy l = true then
        match M.locations.find? (fun lo => decide (some lo.name = l)) with
        | some lo => some lo.location_id
        | none => none
      else none) = lid
    have hspec := cand_find?_eq hvv hku hwfs v
      (fun vv => decide (vv.scope_type = Scope.SPECIFIC ∧
        vv.environment_name = e ∧ vv.location_id = lid))
      (by
        intro x y hwx hwy hn hpx hpy
        simp only [decide_eq_true_eq] at hpx hpy
        obtain ⟨hsx, hex2, hlx⟩ := hpx
        obtain ⟨hsy, hey, hly⟩ := hpy
        unfold VariableValue.key
        rw [hn, hsx, hsy, hex2, hey, hlx, hly])
    have henvf := cand_find?_eq hvv hku hwfs v
      (fun vv => decide (vv.scope_type = Scope.ENVIRONMENT ∧
        vv.environment_name = e))
      (by
        intro x y hwx hwy hn hpx hpy
        simp only [decide_eq_true_eq] at hpx hpy
        obtain ⟨hsx, hex2⟩ := hpx
        obtain ⟨hsy, hey⟩ := hpy
        have hlx := (scopeWf_env hwx hsx).2
        have hly := (scopeWf_env hwy hsy).2
        unfold VariableValue.key
        rw [hn, hsx, hsy, hex2, hey, hlx, hly])
    have hlocf := cand_find?_eq hvv hku hwfs v
      (fun vv => decide (vv.scope_type = Scope.LOCATION ∧
        vv.location_id = lid))
      (by
        intro x y hwx hwy hn hpx hpy
        simp only [decide_eq_true_eq] at hpx hpy
        obtain ⟨hsx, hlx⟩ := hpx
        obtain ⟨hsy, hly⟩ := hpy
        have hex2 := (scopeWf_loc hwx hsx).1
        have hey := (scopeWf_loc hwy hsy).1
        unfold VariableValue.key
        rw [hn, hsx, hsy, hex2, hey, hlx, hly])
    have hdeff := cand_find?_eq hvv hku hwfs v
      (fun vv => decide (vv.scope_type = Scope.DEFAULT))
      (by
        intro x y hwx hwy hn hpx hpy
        simp only [decide_eq_true_eq] at hpx hpy
        have hx2 := scopeWf_default hwx hpx
        have hy2 := scopeWf_default hwy hpy
        unfold VariableValue.key
        rw [hn, hpx, hpy, hx2.1, hy2.1, hx2.2, hy2.2])
    rw [hspec, henvf, hlocf, hdeff]
  · rw [if_pos hex, if_pos hex]

theorem load_write_ok {M : VariableManager} (hwf : roundTripWfB M = true) :
    ∃ M2, load_from_yaml (write_envars_yml M) = .ok M2 ∧
      (M2.variables_.map Variable.name =
        (sortVariables M.variables_).map Variable.name) ∧
      List.Perm (locPairs M2.locations) (locPairs M.locations) ∧
      (∀ vv, vv ∈ M2.variable_values ↔ vv ∈ M.variable_values) := by
  obtain ⟨h1, h2, h3, h4, h5, h6, h7, h8, h9, h10⟩ := roundTripWf_parts hwf
  have hdup := docNodupKeys_write hwf
  have hpsM : List.Perm (locPairs ((locationsData M).map locOfEntry))
      (locPairs M.locations) := by
    rw [locationsData, locPairs_map_locOfEntry]
    exact (sortByName_perm _).map _
  rw [load_from_yaml.eq_def]
  simp only [hdup, not_true_eq_false, if_false, pure_bind]
  have hconf : (write_envars_yml M).configuration =
      (if (truthy M.app || truthy M.kms_key || M.description_mandatory ||
          !M.environments.isEmpty || !(locationsData M).isEmpty) = true then
        some ({ app := M.app, kms_key := M.kms_key,
                description_mandatory := M.description_mandatory,
                environments := sortStrings M.environments,
                locations := locationsData M } : YCfg)
      else none) := rfl
  rw [hconf]
  by_cases hct : (truthy M.app || truthy M.kms_key || M.description_mandatory ||
      !M.environments.isEmpty || !(locationsData M).isEmpty) = true
  · rw [if_pos hct]
    simp only [Option.getD_some]
    exact load_tail_ok hwf (sortStrings M.environments) (locationsData M)
      M.app M.kms_key M.description_mandatory (sortStrings_perm _) hpsM
  · rw [if_neg hct]
    simp only [Option.getD_none]
    have hcomp : M.environments.isEmpty = true ∧
        (locationsData M).isEmpty = true := by
      rcases Bool.eq_false_or_eq_true M.environments.isEmpty with hd | hd <;>
      rcases Bool.eq_false_or_eq_true (locationsData M).isEmpty with hf | hf <;>
        simp [hd, hf] at hct ⊢
    have hMenv : M.environments = [] := by
      cases he : M.environments with
      | nil => rfl
      | cons x xs =>
        rw [he] at hcomp
        simp [List.isEmpty] at hcomp
    have hMloc : M.locations = [] := by
      have hld : locationsData M = [] := by
        cases he : locationsData M with
        | nil => rfl
        | cons x xs =>
          rw [he] at hcomp
          simp [List.isEmpty] at hcomp
      rw [locationsData] at hld
      have hsort : sortByName M.locations = [] := by
        cases he : sortByName M.locations with
        | nil => rfl
        | cons x xs =>
          rw [he] at hld
          cases hld
      have hp := sortByName_perm M.locations
      rw [hsort] at hp
      exact hp.symm.eq_nil
    exact load_tail_ok hwf [] [] none none false
      (by rw [hMenv]) (by rw [hMloc]; rfl)

/-- C3 counterexample: writing and re-loading `mgrEnvSpecClash` loses the
ENVIRONMENT(dev) binding (the writer overwrites the `dev` scalar with the
SPECIFIC mapping), so the resolver's view differs at (dev, gcp): `e` before,
nothing after. -/
theorem c3_counterexample_env_specific_clash :
    (load_from_yaml (write_envars_yml mgrEnvSpecClash)).map
      (fun m2 => m2.get_variable "V" (some "dev") (some "gcp")) ≠
      .ok (mgrEnvSpecClash.get_variable "V" (some "dev") (some "gcp")) := by decide

/-- C3 (amended): the round-trip law `load(write(D)) == D` under the
resolver's view holds for every well-formed document — unique uppercase
variable names; duplicate-free environments and locations with nonempty,
non-metadata location names disjoint from environment names; uniquely-keyed,
scope-wellformed bindings over declared variables and configured axes; and no
variable carrying both an `ENVIRONMENT(e)` and a `SPECIFIC(e, ·)` binding
(without the last condition the law fails, see the counterexample): the
loader succeeds on the written document and every `get_variable` query
answers identically on the reloaded and the original manager. -/
theorem c3_round_trip_for_wf_documents {M : VariableManager}
    (hwf : roundTripWfB M = true) :
    ∃ M2, load_from_yaml (write_envars_yml M) = .ok M2 ∧
      ∀ v e l, M2.get_variable v e l = M.get_variable v e l := by
  obtain ⟨M2, hok, hnames, hperm, hvv⟩ := load_write_ok hwf
  obtain ⟨h1, h2, h3, h4, h5, h6, h7, h8, h9, h10⟩ := roundTripWf_parts hwf
  exact ⟨M2, hok, fun v e l =>
    get_variable_ext h8 (fun vv hv => (h9 vv hv).1) h5 hnames hperm hvv v e l⟩

/-- C3 witness: the round-trip theorem applied to the four-scope document
`mgrRoundTrip`. -/
theorem c3_witness :
    roundTripWfB mgrRoundTrip = true ∧
    (∃ M2, load_from_yaml (write_envars_yml mgrRoundTrip) = .ok M2 ∧
      ∀ v e l, M2.get_variable v e l = mgrRoundTrip.get_variable v e l) :=
  ⟨by decide, c3_round_trip_for_wf_documents (by decide)⟩

end Envars
